import Mathlib

/-!
# Verification of python-fastimport against its specification

This development is a shallow embedding of the fast-import stream library
(`fastimport/commands.py`, `fastimport/parser.py`,
`fastimport/processors/filter_processor.py`, `fastimport/reftracker.py`,
`fastimport/helpers.py`, `fastimport/dates.py`) into Lean 4.

Modelling conventions:
* A byte is a `Nat` (always < 256 in the inputs we build); a Python bytes
  object is a `List Nat`.  The code only compares, slices and concatenates
  bytes, so no overflow arithmetic arises.
* Python `None` becomes `Option`.  Fallible code returns an explicit
  result type; an exception raised by the Python code at a given point is
  a distinguished error value carrying the same payload.
* The source variant embedded here is the one in the repository under
  `src/`: that `parser.py`/`commands.py` pair has no `original-oid`
  support, stores the timestamp of an authorship as a number (we use
  `Int`: the serializer prints it with `%d`, so only integral timestamps
  are reproducible anyway; fractional float literals are outside the
  model), and compares `p[0] == b'"'` as a one-byte comparison (the
  semantics of the Python-2-era source; `errors.py` of this snapshot is
  Python-2-only syntax).
-/

namespace FastImport

/-- A Python bytes object; each byte is a `Nat` (< 256 in all data we
construct — the code only compares, slices and concatenates bytes). -/
abbrev Bytes := List Nat

/-- Nat string literal helper: ASCII code points of a Lean string. -/
def bs (s : String) : Bytes := s.data.map Char.toNat

/-- Does the byte string contain a given byte? (Python `b in s`.) -/
def bcontains (s : Bytes) (b : Nat) : Bool := s.contains b

/-- Python `s.startswith(p)` on bytes. -/
def bstarts (s p : Bytes) : Bool := p.isPrefixOf s

/-- Python `s.endswith(p)` on bytes (only used with one-byte suffixes). -/
def bends (s p : Bytes) : Bool := p.isSuffixOf s

/-- Number of LF bytes in a byte string (Python `s.count(b'\n')`). -/
def countLF (s : Bytes) : Nat := s.countP (fun b => b == 10)

/-- Digit accumulator for `natToBytes` (the fuel only bounds the number
of divisions and can never run out for `fuel ≥ n`). -/
def natToBytesGo : Nat → Nat → Bytes → Bytes
  | 0, _, acc => acc
  | fuel + 1, n, acc =>
      if n = 0 then acc else natToBytesGo fuel (n / 10) ((n % 10 + 48) :: acc)

/-- ASCII decimal rendering of a natural number (Python `b'%d' % n`). -/
def natToBytes (n : Nat) : Bytes :=
  if n = 0 then [48] else natToBytesGo n n []

theorem natToBytesGo_eq_digits :
    ∀ (fuel n : Nat) (acc : Bytes), n ≤ fuel →
      natToBytesGo fuel n acc = ((Nat.digits 10 n).map (fun d => d + 48)).reverse ++ acc := by
  intro fuel
  induction fuel with
  | zero =>
      intro n acc h
      have : n = 0 := by omega
      simp [this, natToBytesGo]
  | succ f ih =>
      intro n acc h
      by_cases hn : n = 0
      · simp [hn, natToBytesGo]
      · have hdiv : n / 10 ≤ f := by
          have h1 : n / 10 < n := Nat.div_lt_self (by omega) (by norm_num)
          omega
        have hdig : Nat.digits 10 n = n % 10 :: Nat.digits 10 (n / 10) :=
          Nat.digits_def' (by norm_num) (by omega)
        rw [show natToBytesGo (f + 1) n acc = natToBytesGo f (n / 10) ((n % 10 + 48) :: acc) from by
              simp [natToBytesGo, hn],
            ih (n / 10) _ hdiv, hdig]
        simp

/-- Bridge to the `Nat.digits` characterization. -/
theorem natToBytes_eq_digits (n : Nat) :
    natToBytes n = if n = 0 then [48] else ((Nat.digits 10 n).map (fun d => d + 48)).reverse := by
  unfold natToBytes
  by_cases hn : n = 0
  · simp [hn]
  · rw [if_neg hn, if_neg hn, natToBytesGo_eq_digits n n [] (le_refl n)]
    simp

/-- ASCII decimal rendering of an integer (Python `b'%d' % i`). -/
def intToBytes (i : Int) : Bytes :=
  if i < 0 then 45 :: natToBytes i.natAbs else natToBytes i.natAbs

/-- Zero-padded two-digit rendering (Python `'%02d' % n`); numbers with
three or more digits are rendered in full, as in Python. -/
def pad2 (n : Nat) : Bytes :=
  if n < 10 then [48, n + 48] else natToBytes n

/-- Is the byte an ASCII decimal digit? -/
def isDigit (b : Nat) : Bool := 48 ≤ b && b ≤ 57

/-- Is the byte ASCII whitespace (the set stripped by Python `strip`)? -/
def isWS (b : Nat) : Bool := b == 32 || b == 9 || b == 10 || b == 13 || b == 11 || b == 12

/-- Numeric value of a digit-only byte string (helper for `parseNat`). -/
def digitsVal (s : Bytes) : Nat := s.foldl (fun a b => a * 10 + (b - 48)) 0

/-- Parse a non-empty all-digit byte string as a natural number. -/
def parseNat (s : Bytes) : Option Nat :=
  if s ≠ [] ∧ s.all isDigit then some (digitsVal s) else none

/-- Python `int(s)`: optional surrounding whitespace, optional sign,
then decimal digits; anything else raises `ValueError` (`none` here). -/
def parsePyInt (s : Bytes) : Option Int :=
  let t := ((s.dropWhile isWS).reverse.dropWhile isWS).reverse
  match t with
  | [] => none
  | c :: r =>
      if c = 45 then (parseNat r).map (fun n => -(n : Int))
      else if c = 43 then (parseNat r).map (fun n => (n : Int))
      else (parseNat (c :: r)).map (fun n => (n : Int))

/-- Python `float(s)` as used for timestamps.  The model only accepts
integer-shaped literals (the serializer emits `%d`, so nothing else
round-trips); a fractional literal is outside the model. -/
def parsePyFloat (s : Bytes) : Option Int := parsePyInt s

/-- Strict lexicographic order on byte strings (Python `<` on bytes),
used for `sorted(dict)` over property names. -/
def bytesLt : Bytes → Bytes → Bool
  | [], [] => false
  | [], _ :: _ => true
  | _ :: _, [] => false
  | a :: as, b2 :: bs2 => if a < b2 then true else if b2 < a then false else bytesLt as bs2

/-- Insert into a list sorted by `bytesLt` on the first component. -/
def sortedInsert (x : Bytes × Option Bytes) :
    List (Bytes × Option Bytes) → List (Bytes × Option Bytes)
  | [] => [x]
  | y :: ys => if bytesLt x.1 y.1 then x :: y :: ys else y :: sortedInsert x ys

/-- Sort an association list by key (Python `sorted(self.properties)`). -/
def sortProps : List (Bytes × Option Bytes) → List (Bytes × Option Bytes)
  | [] => []
  | x :: xs => sortedInsert x (sortProps xs)

/-- Replace each LF byte by the two bytes `\` `n`
(Python `re.sub(b'\n', b'\\n', p)` in `format_path`). -/
def escLF : Bytes → Bytes
  | [] => []
  | b :: r => if b = 10 then 92 :: 110 :: escLF r else b :: escLF r

/-- Python dict insertion: replace the value in place if the key exists,
else append the binding at the end (dicts preserve insertion order). -/
def dictInsert (k : Bytes) (v : Option Bytes) :
    List (Bytes × Option Bytes) → List (Bytes × Option Bytes)
  | [] => [(k, v)]
  | (k2, v2) :: rest =>
      if k2 = k then (k, v) :: rest else (k2, v2) :: dictInsert k v rest

/-- Python dict lookup (`d.get(k)`), first (unique) matching key. -/
def dictGet (d : List (Bytes × Option Bytes)) (k : Bytes) : Option (Option Bytes) :=
  (d.find? (fun p => p.1 == k)).map Prod.snd

/-! ### Basic facts about the byte utilities -/

theorem bs_nil : bs "" = [] := rfl

theorem natToBytes_digits (n : Nat) : ∀ b ∈ natToBytes n, 48 ≤ b ∧ b ≤ 57 := by
  intro b hb
  rw [natToBytes_eq_digits] at hb
  by_cases h : n = 0
  · simp [h] at hb; omega
  · simp [h, List.mem_reverse, List.mem_map] at hb
    obtain ⟨d, hd, rfl⟩ := hb
    have := Nat.digits_lt_base (by norm_num) hd
    omega

theorem natToBytes_ne_nil (n : Nat) : natToBytes n ≠ [] := by
  rw [natToBytes_eq_digits]
  by_cases h : n = 0
  · simp [h]
  · simp [h]
    intro hcon
    have : Nat.digits 10 n ≠ [] := Nat.digits_ne_nil_iff_ne_zero.mpr h
    simp_all

theorem digitsVal_natToBytes (n : Nat) : digitsVal (natToBytes n) = n := by
  rw [natToBytes_eq_digits]
  unfold digitsVal
  by_cases h : n = 0
  · simp [h]
  · simp only [h, if_false]
    rw [List.foldl_reverse]
    have key : ∀ (L : List Nat), (∀ d ∈ L, d < 10) →
        List.foldr (fun b a => a * 10 + (b - 48)) 0 (L.map (fun d => d + 48)) =
          Nat.ofDigits 10 L := by
      intro L
      induction L with
      | nil => intro _; simp [Nat.ofDigits]
      | cons d ds ih =>
          intro hall
          simp only [List.map_cons, List.foldr_cons, Nat.ofDigits_cons]
          rw [ih (fun x hx => hall x (List.mem_cons_of_mem _ hx))]
          have : d + 48 - 48 = d := by omega
          rw [this]; ring
    rw [key _ (fun d hd => Nat.digits_lt_base (by norm_num) hd)]
    exact Nat.ofDigits_digits 10 n

theorem parseNat_natToBytes (n : Nat) : parseNat (natToBytes n) = some n := by
  unfold parseNat
  have h1 : natToBytes n ≠ [] := natToBytes_ne_nil n
  have h2 : (natToBytes n).all isDigit := by
    rw [List.all_eq_true]
    intro b hb
    obtain ⟨hb1, hb2⟩ := natToBytes_digits n b hb
    simp [isDigit, hb1, hb2]
  simp [h1, h2, digitsVal_natToBytes]

theorem notLF_natToBytes (n : Nat) : ¬ (natToBytes n).contains 10 := by
  simp only [List.contains, List.elem_eq_mem, decide_eq_true_eq]
  intro hmem
  have := natToBytes_digits n 10 hmem
  omega

theorem notSpace_natToBytes (n : Nat) : ¬ (natToBytes n).contains 32 := by
  simp only [List.contains, List.elem_eq_mem, decide_eq_true_eq]
  intro hmem
  have := natToBytes_digits n 32 hmem
  omega

/-! ## Data model (`fastimport/commands.py`)

One structure per command class.  The synthetic `id` attribute is fully
determined by the other fields, so it is modelled as a derived function
rather than a stored field.  A commit mark may be a byte string or an
integer (`CommitCommand.__init__` handles both). -/

/-- The `(name, email, timestamp, timezone)` namedtuple.  The timestamp
is an `Int` (see header comment); the timezone is seconds east of UTC. -/
structure Authorship where
  name : Bytes
  email : Bytes
  timestamp : Int
  timezone : Int
  deriving DecidableEq, Repr

/-- A commit mark: byte-string form or integer form. -/
inductive MarkVal where
  | bytes (m : Bytes)
  | int (n : Nat)
  deriving DecidableEq, Repr

structure BlobCommand where
  mark : Option Bytes
  data : Bytes
  lineno : Int
  deriving DecidableEq, Repr

/-- Synthetic id: `:` + mark, or `@` + lineno when the mark is missing. -/
def BlobCommand.idOf (c : BlobCommand) : Bytes :=
  match c.mark with
  | none => 64 :: intToBytes c.lineno
  | some m => 58 :: m

structure FileModifyCommand where
  path : Bytes
  mode : Nat
  dataref : Option Bytes
  data : Option Bytes
  deriving DecidableEq, Repr

structure NoteModifyCommand where
  from_ : Bytes
  data : Bytes
  deriving DecidableEq, Repr

/-- The file-command hierarchy (`FileCommand` subclasses). -/
inductive FileCommand where
  | modify (c : FileModifyCommand)
  | delete (path : Bytes)
  | rename (old_path new_path : Bytes)
  | copy (src_path dest_path : Bytes)
  | deleteall
  | notemodify (c : NoteModifyCommand)
  deriving DecidableEq, Repr

structure CommitCommand where
  ref : Bytes
  mark : Option MarkVal
  author : Option Authorship
  committer : Authorship
  message : Option Bytes
  from_ : Option Bytes
  merges : Option (List Bytes)
  file_iter : Option (List FileCommand)
  more_authors : Option (List Authorship)
  properties : Option (List (Bytes × Option Bytes))
  lineno : Int
  deriving DecidableEq, Repr

/-- Synthetic id of a commit (`CommitCommand.__init__`). -/
def CommitCommand.idOf (c : CommitCommand) : Bytes :=
  match c.mark with
  | none => 64 :: intToBytes c.lineno
  | some (.bytes m) => 58 :: m
  | some (.int n) => 58 :: natToBytes n

structure ResetCommand where
  ref : Bytes
  from_ : Option Bytes
  deriving DecidableEq, Repr

structure TagCommand where
  id : Bytes
  from_ : Option Bytes
  tagger : Option Authorship
  message : Option Bytes
  deriving DecidableEq, Repr

structure FeatureCommand where
  feature_name : Bytes
  value : Option Bytes
  lineno : Int
  deriving DecidableEq, Repr

/-- The tagged union of all top-level stream commands. -/
inductive ImportCommand where
  | blob (c : BlobCommand)
  | checkpoint
  | commit (c : CommitCommand)
  | feature (c : FeatureCommand)
  | progress (message : Bytes)
  | reset (c : ResetCommand)
  | tag (c : TagCommand)
  deriving DecidableEq, Repr

/-! ## Serializers (`commands.py` `__bytes__` implementations)

`FileModifyCommand.to_string` raises `AssertionError` on an unknown mode
and `TypeError` when an inline op has `data = None`; serializers that can
hit those paths return `Option Bytes`, with `none` standing for the
Python exception. -/

/-- `stat.S_ISDIR`: `(mode & 0o170000) == 0o40000`. -/
def S_ISDIR (m : Nat) : Bool := (m &&& 0o170000) == 0o40000

/-- `format_who_when` from `commands.py`. -/
def format_who_when (a : Authorship) : Bytes :=
  let offn : Nat := a.timezone.natAbs
  let offset_sign : Bytes := if a.timezone < 0 then [45] else [43]
  let offset_hours := offn / 3600
  let offset_minutes := offn / 60 - offset_hours * 60
  let offset_str := offset_sign ++ pad2 offset_hours ++ pad2 offset_minutes
  let sep : Bytes := if a.name = [] then [] else [32]
  a.name ++ sep ++ [60] ++ a.email ++ [62, 32] ++ intToBytes a.timestamp ++ [32] ++ offset_str

/-- `format_property` from `commands.py`. -/
def format_property (name : Bytes) (value : Option Bytes) : Bytes :=
  match value with
  | none => bs "property " ++ name
  | some v => bs "property " ++ name ++ [32] ++ natToBytes v.length ++ [32] ++ v

/-- `format_path` from `commands.py`.  Notes: the quirks flag
`GIT_FAST_IMPORT_NEEDS_EXTRA_SPACE_AFTER_QUOTE` is `False`, so no extra
space is appended; `p[0] == b'"'` is the one-byte comparison of the
Python-2-era source (Python raises `IndexError` on an empty path, which
never arises since `check_path` rejects empty paths). -/
def format_path (p : Bytes) (quote_spaces : Bool) : Bytes :=
  if bcontains p 10 then 34 :: (escLF p ++ [34])
  else if p.head? == some 34 || (quote_spaces && bcontains p 32) then 34 :: (p ++ [34])
  else p

/-- `FileModifyCommand._format_mode`; `none` is the `AssertionError`. -/
def formatMode (m : Nat) : Option Bytes :=
  if m = 0o755 ∨ m = 0o100755 then some (bs "755")
  else if m = 0o644 ∨ m = 0o100644 then some (bs "644")
  else if m = 0o40000 then some (bs "040000")
  else if m = 0o120000 then some (bs "120000")
  else if m = 0o160000 then some (bs "160000")
  else none

/-- `FileModifyCommand.to_string(include_file_contents=True)`. -/
def FileModifyCommand.toBytes (c : FileModifyCommand) : Option Bytes := do
  let modeStr ← formatMode c.mode
  if S_ISDIR c.mode then
    pure (bs "M " ++ modeStr ++ [32] ++ [45] ++ [32] ++ format_path c.path false)
  else
    match c.dataref with
    | none =>
        match c.data with
        | none => none
        | some d =>
            pure (bs "M " ++ modeStr ++ [32] ++ bs "inline" ++ [32] ++ format_path c.path false
              ++ [10] ++ bs "data " ++ natToBytes d.length ++ [10] ++ d)
    | some r =>
        pure (bs "M " ++ modeStr ++ [32] ++ r ++ [32] ++ format_path c.path false)

/-- `__bytes__` of the various `FileCommand` subclasses. -/
def FileCommand.toBytes : FileCommand → Option Bytes
  | .modify c => c.toBytes
  | .delete p => some (bs "D " ++ format_path p false)
  | .rename o n => some (bs "R " ++ format_path o true ++ [32] ++ format_path n false)
  | .copy s d => some (bs "C " ++ format_path s true ++ [32] ++ format_path d false)
  | .deleteall => some (bs "deleteall")
  | .notemodify c =>
      some (bs "N inline :" ++ c.from_ ++ [10] ++ bs "data " ++ natToBytes c.data.length
        ++ [10] ++ c.data)

/-- `BlobCommand.__bytes__`. -/
def BlobCommand.toBytes (c : BlobCommand) : Bytes :=
  let mark_line : Bytes := match c.mark with
    | none => []
    | some m => 10 :: (bs "mark :" ++ m)
  bs "blob" ++ mark_line ++ [10] ++ bs "data " ++ natToBytes c.data.length ++ [10] ++ c.data

/-- The mark line of `CommitCommand.to_string`. -/
def markLineOf : Option MarkVal → Bytes
  | none => []
  | some (.bytes m) => 10 :: (bs "mark :" ++ m)
  | some (.int n) => 10 :: (bs "mark :" ++ natToBytes n)

/-- `CommitCommand.to_string(use_features=True, include_file_contents=True)`,
i.e. `CommitCommand.__bytes__`. -/
def CommitCommand.toBytes (c : CommitCommand) : Option Bytes := do
  let author_section : Bytes :=
    match c.author with
    | none => []
    | some a =>
        (10 :: (bs "author " ++ format_who_when a)) ++
          (match c.more_authors with
           | none => []
           | some more => (more.map (fun a2 => 10 :: (bs "author " ++ format_who_when a2))).flatten)
  let committer := bs "committer " ++ format_who_when c.committer
  let msg_section : Bytes :=
    match c.message with
    | none => []
    | some m => 10 :: (bs "data " ++ natToBytes m.length) ++ [10] ++ m
  let from_line : Bytes :=
    match c.from_ with
    | none => []
    | some f => 10 :: (bs "from " ++ f)
  let merge_lines : Bytes :=
    match c.merges with
    | none => []
    | some ms => (ms.map (fun m => 10 :: (bs "merge " ++ m))).flatten
  let properties_section : Bytes :=
    match c.properties with
    | none => []
    | some props =>
        if props = [] then []
        else ((sortProps props).map (fun p => 10 :: format_property p.1 p.2)).flatten
  let filecommands ←
    match c.file_iter with
    | none => pure ([] : Bytes)
    | some ops => do
        let pieces ← ops.mapM FileCommand.toBytes
        pure (pieces.map (fun p => 10 :: p)).flatten
  pure (bs "commit " ++ c.ref ++ markLineOf c.mark ++ (author_section ++ [10]) ++ committer
    ++ msg_section ++ from_line ++ merge_lines ++ properties_section ++ filecommands)

/-- `ResetCommand.__bytes__` (note the deliberate trailing LF after the
`from` line, kept for git ≤ 1.5.4.3 compatibility). -/
def ResetCommand.toBytes (c : ResetCommand) : Bytes :=
  match c.from_ with
  | none => bs "reset " ++ c.ref
  | some f => bs "reset " ++ c.ref ++ (10 :: (bs "from " ++ f)) ++ [10]

/-- `TagCommand.__bytes__`. -/
def TagCommand.toBytes (c : TagCommand) : Bytes :=
  let from_line : Bytes := match c.from_ with
    | none => []
    | some f => 10 :: (bs "from " ++ f)
  let tagger_line : Bytes := match c.tagger with
    | none => []
    | some t => 10 :: (bs "tagger " ++ format_who_when t)
  let msg_section : Bytes := match c.message with
    | none => []
    | some m => 10 :: (bs "data " ++ natToBytes m.length) ++ [10] ++ m
  bs "tag " ++ c.id ++ from_line ++ tagger_line ++ msg_section

/-- `FeatureCommand.__bytes__`. -/
def FeatureCommand.toBytes (c : FeatureCommand) : Bytes :=
  match c.value with
  | none => bs "feature " ++ c.feature_name
  | some v => bs "feature " ++ c.feature_name ++ [61] ++ v

/-- `__bytes__` of a top-level command; `none` is a Python exception
raised during serialization (unknown mode / inline op without data). -/
def serializeCmd : ImportCommand → Option Bytes
  | .blob c => some c.toBytes
  | .checkpoint => some (bs "checkpoint")
  | .commit c => c.toBytes
  | .feature c => some c.toBytes
  | .progress m => some (bs "progress " ++ m)
  | .reset c => some c.toBytes
  | .tag c => some c.toBytes

/-- `FilterProcessor._print_command`: the serialized command followed by
a newline unless it already ends with one. -/
def emitLF (s : Bytes) : Bytes := if bends s [10] then s else s ++ [10]

/-! ## Splitting helpers for the stream model -/

/-- One `input.readline()` step on the raw byte stream: the first line
including its LF (the whole remainder when no LF is left, `[]` at EOF),
together with the rest of the stream. -/
def splitLine : Bytes → Bytes × Bytes
  | [] => ([], [])
  | b :: r =>
      if b = 10 then ([10], r)
      else
        let p := splitLine r
        (b :: p.1, p.2)

theorem splitLine_snd_length (l : Bytes) : (splitLine l).2.length ≤ l.length := by
  induction l with
  | nil => simp [splitLine]
  | cons b r ih =>
      by_cases hb : b = 10
      · simp [splitLine, hb]
      · have h1 : (splitLine (b :: r)).2 = (splitLine r).2 := by
          simp [splitLine, hb]
        rw [h1, List.length_cons]
        omega

theorem splitLine_snd_lt (b : Nat) (r : Bytes) :
    (splitLine (b :: r)).2.length < (b :: r).length := by
  by_cases hb : b = 10
  · simp [splitLine, hb]
  · have h1 : (splitLine (b :: r)).2 = (splitLine r).2 := by
      simp [splitLine, hb]
    rw [h1, List.length_cons]
    have := splitLine_snd_length r
    omega

/-- Split at the first occurrence of a byte (used for Python
`split(sep, 1)` and the regex prefix `[^<]*<`). -/
def splitFirst (b : Nat) : Bytes → Option (Bytes × Bytes)
  | [] => none
  | c :: r =>
      if c = b then some ([], r)
      else (splitFirst b r).map (fun p => (c :: p.1, p.2))

/-- Python `s.split(sep)` with a one-byte separator and no limit
(no run collapsing; `b''.split` gives `[b'']`). -/
def splitAllByte (b : Nat) : Bytes → List Bytes
  | [] => [[]]
  | c :: r =>
      let rest := splitAllByte b r
      if c = b then [] :: rest
      else
        match rest with
        | [] => [[c]]
        | h :: t => (c :: h) :: t

/-- Python `s.split(sep, maxsplit)` with a one-byte separator. -/
def splitByteN (b : Nat) : Nat → Bytes → List Bytes
  | 0, s => [s]
  | n + 1, s =>
      match splitFirst b s with
      | none => [s]
      | some (pre, post) => pre :: splitByteN b n post

/-- Split at the first occurrence of a multi-byte separator (Python
`s.split(b'" ', 1)` in `_path_pair`). -/
def splitFirstSub (sep : Bytes) : Bytes → Option (Bytes × Bytes)
  | [] => none
  | c :: r =>
      if sep.isPrefixOf (c :: r) then some ([], (c :: r).drop sep.length)
      else (splitFirstSub sep r).map (fun p => (c :: p.1, p.2))

/-- Python `s.rstrip()` (whitespace only). -/
def rstripWS (s : Bytes) : Bytes := (s.reverse.dropWhile isWS).reverse

/-! ## Errors (`fastimport/errors.py` plus builtin Python exceptions) -/

inductive PyErr where
  /-- `errors.MissingBytes` (`expected` is an `Int`: a negative `data`
  length is passed through to `read`, which then reads everything). -/
  | missingBytes (lineno : Int) (expected : Int) (found : Nat)
  /-- `errors.MissingTerminator` — documented, but never raised by
  `read_until` (see claim C7). -/
  | missingTerminator (lineno : Int) (terminator : Bytes)
  | invalidCommand (lineno : Int) (cmd : Bytes)
  | missingSection (lineno : Int) (cmd sect : Bytes)
  | badFormat (lineno : Int) (cmd sect text : Bytes)
  | invalidTimezone (lineno : Int) (timezone : Bytes)
  | prematureEnd (lineno : Int)
  /-- builtin `ValueError` escaping uncaught (e.g. `int()` on garbage). -/
  | valueError
  /-- builtin `ValueError` from `check_path`. -/
  | illegalPath (path : Bytes)
  /-- builtin `IndexError` (e.g. `params[2]` on a short filemodify line). -/
  | indexError
  /-- builtin `NotImplementedError` from `dates.parse_rfc2822`. -/
  | notImplemented
  /-- builtin `AttributeError`: `'NoneType' object has no attribute
  'startswith'` — `next_line()` returned `None` and the caller applied a
  prefix test to it. -/
  | attrNoneHasNoStartswith
  /-- builtin `UnicodeDecodeError`/`UnicodeEncodeError` from a malformed
  escape sequence in `_unquote_c_string`. -/
  | unicodeDecodeErr
  /-- A `\N{...}` named escape: decoded through the `unicodedata` name
  table, which is external to this repository and not modelled.  No
  claim exercises this alternative. -/
  | unmodeledNameEscape
  deriving DecidableEq, Repr

/-- The line number carried by an error: parse-position errors
(`errors.ParsingError` subclasses) have one, builtin Python exceptions
do not. -/
def PyErr.linenoOf : PyErr → Option Int
  | .missingBytes n _ _ => some n
  | .missingTerminator n _ => some n
  | .invalidCommand n _ => some n
  | .missingSection n _ _ => some n
  | .badFormat n _ _ _ => some n
  | .invalidTimezone n _ => some n
  | .prematureEnd n => some n
  | _ => none

/-- Is the error one of the `errors.ParsingError` subclasses? -/
def PyErr.isParsePositionErr (e : PyErr) : Bool := e.linenoOf.isSome

/-! ## Parser state and effect monad

`LineBasedParser` and `ImportParser` share one mutable state: the
remaining raw input, the current line number, the push-back buffer
(`_buffer`, a stack whose entries carry their LF), the auto-detected
date format (`date_parser`), and the feature dictionary.  `wallclock`
is the value `time.time()` would return (for the `now` date format).
The parser is modelled with `verbose=False`, `user_mapper=None` and
`strict=True`, the defaults. -/

inductive DateFmt where
  | raw
  | now
  | rfc2822
  deriving DecidableEq, Repr

structure PState where
  input : Bytes
  lineno : Int
  buf : List Bytes
  dateFmt : Option DateFmt
  features : List (Bytes × Option Bytes)
  wallclock : Int
  deriving DecidableEq, Repr

/-- Outcome of a stateful parser step: normal return, a raised Python
exception, or non-termination of the underlying Python code. -/
inductive Res (α : Type) where
  | ok (a : α) (s : PState)
  | err (e : PyErr)
  | hang

/-- Injection used to derive decidable equality for `Res`. -/
def Res.asSum {α : Type} : Res α → (α × PState) ⊕ PyErr ⊕ Unit
  | .ok a s => .inl (a, s)
  | .err e => .inr (.inl e)
  | .hang => .inr (.inr ())

theorem Res.asSum_inj {α : Type} : ∀ {x y : Res α}, x.asSum = y.asSum → x = y := by
  intro x y h
  cases x <;> cases y <;> simp [Res.asSum] at h <;> try rfl
  · rw [h.1, h.2]
  · rw [h]

instance {α : Type} [DecidableEq α] : DecidableEq (Res α) := fun x y =>
  decidable_of_iff (x.asSum = y.asSum) ⟨Res.asSum_inj, fun h => by rw [h]⟩

def M (α : Type) : Type := PState → Res α

instance : Monad M where
  pure a := fun s => .ok a s
  bind x f := fun s =>
    match x s with
    | .ok a s2 => f a s2
    | .err e => .err e
    | .hang => .hang

theorem M_bind_apply {α β : Type} (x : M α) (f : α → M β) (s : PState) :
    (x >>= f) s =
      match x s with
      | .ok a s2 => f a s2
      | .err e => .err e
      | .hang => .hang := rfl

theorem M_pure_apply {α : Type} (a : α) (s : PState) : (pure a : M α) s = .ok a s := rfl

def throwErr {α : Type} (e : PyErr) : M α := fun _ => .err e

def getPS : M PState := fun s => .ok s s

def liftE {α : Type} : Except PyErr α → M α
  | .ok a => pure a
  | .error e => throwErr e

/-- `LineBasedParser.readline`. -/
def readline : M Bytes := fun s =>
  match s.buf with
  | l :: rest => .ok l { s with buf := rest, lineno := s.lineno + 1 }
  | [] =>
      let p := splitLine s.input
      .ok p.1 { s with input := p.2, lineno := s.lineno + 1 }

/-- `LineBasedParser.next_line` (note `line[:-1]` unconditionally strips
the final byte of a non-empty line, LF or not). -/
def nextLine : M (Option Bytes) := do
  let l ← readline
  if l = [] then pure none else pure (some l.dropLast)

/-- `LineBasedParser.push_line`. -/
def pushLine (l : Bytes) : M Unit := fun s =>
  .ok () { s with buf := (l ++ [10]) :: s.buf, lineno := s.lineno - 1 }

/-- `LineBasedParser.read_bytes` (bypasses the push-back buffer). -/
def readBytes (count : Nat) : M Bytes := fun s =>
  let res := s.input.take count
  let newLineno := s.lineno + countLF res
  if res.length ≠ count then .err (.missingBytes newLineno count res.length)
  else .ok res { s with input := s.input.drop count, lineno := newLineno }

/-- `read` with a negative count reads the whole stream, so
`read_bytes` always fails with `MissingBytes` there. -/
def readBytesNeg (expected : Int) : M Bytes := fun s =>
  .err (.missingBytes (s.lineno + countLF s.input) expected s.input.length)

/-- The loop body of `LineBasedParser.read_until` on the raw stream:
`some (content, rest)` when a line equal to `t1` (terminator + LF) is
found; `none` when the raw stream runs out first — in that case the
Python loop keeps appending the empty `readline()` result forever. -/
def readUntilGo (t1 : Bytes) : Bytes → Option (Bytes × Bytes)
  | [] => none
  | b :: r =>
      let p := splitLine (b :: r)
      if p.1 = t1 then some ([], p.2)
      else
        match readUntilGo t1 p.2 with
        | none => none
        | some (c, rest) => some (p.1 ++ c, rest)
  termination_by l => l.length
  decreasing_by exact splitLine_snd_lt b r

/-- `LineBasedParser.read_until` (no buffer access, no lineno update). -/
def readUntil (terminator : Bytes) : M Bytes := fun s =>
  match readUntilGo (terminator ++ [10]) s.input with
  | none => .hang
  | some (content, rest) => .ok content { s with input := rest }

def setDateFmt (df : DateFmt) : M Unit := fun s => .ok () { s with dateFmt := some df }

def setFeature (name : Bytes) (value : Option Bytes) : M Unit := fun s =>
  .ok () { s with features := dictInsert name value s.features }

/-! ## The authorship regexes

`_WHO_AND_WHEN_RE = ([^<]*)<(.*)> (.+)` and `_WHO_RE = ([^<]*)<(.*)>`,
used via `re.search`.  `re.search` finds the leftmost match; `[^<]*`
followed by `<` forces the match to anchor at a `<`, the greedy `(.*)`
picks the last viable `> `/`>`, and if no viable continuation exists the
search restarts just after that `<`.  The inputs are single lines, so
the `.`-does-not-match-LF subtlety never bites. -/

/-- The last split of `t` as `mid ++ '>' :: ' ' :: rest` with `rest`
non-empty (greedy `(.*)> (.+)`). -/
def lastGtSpSplit : Bytes → Option (Bytes × Bytes)
  | [] => none
  | c :: r =>
      match lastGtSpSplit r with
      | some p => some (c :: p.1, p.2)
      | none =>
          match c, r with
          | 62, 32 :: rest => if rest = [] then none else some ([], rest)
          | _, _ => none

/-- The last split of `t` as `mid ++ '>' :: rest` (greedy `(.*)>`). -/
def lastGtSplit : Bytes → Option (Bytes × Bytes)
  | [] => none
  | c :: r =>
      match lastGtSplit r with
      | some p => some (c :: p.1, p.2)
      | none => if c = 62 then some ([], r) else none

theorem splitFirst_some_length {b : Nat} :
    ∀ {s pre post : Bytes}, splitFirst b s = some (pre, post) → post.length < s.length := by
  intro s
  induction s with
  | nil => intro pre post h; simp [splitFirst] at h
  | cons c r ih =>
      intro pre post h
      by_cases hc : c = b
      · simp [splitFirst, hc] at h
        obtain ⟨_, h2⟩ := h
        subst h2
        simp
      · simp [splitFirst, hc] at h
        match hsf : splitFirst b r with
        | none => rw [hsf] at h; simp at h
        | some (p1, p2) =>
            rw [hsf] at h
            simp at h
            obtain ⟨w, ⟨_, hpost⟩, _⟩ := h
            subst hpost
            have := ih hsf
            simp
            omega

/-- The retry loop of `re.search(_WHO_AND_WHEN_RE, s)`: each retry
resumes just after the rejected `<`, so the suffix shrinks and fuel
`s.length + 1` can never run out. -/
def whoWhenSearchGo : Nat → Bytes → Option (Bytes × Bytes × Bytes)
  | 0, _ => none
  | fuel + 1, s =>
      match splitFirst 60 s with
      | none => none
      | some (pre, post) =>
          match lastGtSpSplit post with
          | some (mid, rest) => some (pre, mid, rest)
          | none => whoWhenSearchGo fuel post

/-- `re.search(_WHO_AND_WHEN_RE, s)`:
`some (group1, group2, group3)` on a match. -/
def whoWhenSearch (s : Bytes) : Option (Bytes × Bytes × Bytes) :=
  whoWhenSearchGo (s.length + 1) s

def whoSearchGo : Nat → Bytes → Option (Bytes × Bytes)
  | 0, _ => none
  | fuel + 1, s =>
      match splitFirst 60 s with
      | none => none
      | some (pre, post) =>
          match lastGtSplit post with
          | some (mid, _) => some (pre, mid)
          | none => whoSearchGo fuel post

/-- `re.search(_WHO_RE, s)`: `some (group1, group2)` on a match. -/
def whoSearch (s : Bytes) : Option (Bytes × Bytes) :=
  whoSearchGo (s.length + 1) s

/-! ## `_unquote_c_string` -/

/-- Single-character escapes `\\ \' \" \a \b \f \n \r \t \v`. -/
def escMap (c : Nat) : Option Nat :=
  if c = 92 then some 92 else if c = 39 then some 39 else if c = 34 then some 34
  else if c = 97 then some 7 else if c = 98 then some 8 else if c = 102 then some 12
  else if c = 110 then some 10 else if c = 114 then some 13 else if c = 116 then some 9
  else if c = 118 then some 11 else none

def hexVal (b : Nat) : Option Nat :=
  if 48 ≤ b ∧ b ≤ 57 then some (b - 48)
  else if 97 ≤ b ∧ b ≤ 102 then some (b - 87)
  else if 65 ≤ b ∧ b ≤ 70 then some (b - 55)
  else none

def hexSeqVal (l : Bytes) : Option Nat :=
  l.foldlM (fun a b => (hexVal b).map (fun v => a * 16 + v)) 0

def isOctalByte (b : Nat) : Bool := 48 ≤ b && b ≤ 55

/-- UTF-8 encoding of a Unicode code point (`utf8_bytes_string` applied
to the decoded character). -/
def utf8Encode (n : Nat) : Bytes :=
  if n < 0x80 then [n]
  else if n < 0x800 then [0xC0 + n / 64, 0x80 + n % 64]
  else if n < 0x10000 then [0xE0 + n / 4096, 0x80 + (n / 64) % 64, 0x80 + n % 64]
  else [0xF0 + n / 262144, 0x80 + (n / 4096) % 64, 0x80 + (n / 64) % 64, 0x80 + n % 64]

/-- Decode one hex escape body of the given length: `UnicodeDecodeError`
on a non-hex digit, encode failure on a surrogate or out-of-range value. -/
def decodeHexEscape (body : Bytes) : Except PyErr Bytes :=
  match hexSeqVal body with
  | none => .error .unicodeDecodeErr
  | some v =>
      if v > 0x10FFFF then .error .unicodeDecodeErr
      else if 0xD800 ≤ v ∧ v ≤ 0xDFFF then .error .unicodeDecodeErr
      else .ok (utf8Encode v)

/-- Try the escape alternatives of `ESCAPE_SEQUENCE_BYTES_RE` at a
backslash (the argument is what follows the backslash).  Returns the
decoded bytes (or the raised exception) together with the number of
bytes consumed after the backslash; `none` when no alternative matches,
in which case the backslash passes through verbatim. -/
def tryEscape (rest : Bytes) : Option (Except PyErr Bytes × Nat) :=
  match rest with
  | 85 :: r2 =>      -- \U........ (8 any-non-LF bytes)
      if (r2.take 8).length = 8 ∧ (r2.take 8).all (fun b => b ≠ 10) then
        some (decodeHexEscape (r2.take 8), 9)
      else none
  | 117 :: r2 =>     -- \u....
      if (r2.take 4).length = 4 ∧ (r2.take 4).all (fun b => b ≠ 10) then
        some (decodeHexEscape (r2.take 4), 5)
      else none
  | 120 :: r2 =>     -- \x..
      if (r2.take 2).length = 2 ∧ (r2.take 2).all (fun b => b ≠ 10) then
        some (decodeHexEscape (r2.take 2), 3)
      else none
  | 78 :: 123 :: r2 =>  -- \N{...}: named character, not modelled
      match splitFirst 125 r2 with
      | some (name, _) => if name = [] ∨ name.contains 125 then none
          else some (.error .unmodeledNameEscape, 2 + name.length + 1)
      | none => none
  | c :: r2 =>
      if isOctalByte c then    -- octal, greedily 1-3 digits
        match r2 with
        | d2 :: r3 =>
            if isOctalByte d2 then
              match r3 with
              | d3 :: _ =>
                  if isOctalByte d3 then
                    some (.ok (utf8Encode (((c - 48) * 8 + (d2 - 48)) * 8 + (d3 - 48))), 3)
                  else some (.ok (utf8Encode ((c - 48) * 8 + (d2 - 48))), 2)
              | [] => some (.ok (utf8Encode ((c - 48) * 8 + (d2 - 48))), 2)
            else some (.ok (utf8Encode (c - 48)), 1)
        | [] => some (.ok (utf8Encode (c - 48)), 1)
      else
        match escMap c with
        | some d => some (.ok [d], 1)
        | none => none
  | [] => none

/-- The scan loop of `_unquote_c_string`: every step consumes at least
the leading byte, so fuel `s.length + 1` can never run out. -/
def unquoteCGo : Nat → Bytes → Except PyErr Bytes
  | 0, _ => .ok []
  | fuel + 1, s =>
      match s with
      | [] => .ok []
      | c :: rest =>
          if c = 92 then
            match tryEscape rest with
            | some (.ok d, n) =>
                match unquoteCGo fuel (rest.drop n) with
                | .ok t => .ok (d ++ t)
                | .error e => .error e
            | some (.error e, _) => .error e
            | none =>
                match unquoteCGo fuel rest with
                | .ok t => .ok (92 :: t)
                | .error e => .error e
          else
            match unquoteCGo fuel rest with
            | .ok t => .ok (c :: t)
            | .error e => .error e

/-- `_unquote_c_string`: scan the bytes, decoding each escape-sequence
match independently; everything else passes through verbatim. -/
def unquoteC (s : Bytes) : Except PyErr Bytes :=
  unquoteCGo (s.length + 1) s

/-! ## Date parsing (`fastimport/dates.py`) -/

/-- `dates.parse_tz`; `none` is the `ValueError` caught by `parse_raw`. -/
def parse_tz (tz : Bytes) : Option Int :=
  let signByte := tz.take 1
  if signByte ≠ [43] ∧ signByte ≠ [45] then none
  else
    let sign : Int := if signByte = [45] then -1 else 1
    match parsePyInt ((tz.drop 1).take (tz.length - 3)), parsePyInt (tz.drop (tz.length - 2)) with
    | some hours, some minutes => some (sign * 60 * (60 * hours + minutes))
    | _, _ => none

/-- `dates.parse_raw`.  An unpacking or `float()` failure is a
`ValueError` that `_who_when` re-raises; a timezone failure becomes
`InvalidTimezone` with the current line number. -/
def parse_raw (s : Bytes) (lineno : Int) : Except PyErr (Int × Int) :=
  match splitFirst 32 s with
  | none => .error .valueError
  | some (ts, tzs) =>
      match parsePyFloat ts with
      | none => .error .valueError
      | some t =>
          match parse_tz tzs with
          | none => .error (.invalidTimezone lineno tzs)
          | some z => .ok (t, z)

/-- Dispatch through `DATE_PARSERS_BY_NAME`. -/
def runDateParse (df : DateFmt) (datestr : Bytes) (lineno wallclock : Int) :
    Except PyErr (Int × Int) :=
  match df with
  | .raw => parse_raw datestr lineno
  | .now => .ok (wallclock, 0)
  | .rfc2822 => .error .notImplemented

/-! ## `ImportParser` section parsers -/

/-- `check_path` (applied by every `FileCommand` constructor). -/
def checkPath (p : Bytes) : Except PyErr Bytes :=
  if p = [] ∨ bstarts p (bs "/") then .error (.illegalPath p) else .ok p

/-- `ImportParser._path`. -/
def pathOf (s : Bytes) : M Bytes := do
  if bstarts s [34] then
    if ¬ bends s [34] then do
      let st ← getPS
      throwErr (.badFormat st.lineno (bs "?") (bs "?") s)
    else liftE (unquoteC (s.drop 1).dropLast)
  else pure s

/-- `ImportParser._path_pair`. -/
def pathPairOf (s : Bytes) : M (Bytes × Bytes) := do
  let parts ←
    if bstarts s [34] then
      match splitFirstSub (bs "\" ") (s.drop 1) with
      | some (p0, p1) => pure [p0, p1]
      | none => pure [s.drop 1]
    else
      match splitFirst 32 s with
      | some (p0, p1) => pure [p0, p1]
      | none => pure [s]
  match parts with
  | [p0, p1] => do
      let p1' ←
        if bstarts p1 [34] && bends p1 [34] then pure (p1.drop 1).dropLast
        else if bstarts p1 [34] || bends p1 [34] then do
          let st ← getPS
          throwErr (.badFormat st.lineno (bs "?") (bs "?") s)
        else pure p1
      let q0 ← liftE (unquoteC p0)
      let q1 ← liftE (unquoteC p1')
      pure (q0, q1)
  | _ => do
      let st ← getPS
      throwErr (.badFormat st.lineno (bs "?") (bs "?") s)

/-- `ImportParser._mode`. -/
def modeOf (s : Bytes) : M Nat := do
  if s = bs "644" ∨ s = bs "100644" ∨ s = bs "0100644" then pure 0o100644
  else if s = bs "755" ∨ s = bs "100755" ∨ s = bs "0100755" then pure 0o100755
  else if s = bs "040000" ∨ s = bs "0040000" then pure 0o40000
  else if s = bs "120000" ∨ s = bs "0120000" then pure 0o120000
  else if s = bs "160000" ∨ s = bs "0160000" then pure 0o160000
  else do
    let st ← getPS
    throwErr (.badFormat st.lineno (bs "filemodify") (bs "mode") s)

/-- `ImportParser._get_mark_if_any`.  At EOF `next_line()` returns
`None` and `None.startswith` raises `AttributeError`. -/
def getMarkIfAny : M (Option Bytes) := do
  match ← nextLine with
  | none => throwErr .attrNoneHasNoStartswith
  | some line =>
      if bstarts line (bs "mark :") then pure (some (line.drop 6))
      else do
        pushLine line
        pure none

/-- `ImportParser._get_from`. -/
def getFrom (requiredFor : Option Bytes) : M (Option Bytes) := do
  match ← nextLine with
  | none => pure none
  | some line =>
      if bstarts line (bs "from ") then pure (some (line.drop 5))
      else
        match requiredFor with
        | some cmd => do
            let st ← getPS
            throwErr (.missingSection st.lineno cmd (bs "from"))
        | none => do
            pushLine line
            pure none

/-- `ImportParser._get_merge`. -/
def getMerge : M (Option Bytes) := do
  match ← nextLine with
  | none => pure none
  | some line =>
      if bstarts line (bs "merge ") then pure (some (line.drop 6))
      else do
        pushLine line
        pure none

/-- `ImportParser._name_value`. -/
def nameValue (s : Bytes) : M (Bytes × Option Bytes) := do
  let parts := splitByteN 32 2 s
  match parts with
  | [name] => pure (name, none)
  | [name, szs, value] =>
      (match parsePyInt szs with
       | none => throwErr .valueError
       | some size => do
          let still : Int := size - value.length
          if still > 0 then do
            let rd ← readBytes still.toNat
            pure (name, some (value ++ 10 :: rd.take (still.toNat - 1)))
          else pure (name, some value))
  | [name, szs] =>
      -- `value = parts[2]` raises IndexError when only the length is present
      (match parsePyInt szs with
       | none => throwErr .valueError
       | some _ => throwErr .indexError)
  | _ => throwErr .indexError

/-- `ImportParser._get_property`. -/
def getProperty : M (Option (Bytes × Option Bytes)) := do
  match ← nextLine with
  | none => pure none
  | some line =>
      if bstarts line (bs "property ") then do
        let nv ← nameValue (line.drop 9)
        pure (some nv)
      else do
        pushLine line
        pure none

/-- `ImportParser._who_when` (strict mode, no user mapper). -/
def whoWhen (s cmd sect : Bytes) (acceptJustWho : Bool) : M Authorship := do
  match whoWhenSearch s with
  | some (g1, g2, g3) => do
      let datestr := g3.dropWhile isWS
      let st ← getPS
      let df ←
        match st.dateFmt with
        | some df => pure df
        | none => do
            let df :=
              if (splitAllByte 32 datestr).length = 2 then DateFmt.raw
              else if datestr = bs "now" then DateFmt.now
              else DateFmt.rfc2822
            setDateFmt df
            pure df
      let st2 ← getPS
      match runDateParse df datestr st2.lineno st2.wallclock with
      | .error e => throwErr e
      | .ok (ts, tz) => do
          let name0 := rstripWS g1
          let name := if name0.length > 0 ∧ bends name0 [32] then name0.dropLast else name0
          pure ⟨name, g2, ts, tz⟩
  | none =>
      match whoSearch s with
      | some (g1, g2) =>
          if acceptJustWho then do
            -- HACK around missing time: DATE_PARSERS_BY_NAME['now']('now')
            let st ← getPS
            let name := if g1.length > 0 ∧ bends g1 [32] then g1.dropLast else g1
            pure ⟨name, g2, st.wallclock, 0⟩
          else do
            let st ← getPS
            throwErr (.badFormat st.lineno cmd sect s)
      | none => do
          let st ← getPS
          throwErr (.badFormat st.lineno cmd sect s)

/-- `ImportParser._get_user_info` with `required=False`:
returns `none` (after push-back) when the section is absent.  The same
`None.startswith` hazard as `_get_mark_if_any` applies at EOF. -/
def getUserInfoOpt (cmd sect : Bytes) (acceptJustWho : Bool) : M (Option Authorship) := do
  match ← nextLine with
  | none => throwErr .attrNoneHasNoStartswith
  | some line =>
      if bstarts line (sect ++ [32]) then do
        let a ← whoWhen (line.drop (sect.length + 1)) cmd sect acceptJustWho
        pure (some a)
      else do
        pushLine line
        pure none

/-- `ImportParser._get_user_info` with `required=True`:
raises `MissingSection` when the section is absent. -/
def getUserInfoReq (cmd sect : Bytes) (acceptJustWho : Bool) : M Authorship := do
  match ← nextLine with
  | none => throwErr .attrNoneHasNoStartswith
  | some line =>
      if bstarts line (sect ++ [32]) then
        whoWhen (line.drop (sect.length + 1)) cmd sect acceptJustWho
      else do
        let st ← getPS
        throwErr (.missingSection st.lineno cmd sect)

/-- The optional-LF consumption after an exact-length data section:
a raw `readline()` with manual lineno bookkeeping; anything other than a
single LF is pushed back (without its final byte). -/
def optionalLF : M Unit := fun s =>
  let p := splitLine s.input
  if p.1.length > 1 ∨ p.1 ≠ [10] then
    .ok () { s with input := p.2, buf := (p.1.dropLast ++ [10]) :: s.buf }
  else .ok () { s with input := p.2, lineno := s.lineno + 1 }

/-- `ImportParser._get_data`.  The same `None.startswith` hazard as
`_get_mark_if_any` applies at EOF. -/
def getData (requiredFor sect : Bytes) : M Bytes := do
  match ← nextLine with
  | none => throwErr .attrNoneHasNoStartswith
  | some line =>
      if bstarts line (bs "data ") then do
        let rest := line.drop 5
        if bstarts rest (bs "<<") then readUntil (rest.drop 2)
        else
          match parsePyInt rest with
          | none => throwErr .valueError
          | some size => do
              let rd ← if size < 0 then readBytesNeg size else readBytes size.toNat
              optionalLF
              pure rd
      else do
        let st ← getPS
        throwErr (.missingSection st.lineno requiredFor sect)

/-! ## Command parsers and the `iter_commands` driver

The Python `while True` loops are modelled with a fuel parameter.  Every
continuing iteration of each loop consumes at least one byte of buffered
or raw input, so the fuel supplied by `parseStream` (stream length plus
two) can never run out; `Res.hang` on fuel exhaustion is unreachable
there and the round-trip theorems below never rely on it. -/

/-- `ImportParser._parse_file_modify`. -/
def parseFileModify (info : Bytes) : M FileCommand := do
  match splitByteN 32 2 info with
  | [p0, p1, p2] => do
      let path ← pathOf p2
      let mode ← modeOf p0
      if p1 = bs "inline" then do
        let d ← getData (bs "filemodify") (bs "data")
        let pc ← liftE (checkPath path)
        pure (.modify ⟨pc, mode, none, some d⟩)
      else do
        let pc ← liftE (checkPath path)
        pure (.modify ⟨pc, mode, some p1, none⟩)
  | _ => throwErr .indexError

/-- The loop of `ImportParser.iter_file_commands`. -/
def fileCmdsLoop : Nat → List FileCommand → M (List FileCommand)
  | 0, _ => fun _ => .hang
  | fuel + 1, acc => do
      match ← nextLine with
      | none => pure acc.reverse
      | some line =>
          if line.length = 0 ∨ bstarts line (bs "#") then fileCmdsLoop fuel acc
          else if bstarts line (bs "M ") then do
            let fc ← parseFileModify (line.drop 2)
            fileCmdsLoop fuel (fc :: acc)
          else if bstarts line (bs "D ") then do
            let p ← pathOf (line.drop 2)
            let pc ← liftE (checkPath p)
            fileCmdsLoop fuel (.delete pc :: acc)
          else if bstarts line (bs "R ") then do
            let pq ← pathPairOf (line.drop 2)
            let o ← liftE (checkPath pq.1)
            let n ← liftE (checkPath pq.2)
            fileCmdsLoop fuel (.rename o n :: acc)
          else if bstarts line (bs "C ") then do
            let pq ← pathPairOf (line.drop 2)
            let s1 ← liftE (checkPath pq.1)
            let d1 ← liftE (checkPath pq.2)
            fileCmdsLoop fuel (.copy s1 d1 :: acc)
          else if bstarts line (bs "deleteall") then
            fileCmdsLoop fuel (.deleteall :: acc)
          else do
            pushLine line
            pure acc.reverse

/-- The extra-`author` loop of `_parse_commit`. -/
def moreAuthorsLoop : Nat → List Authorship → M (List Authorship)
  | 0, _ => fun _ => .hang
  | fuel + 1, acc => do
      match ← getUserInfoOpt (bs "commit") (bs "author") false with
      | some a => moreAuthorsLoop fuel (a :: acc)
      | none => pure acc.reverse

/-- The `merge` loop of `_parse_commit` (a single `merge` line may carry
several space-separated ids and is split, as git-fast-export emits). -/
def mergesLoop : Nat → List Bytes → M (List Bytes)
  | 0, _ => fun _ => .hang
  | fuel + 1, acc => do
      match ← getMerge with
      | some m => mergesLoop fuel (acc ++ splitAllByte 32 m)
      | none => pure acc

/-- The `property` loop of `_parse_commit`. -/
def propsLoop : Nat → List (Bytes × Option Bytes) → M (List (Bytes × Option Bytes))
  | 0, _ => fun _ => .hang
  | fuel + 1, acc => do
      match ← getProperty with
      | some nv => propsLoop fuel (dictInsert nv.1 nv.2 acc)
      | none => pure acc

/-- `ImportParser._parse_blob`. -/
def parseBlob : M BlobCommand := do
  let st ← getPS
  let mark ← getMarkIfAny
  let data ← getData (bs "blob") (bs "data")
  pure ⟨mark, data, st.lineno⟩

/-- `ImportParser._parse_commit`. -/
def parseCommit (fuel : Nat) (ref : Bytes) : M CommitCommand := do
  let st ← getPS
  let mark ← getMarkIfAny
  let author ← getUserInfoOpt (bs "commit") (bs "author") false
  let more ← moreAuthorsLoop fuel []
  let committer ← getUserInfoReq (bs "commit") (bs "committer") false
  let message ← getData (bs "commit") (bs "message")
  let from_ ← getFrom none
  let merges ← mergesLoop fuel []
  let props ← propsLoop fuel []
  let ops ← fileCmdsLoop fuel []
  pure
    { ref := ref, mark := mark.map .bytes, author := author, committer := committer,
      message := some message, from_ := from_, merges := some merges,
      file_iter := some ops, more_authors := some more, properties := some props,
      lineno := st.lineno }

/-- `ImportParser._parse_reset`. -/
def parseReset (ref : Bytes) : M ResetCommand := do
  let from_ ← getFrom none
  pure ⟨ref, from_⟩

/-- `ImportParser._parse_tag`. -/
def parseTag (name : Bytes) : M TagCommand := do
  let from_ ← getFrom (some (bs "tag"))
  let tagger ← getUserInfoReq (bs "tag") (bs "tagger") true
  let message ← getData (bs "tag") (bs "message")
  pure ⟨name, from_, some tagger, some message⟩

/-- `ImportParser._parse_feature`. -/
def parseFeature (info : Bytes) : M FeatureCommand := do
  let parts := splitByteN 61 1 info
  match parts with
  | [name] => do
      setFeature name none
      let st ← getPS
      pure ⟨name, none, st.lineno⟩
  | [name, vraw] => do
      let value ← pathOf vraw
      setFeature name (some value)
      let st ← getPS
      pure ⟨name, some value, st.lineno⟩
  | _ => throwErr .indexError

/-- The overall result of draining `iter_commands`: the commands yielded
before normal termination, a raised exception, or divergence. -/
inductive RunResult where
  | done (cmds : List ImportCommand) (st : PState)
  | fail (cmds : List ImportCommand) (e : PyErr)
  | hang (cmds : List ImportCommand)
  deriving DecidableEq, Repr

/-- The dispatch loop of `ImportParser.iter_commands` (dispatch order as
in the source: commit, blob, done, progress, reset, tag, checkpoint,
feature; unknown verbs raise `InvalidCommand`). -/
def iterCmdsGo : Nat → List ImportCommand → PState → RunResult
  | 0, acc, _ => .hang acc.reverse
  | fuel + 1, acc, st =>
      match nextLine st with
      | .err e => .fail acc.reverse e
      | .hang => .hang acc.reverse
      | .ok none st2 =>
          if (dictGet st2.features (bs "done")).isSome then
            .fail acc.reverse (.prematureEnd st2.lineno)
          else .done acc.reverse st2
      | .ok (some line) st2 =>
          if line.length = 0 ∨ bstarts line (bs "#") then iterCmdsGo fuel acc st2
          else if bstarts line (bs "commit ") then
            match parseCommit fuel (line.drop 7) st2 with
            | .ok c st3 => iterCmdsGo fuel (.commit c :: acc) st3
            | .err e => .fail acc.reverse e
            | .hang => .hang acc.reverse
          else if bstarts line (bs "blob") then
            match parseBlob st2 with
            | .ok c st3 => iterCmdsGo fuel (.blob c :: acc) st3
            | .err e => .fail acc.reverse e
            | .hang => .hang acc.reverse
          else if bstarts line (bs "done") then .done acc.reverse st2
          else if bstarts line (bs "progress ") then
            iterCmdsGo fuel (.progress (line.drop 9) :: acc) st2
          else if bstarts line (bs "reset ") then
            match parseReset (line.drop 6) st2 with
            | .ok c st3 => iterCmdsGo fuel (.reset c :: acc) st3
            | .err e => .fail acc.reverse e
            | .hang => .hang acc.reverse
          else if bstarts line (bs "tag ") then
            match parseTag (line.drop 4) st2 with
            | .ok c st3 => iterCmdsGo fuel (.tag c :: acc) st3
            | .err e => .fail acc.reverse e
            | .hang => .hang acc.reverse
          else if bstarts line (bs "checkpoint") then
            iterCmdsGo fuel (.checkpoint :: acc) st2
          else if bstarts line (bs "feature") then
            match parseFeature (line.drop 8) st2 with
            | .ok c st3 => iterCmdsGo fuel (.feature c :: acc) st3
            | .err e => .fail acc.reverse e
            | .hang => .hang acc.reverse
          else .fail acc.reverse (.invalidCommand st2.lineno line)

/-- The initial parser state over a raw byte stream. -/
def initState (input : Bytes) (wallclock : Int) : PState :=
  ⟨input, 0, [], none, [], wallclock⟩

/-- Drain `ImportParser(BytesIO(input)).iter_commands()` (the fuel can
never be exhausted: each loop iteration consumes input). -/
def parseStream (input : Bytes) : RunResult :=
  iterCmdsGo (input.length + 2) [] (initState input 0)

/-! ## Path helpers (`fastimport/helpers.py`) -/

/-- Generic association-list dictionary: update in place or append. -/
def alistPut {β : Type} (k : Bytes) (v : β) : List (Bytes × β) → List (Bytes × β)
  | [] => [(k, v)]
  | (k2, v2) :: rest => if k2 = k then (k, v) :: rest else (k2, v2) :: alistPut k v rest

def alistGet {β : Type} (d : List (Bytes × β)) (k : Bytes) : Option β :=
  (d.find? (fun p => p.1 == k)).map Prod.snd

/-- Python `del d[k]` (keys are unique, so removing the first matching
entry suffices). -/
def alistDel {β : Type} (k : Bytes) : List (Bytes × β) → List (Bytes × β)
  | [] => []
  | (k2, v2) :: rest => if k2 = k then rest else (k2, v2) :: alistDel k rest

/-- `helpers.is_inside`. -/
def is_inside (dir fname : Bytes) : Bool :=
  if dir = fname then true
  else if dir = [] then true
  else
    let dir2 := if bends dir [47] then dir else dir ++ [47]
    bstarts fname dir2

/-- `helpers.is_inside_any`. -/
def is_inside_any (dirs : List Bytes) (fname : Bytes) : Bool :=
  dirs.any (fun d => is_inside d fname)

/-- `helpers.common_path` (longest common byte prefix). -/
def common_path : Bytes → Bytes → Bytes
  | [], _ => []
  | _, [] => []
  | a :: r1, b :: r2 => if a = b then a :: common_path r1 r2 else []

/-- Split at the last occurrence of a byte. -/
def splitLast (b : Nat) : Bytes → Option (Bytes × Bytes)
  | [] => none
  | c :: r =>
      match splitLast b r with
      | some p => some (c :: p.1, p.2)
      | none => if c = b then some ([], r) else none

/-- `posixpath.split`: head up to and including the last `/` (trailing
slashes then stripped unless the head is all slashes), tail after it. -/
def posixSplit (p : Bytes) : Bytes × Bytes :=
  match splitLast 47 p with
  | none => ([], p)
  | some (before, after) =>
      let head := before ++ [47]
      let head2 :=
        if head.any (fun b => b ≠ 47) then (head.reverse.dropWhile (fun b => b == 47)).reverse
        else head
      (head2, after)

/-- The inner `get_dir_with_slash` of `helpers.common_directory`. -/
def getDirWithSlash (path : Bytes) : Bytes :=
  if path = [] ∨ bends path [47] then path
  else
    let dirname := (posixSplit path).1
    if dirname = [] then dirname else dirname ++ [47]

/-- `helpers.common_directory`. -/
def common_directory : List Bytes → Option Bytes
  | [] => none
  | [p] => some (getDirWithSlash p)
  | p1 :: p2 :: rest => some (getDirWithSlash (rest.foldl common_path (common_path p1 p2)))

/-! ## Filter processor (`fastimport/processors/filter_processor.py`)

The processor is modelled as a step function over an explicit state: the
blob buffer, the squashed-commit set, the parents map and the bytes
written to the output so far.  `pre_handler`/`post_handler` are fused
into each per-command step: a handler decides `keep`, possibly rewrites
the command, and `post_handler` then prints the referenced blobs and the
(possibly rewritten) command. -/

/-- Processor parameters after `pre_process` (`new_root` is computed
from `include_paths` exactly as there). -/
structure FilterCfg where
  includes : Option (List Bytes)
  excludes : Option (List Bytes)
  squashEmpty : Bool
  newRoot : Option Bytes
  deriving DecidableEq, Repr

/-- `FilterProcessor.pre_process` for given parameters
(`squash_empty_commits` defaults to true). -/
def mkFilterCfg (includes excludes : Option (List Bytes)) (squashEmpty : Bool) : FilterCfg :=
  { includes := includes, excludes := excludes, squashEmpty := squashEmpty,
    newRoot := match includes with
      | some (p :: ps) => common_directory (p :: ps)
      | _ => none }

structure FState where
  blobs : List (Bytes × BlobCommand)
  squashed : List Bytes
  parents : List (Bytes × Option (List Bytes))
  out : Bytes
  deriving DecidableEq, Repr

def FState.init : FState := ⟨[], [], [], []⟩

/-- Errors escaping the filter: `KeyError` from `self.blobs[blob_id]`,
`TypeError` from iterating `None`, and an exception raised while
serializing the command for printing. -/
inductive FilterErr where
  | keyError (k : Bytes)
  | typeError
  | serializeError
  deriving DecidableEq, Repr

inductive FOut where
  | ok (st : FState)
  | err (e : FilterErr)
  | hang
  deriving DecidableEq, Repr

/-- Python truthiness of an optional list (None and `[]` are falsy). -/
def truthyL {α : Type} : Option (List α) → Bool
  | some (_ :: _) => true
  | _ => false

/-- `FilterProcessor._path_to_be_kept`. -/
def pathToBeKept (cfg : FilterCfg) (path : Bytes) : Bool :=
  if truthyL cfg.excludes ∧
      ((cfg.excludes.getD []).contains path ∨ is_inside_any (cfg.excludes.getD []) path) then
    false
  else if truthyL cfg.includes then
    (cfg.includes.getD []).contains path ∨ is_inside_any (cfg.includes.getD []) path
  else true

/-- `FilterProcessor._adjust_for_new_root`. -/
def adjustForNewRoot (cfg : FilterCfg) (path : Bytes) : Bytes :=
  match cfg.newRoot with
  | none => path
  | some nr => if bstarts path nr then path.drop nr.length else path

/-- `FilterProcessor._convert_rename` (`none` = op dropped; a keep-old /
drop-new rename becomes a delete; drop-keep warns and is dropped). -/
def convertRename (cfg : FilterCfg) (old : Bytes) (new : Bytes) : Option FileCommand :=
  let keepOld := pathToBeKept cfg old
  let keepNew := pathToBeKept cfg new
  if keepOld && keepNew then
    some (.rename (adjustForNewRoot cfg old) (adjustForNewRoot cfg new))
  else if keepOld then some (.delete (adjustForNewRoot cfg old))
  else none

/-- `FilterProcessor._convert_copy`. -/
def convertCopy (cfg : FilterCfg) (src : Bytes) (dest : Bytes) : Option FileCommand :=
  let keepSrc := pathToBeKept cfg src
  let keepDest := pathToBeKept cfg dest
  if keepSrc && keepDest then
    some (.copy (adjustForNewRoot cfg src) (adjustForNewRoot cfg dest))
  else none

/-- `FilterProcessor._filter_filecommands` (the unhandled-class branch
warns and drops; it is reached by `NoteModifyCommand`). -/
def filterFileCommands (cfg : FilterCfg) (ops : List FileCommand) : List FileCommand :=
  if cfg.includes = none ∧ cfg.excludes = none then ops
  else
    ops.filterMap (fun fc =>
      match fc with
      | .modify m =>
          if pathToBeKept cfg m.path then
            some (.modify { m with path := adjustForNewRoot cfg m.path })
          else none
      | .delete p =>
          if pathToBeKept cfg p then some (.delete (adjustForNewRoot cfg p)) else none
      | .deleteall => some .deleteall
      | .rename o n => convertRename cfg o n
      | .copy s d => convertCopy cfg s d
      | .notemodify _ => none)

/-- The `while True` walk of `FilterProcessor._find_interesting_parent`.
Every continuing step stands at a member of `squashed`; a walk longer
than the number of squashed commits must revisit one and the
deterministic Python loop then cycles forever, so fuel
`squashed.length + 1` is exact: `none` here iff the Python walk
diverges. -/
def findParentGo (squashed : List Bytes) (parents : List (Bytes × Option (List Bytes))) :
    Nat → Bytes → Option (Option Bytes)
  | 0, _ => none
  | fuel + 1, ref =>
      if ¬ squashed.contains ref then some (some ref)
      else
        match alistGet parents ref with
        | none => some none
        | some none => some none
        | some (some []) => some none
        | some (some (p :: _)) => findParentGo squashed parents fuel p

/-- `FilterProcessor._find_interesting_parent` (`none` = divergence). -/
def findInterestingParent (st : FState) (ref : Bytes) : Option (Option Bytes) :=
  findParentGo st.squashed st.parents (st.squashed.length + 1) ref

/-- `FilterProcessor._find_interesting_from`. -/
def findInterestingFrom (st : FState) : Option Bytes → Option (Option Bytes)
  | none => some (none : Option Bytes)
  | some ref => findInterestingParent st ref

/-- The collection loop of `_find_interesting_merges`
(outer `none` = divergence). -/
def findMergesGo (st : FState) : List Bytes → Option (List Bytes)
  | [] => some []
  | r :: rs =>
      match findInterestingParent st r with
      | none => none
      | some none => findMergesGo st rs
      | some (some p) => (findMergesGo st rs).map (fun l => p :: l)

/-- `FilterProcessor._find_interesting_merges` (`none` = divergence;
an empty surviving list yields Python `None`). -/
def findInterestingMerges (st : FState) : Option (List Bytes) → Option (Option (List Bytes))
  | none => some (none : Option (List Bytes))
  | some refs =>
      match findMergesGo st refs with
      | none => none
      | some [] => some (none : Option (List Bytes))
      | some (m :: ms) => some (some (m :: ms))

/-- Add to a Python set modelled as a duplicate-free list. -/
def setAdd (x : Bytes) (s : List Bytes) : List Bytes :=
  if s.contains x then s else x :: s

/-- The parent bookkeeping at the end of `commit_handler` (runs for kept
and squashed commits alike; only marked commits are recorded). -/
def recordParents (c : CommitCommand) (fromv : Option Bytes) (mergesv : Option (List Bytes))
    (parents : List (Bytes × Option (List Bytes))) : List (Bytes × Option (List Bytes)) :=
  let ps : Option (List Bytes) :=
    if truthyL fromv ∧ truthyL mergesv then
      some (fromv.getD [] :: mergesv.getD [])
    else if truthyL fromv then some [fromv.getD []]
    else none
  match c.mark with
  | some (.bytes m) => alistPut (58 :: m) ps parents
  | some (.int n) => alistPut (58 :: natToBytes n) ps parents
  | none => parents

/-- Print the referenced blobs then the rewritten commit
(`post_handler` for a kept commit); `KeyError` when a referenced dataref
has no buffered blob. -/
def emitCommit (st : FState) (refBlobs : List Bytes) (c2 : CommitCommand) : FOut :=
  match refBlobs with
  | [] =>
      match serializeCmd (.commit c2) with
      | none => .err .serializeError
      | some sb => .ok { st with out := st.out ++ emitLF sb }
  | r :: rest =>
      match alistGet st.blobs r with
      | none => .err (.keyError r)
      | some blob => emitCommit { st with out := st.out ++ emitLF blob.toBytes } rest c2

/-- One processed command: `pre_handler`, the per-kind handler, and
`post_handler` fused together. -/
def filterStep (cfg : FilterCfg) (st : FState) : ImportCommand → FOut
  | .progress m => .ok { st with out := st.out ++ emitLF (bs "progress " ++ m) }
  | .checkpoint => .ok { st with out := st.out ++ emitLF (bs "checkpoint") }
  | .feature c => .ok { st with out := st.out ++ emitLF c.toBytes }
  | .blob c => .ok { st with blobs := alistPut c.idOf c st.blobs }
  | .reset c =>
      (match c.from_ with
       | none => .ok { st with out := st.out ++ emitLF c.toBytes }
       | some f =>
           match findInterestingParent st f with
           | none => .hang
           | some none => .ok st
           | some (some p) =>
               .ok { st with out := st.out ++ emitLF (ResetCommand.toBytes ⟨c.ref, some p⟩) })
  | .tag c =>
      (match findInterestingFrom st c.from_ with
       | none => .hang
       | some none => .ok st
       | some (some p) =>
           .ok { st with out := st.out ++ emitLF (TagCommand.toBytes { c with from_ := some p }) })
  | .commit c =>
      (match c.file_iter with
       | none => .err .typeError
       | some ops =>
           let interesting := filterFileCommands cfg ops
           if interesting ≠ [] ∨ ¬ cfg.squashEmpty then
             if interesting = [.deleteall] then
               -- "If all we have is a single deleteall, skip this commit"
               .ok { st with parents := recordParents c c.from_ c.merges st.parents }
             else
               let refBlobs := interesting.filterMap (fun fc =>
                 match fc with
                 | .modify m =>
                     if m.dataref.isSome ∧ ¬ S_ISDIR m.mode then m.dataref else none
                 | _ => none)
               match findInterestingFrom st c.from_ with
               | none => .hang
               | some from2 =>
                   match findInterestingMerges st c.merges with
                   | none => .hang
                   | some mergesRes =>
                       let merges2 :=
                         match mergesRes with
                         | some ms => some ms
                         | none => c.merges
                       let c2 := { c with file_iter := some interesting,
                                          from_ := from2, merges := merges2 }
                       let st2 := { st with
                         parents := recordParents c2 from2 merges2 st.parents }
                       emitCommit st2 refBlobs c2
           else
             .ok { st with
               squashed := setAdd c.idOf st.squashed,
               parents := recordParents c c.from_ c.merges st.parents })

/-- Process a command sequence through the filter. -/
def filterRun (cfg : FilterCfg) : List ImportCommand → FState → FOut
  | [], st => .ok st
  | c :: cs, st =>
      match filterStep cfg st c with
      | .ok st2 => filterRun cfg cs st2
      | .err e => .err e
      | .hang => .hang

/-! ## Reference tracker (`fastimport/reftracker.py`) -/

structure RefTracker where
  last_ref : Option Bytes
  last_ids : List (Bytes × Bytes)
  heads : List (Bytes × List Bytes)
  deriving DecidableEq, Repr

def RefTracker.init : RefTracker := ⟨none, [], []⟩

/-- `RefTracker.track_heads_for_ref`. -/
def trackHeadsForRef (cmd_ref cmd_id : Bytes) (parents : Option (List Bytes))
    (t : RefTracker) : RefTracker :=
  let heads1 :=
    match parents with
    | none => t.heads
    | some ps => ps.foldl (fun h p => alistDel p h) t.heads
  let heads2 :=
    match alistGet heads1 cmd_id with
    | none => alistPut cmd_id [cmd_ref] heads1
    | some refs =>
        alistPut cmd_id (if refs.contains cmd_ref then refs else refs ++ [cmd_ref]) heads1
  { last_ref := some cmd_ref, last_ids := alistPut cmd_ref cmd_id t.last_ids, heads := heads2 }

/-- `RefTracker.track_heads`; `none` is the `TypeError` from
`parents.extend(None)` when the commit's merges are `None`. -/
def trackHeads (cmd : CommitCommand) (t : RefTracker) : Option (List Bytes × RefTracker) :=
  let parents0 : List Bytes :=
    match cmd.from_ with
    | some f => [f]
    | none =>
        match alistGet t.last_ids cmd.ref with
        | some lastId => [lastId]
        | none => []
  match cmd.merges with
  | none => none
  | some ms =>
      let parents := parents0 ++ ms
      some (parents, trackHeadsForRef cmd.ref cmd.idOf (some parents) t)

/-- Fold a commit sequence through `track_heads`, collecting the
returned parent lists (`none` when any call raises). -/
def trackRun : List CommitCommand → RefTracker → Option (RefTracker × List (List Bytes))
  | [], t => some (t, [])
  | c :: cs, t =>
      match trackHeads c t with
      | none => none
      | some (ps, t2) =>
          match trackRun cs t2 with
          | none => none
          | some (tEnd, pss) => some (tEnd, ps :: pss)

/-- Keys of an association list are pairwise distinct (true of every
Python dict; all dictionaries here are built by `alistPut`). -/
def keysNodup {β : Type} (d : List (Bytes × β)) : Prop := (d.map Prod.fst).Nodup

/-- `r` is recorded as a head of commit id `i` in tracker `t`. -/
def memH (t : RefTracker) (i r : Bytes) : Prop := r ∈ (alistGet t.heads i).getD []

/-- The parent computation exactly as the specification words it
(`[from_]` if set, else `[last_ids[ref]]` if present, else `[]`,
extended with the commit's merges). -/
def parentsSpec (c : CommitCommand) (t : RefTracker) (ms : List Bytes) : List Bytes :=
  (match c.from_ with
   | some f => [f]
   | none =>
       match alistGet t.last_ids c.ref with
       | some lastId => [lastId]
       | none => []) ++ ms

/-- Commit on ref `r1`, mark `1`, no parent (concrete test data). -/
def cexC1 : CommitCommand :=
  { ref := bs "r1", mark := some (.bytes (bs "1")), author := none,
    committer := ⟨[], [], 0, 0⟩, message := none, from_ := none,
    merges := some [], file_iter := none, more_authors := none,
    properties := none, lineno := 1 }

/-- Commit on ref `r2`, mark `2`, parent `:1` (concrete test data). -/
def cexC2 : CommitCommand :=
  { ref := bs "r2", mark := some (.bytes (bs "2")), author := none,
    committer := ⟨[], [], 0, 0⟩, message := none, from_ := some (bs ":1"),
    merges := some [], file_iter := none, more_authors := none,
    properties := none, lineno := 2 }

/-- The tracker state reached after `cexC1` then `cexC2`. -/
def cexTFinal : RefTracker :=
  ⟨some (bs "r2"), [(bs "r1", bs ":1"), (bs "r2", bs ":2")], [(bs ":2", [bs "r2"])]⟩

/-- Filter state with commit `:2` squashed on top of parent `:1`. -/
def cexFSt : FState := ⟨[], [bs ":2"], [(bs ":2", some [bs ":1"])], []⟩

/-- Filter state with a parentless squashed commit `:9`. -/
def cexRootSt : FState := ⟨[], [bs ":9"], [], []⟩

/-- Kept commit whose only file-modify carries the raw SHA dataref
`abc123` (never buffered as a blob). -/
def cexShaCommit : CommitCommand :=
  { ref := bs "refs/heads/master", mark := some (.bytes (bs "9")), author := none,
    committer := ⟨[], [], 0, 0⟩, message := some (bs "m"), from_ := none,
    merges := none,
    file_iter := some [.modify ⟨bs "README", 420, some (bs "abc123"), none⟩],
    more_authors := none, properties := none, lineno := 1 }

/-- A minimal serializable commit. -/
def cexKeptCommit : CommitCommand :=
  { ref := bs "refs/h", mark := none, author := none,
    committer := ⟨[], [], 0, 0⟩, message := some (bs "m"), from_ := none,
    merges := none, file_iter := some [], more_authors := none,
    properties := none, lineno := 1 }

/-- Its canonical bytes. -/
def cexSb : Bytes := (serializeCmd (.commit cexKeptCommit)).getD []

/-- A buffered blob with mark `1`. -/
def cexBlob : BlobCommand := ⟨some (bs "1"), bs "foo", 1⟩

/-- Filter state buffering exactly `cexBlob` under id `:1`. -/
def cexBlobSt : FState := ⟨[(bs ":1", cexBlob)], [], [], []⟩

/-- The canonical printed form of a command sequence. -/
def canonOut (cs : List ImportCommand) : Bytes :=
  (cs.map (fun c => emitLF ((serializeCmd c).getD []))).flatten

/-- Buffer a list of blobs into a blob dictionary, in order. -/
def putBlobs (blobs : List BlobCommand) (d : List (Bytes × BlobCommand)) :
    List (Bytes × BlobCommand) :=
  blobs.foldl (fun d b => alistPut b.idOf b d) d

/-- The datarefs a commit's interesting file commands make the filter
print blobs for. -/
def refBlobsOf (ops : List FileCommand) : List Bytes :=
  ops.filterMap (fun fc =>
    match fc with
    | .modify m => if m.dataref.isSome ∧ ¬ S_ISDIR m.mode then m.dataref else none
    | _ => none)

/-- Streams on which the unconfigured filter is the identity: blobs come
in groups immediately referenced, in buffering order, by a following
kept commit whose from/merge links need no rewriting; tags carry a
`from`; empty or deleteall-only commits do not occur. -/
inductive NiceStream : List ImportCommand → Prop
  | nil : NiceStream []
  | progress (m : Bytes) (rest : List ImportCommand) :
      NiceStream rest → NiceStream (.progress m :: rest)
  | checkpoint (rest : List ImportCommand) :
      NiceStream rest → NiceStream (.checkpoint :: rest)
  | feature (c : FeatureCommand) (rest : List ImportCommand) :
      NiceStream rest → NiceStream (.feature c :: rest)
  | reset (c : ResetCommand) (rest : List ImportCommand) :
      NiceStream rest → NiceStream (.reset c :: rest)
  | tag (c : TagCommand) (f : Bytes) (rest : List ImportCommand) :
      c.from_ = some f → NiceStream rest → NiceStream (.tag c :: rest)
  | group (blobs : List BlobCommand) (c : CommitCommand) (ops : List FileCommand)
      (rest : List ImportCommand) :
      c.file_iter = some ops →
      ops ≠ [] →
      ops ≠ [FileCommand.deleteall] →
      refBlobsOf ops = blobs.map BlobCommand.idOf →
      (blobs.map BlobCommand.idOf).Nodup →
      (serializeCmd (.commit c)).isSome →
      NiceStream rest →
      NiceStream (blobs.map ImportCommand.blob ++ .commit c :: rest)

/-- A commit with no file operations at all (squashed by default). -/
def cexEmptyCommit : CommitCommand :=
  { ref := bs "refs/h", mark := some (.bytes (bs "3")), author := none,
    committer := ⟨[], [], 0, 0⟩, message := some (bs "m"), from_ := none,
    merges := none, file_iter := some [], more_authors := none,
    properties := none, lineno := 4 }

/-- A commit whose single file-modify references the buffered blob `:1`. -/
def cexRefCommit : CommitCommand :=
  { ref := bs "refs/h", mark := some (.bytes (bs "9")), author := none,
    committer := ⟨[], [], 0, 0⟩, message := some (bs "m"), from_ := none,
    merges := none,
    file_iter := some [.modify ⟨bs "README", 420, some (bs ":1"), none⟩],
    more_authors := none, properties := none, lineno := 2 }

/-! # Theorems

One theorem per claim (C1–C10), with supporting lemmas. -/

/-! ## Association-list dictionary lemmas -/

theorem alistGet_put {β : Type} (k : Bytes) (v : β) (d : List (Bytes × β)) (x : Bytes) :
    alistGet (alistPut k v d) x = if x = k then some v else alistGet d x := by
  induction d with
  | nil =>
      by_cases hx : x = k
      · subst hx; simp [alistPut, alistGet]
      · simp [alistPut, alistGet, hx, Ne.symm hx]
  | cons e rest ih =>
      obtain ⟨k2, v2⟩ := e
      by_cases hk : k2 = k
      · subst hk
        by_cases hx : x = k2
        · subst hx; simp [alistPut, alistGet]
        · simp [alistPut, alistGet, List.find?_cons, hx, Ne.symm hx]
      · have : alistPut k v ((k2, v2) :: rest) = (k2, v2) :: alistPut k v rest := by
          simp [alistPut, hk]
        rw [this]
        by_cases hx : x = k2
        · subst hx
          have hxk : x ≠ k := fun hc => hk (by rw [← hc])
          simp [alistGet, hxk]
        · have hbeq : (k2 == x) = false := by simp [Ne.symm hx]
          have h2 : alistGet ((k2, v2) :: alistPut k v rest) x = alistGet (alistPut k v rest) x := by
            simp [alistGet, List.find?_cons, hbeq]
          have h3 : alistGet ((k2, v2) :: rest) x = alistGet rest x := by
            simp [alistGet, List.find?_cons, hbeq]
          rw [h2, h3, ih]

theorem alistGet_del_other {β : Type} (k : Bytes) (d : List (Bytes × β)) (x : Bytes)
    (hx : x ≠ k) : alistGet (alistDel k d) x = alistGet d x := by
  induction d with
  | nil => simp [alistDel]
  | cons e rest ih =>
      obtain ⟨k2, v2⟩ := e
      by_cases hk : k2 = k
      · subst hk
        have hrw : alistDel k2 ((k2, v2) :: rest) = rest := by simp [alistDel]
        rw [hrw]
        have hbeq : (k2 == x) = false := by simp [Ne.symm hx]
        simp [alistGet, List.find?_cons, hbeq]
      · have hrw : alistDel k ((k2, v2) :: rest) = (k2, v2) :: alistDel k rest := by
          simp [alistDel, hk]
        rw [hrw]
        by_cases hx2 : x = k2
        · subst hx2
          simp [alistGet, List.find?_cons]
        · have hbeq : (k2 == x) = false := by simp [Ne.symm hx2]
          simp only [alistGet, List.find?_cons, hbeq] at *
          exact ih

theorem alistGet_del_self {β : Type} (k : Bytes) (d : List (Bytes × β))
    (hnd : keysNodup d) : alistGet (alistDel k d) k = none := by
  induction d with
  | nil => simp [alistDel, alistGet]
  | cons e rest ih =>
      obtain ⟨k2, v2⟩ := e
      have hnd' : (k2 :: rest.map Prod.fst).Nodup := by simpa [keysNodup] using hnd
      have hk2 : k2 ∉ rest.map Prod.fst := (List.nodup_cons.mp hnd').1
      have hnd2 : keysNodup rest := (List.nodup_cons.mp hnd').2
      by_cases hk : k2 = k
      · subst hk
        have hrw : alistDel k2 ((k2, v2) :: rest) = rest := by simp [alistDel]
        rw [hrw]
        unfold alistGet
        rw [List.find?_eq_none.mpr]
        · rfl
        · intro p hp hbeq
          have hp1 : p.1 = k2 := by simpa using hbeq
          exact hk2 (hp1 ▸ List.mem_map_of_mem Prod.fst hp)
      · have hrw : alistDel k ((k2, v2) :: rest) = (k2, v2) :: alistDel k rest := by
          simp [alistDel, hk]
        rw [hrw]
        unfold alistGet at ih ⊢
        rw [List.find?_cons]
        have hbeq : (k2 == k) = false := by simp [hk]
        simp only [hbeq]
        exact ih hnd2

theorem alistDel_keys_subset {β : Type} (k : Bytes) (d : List (Bytes × β)) :
    ((alistDel k d).map Prod.fst).Sublist (d.map Prod.fst) := by
  induction d with
  | nil => simp [alistDel]
  | cons e rest ih =>
      obtain ⟨k2, v2⟩ := e
      by_cases hk : k2 = k
      · subst hk
        simp [alistDel]
      · have : alistDel k ((k2, v2) :: rest) = (k2, v2) :: alistDel k rest := by
          simp [alistDel, hk]
        rw [this]
        simpa using ih.cons₂ k2

theorem alistDel_nodup {β : Type} (k : Bytes) (d : List (Bytes × β))
    (hnd : keysNodup d) : keysNodup (alistDel k d) :=
  (alistDel_keys_subset k d).nodup hnd

theorem alistPut_keys {β : Type} (k : Bytes) (v : β) (d : List (Bytes × β)) (x : Bytes)
    (hx : x ∈ (alistPut k v d).map Prod.fst) : x = k ∨ x ∈ d.map Prod.fst := by
  induction d with
  | nil =>
      left
      simpa [alistPut] using hx
  | cons e rest ih =>
      obtain ⟨k2, v2⟩ := e
      by_cases hk : k2 = k
      · subst hk
        have hrw : alistPut k2 v ((k2, v2) :: rest) = (k2, v) :: rest := by simp [alistPut]
        rw [hrw, List.map_cons] at hx
        rcases List.mem_cons.mp hx with h | h
        · exact Or.inl h
        · right
          rw [List.map_cons]
          exact List.mem_cons_of_mem _ h
      · have hrw : alistPut k v ((k2, v2) :: rest) = (k2, v2) :: alistPut k v rest := by
          simp [alistPut, hk]
        rw [hrw, List.map_cons] at hx
        rcases List.mem_cons.mp hx with h | h
        · right
          rw [List.map_cons]
          exact List.mem_cons.mpr (Or.inl h)
        · rcases ih h with h2 | h2
          · exact Or.inl h2
          · right
            rw [List.map_cons]
            exact List.mem_cons_of_mem _ h2

theorem alistPut_nodup {β : Type} (k : Bytes) (v : β) (d : List (Bytes × β))
    (hnd : keysNodup d) : keysNodup (alistPut k v d) := by
  induction d with
  | nil => simp [alistPut, keysNodup]
  | cons e rest ih =>
      obtain ⟨k2, v2⟩ := e
      have hnd' : (k2 :: rest.map Prod.fst).Nodup := by simpa [keysNodup] using hnd
      have hk2 : k2 ∉ rest.map Prod.fst := (List.nodup_cons.mp hnd').1
      have hnd2 : keysNodup rest := (List.nodup_cons.mp hnd').2
      by_cases hk : k2 = k
      · subst hk
        have hrw : alistPut k2 v ((k2, v2) :: rest) = (k2, v) :: rest := by simp [alistPut]
        rw [hrw]
        show (k2 :: rest.map Prod.fst).Nodup
        exact List.nodup_cons.mpr ⟨hk2, hnd2⟩
      · have hrw : alistPut k v ((k2, v2) :: rest) = (k2, v2) :: alistPut k v rest := by
          simp [alistPut, hk]
        rw [hrw]
        show (k2 :: (alistPut k v rest).map Prod.fst).Nodup
        refine List.nodup_cons.mpr ⟨?_, ih hnd2⟩
        intro hc
        rcases alistPut_keys k v rest k2 hc with h | h
        · exact hk h
        · exact hk2 h

theorem foldl_del_get (ps : List Bytes) (d : List (Bytes × List Bytes)) (x : Bytes)
    (hnd : keysNodup d) :
    alistGet (ps.foldl (fun h p => alistDel p h) d) x =
      if x ∈ ps then none else alistGet d x := by
  induction ps generalizing d with
  | nil => simp
  | cons p ps ih =>
      have hnd2 : keysNodup (alistDel p d) := alistDel_nodup p d hnd
      rw [List.foldl_cons, ih (alistDel p d) hnd2]
      by_cases hx : x ∈ ps
      · simp [hx]
      · by_cases hxp : x = p
        · subst hxp
          simp [hx, alistGet_del_self x d hnd]
        · simp [hx, hxp, alistGet_del_other p d x hxp]

theorem foldl_del_nodup (ps : List Bytes) (d : List (Bytes × List Bytes))
    (hnd : keysNodup d) : keysNodup (ps.foldl (fun h p => alistDel p h) d) := by
  induction ps generalizing d with
  | nil => simpa
  | cons p ps ih => exact ih (alistDel p d) (alistDel_nodup p d hnd)

/-! ## C8: reference tracker -/

theorem trackHeadsForRef_spec (ref id : Bytes) (ps : List Bytes) (t : RefTracker)
    (hnd : keysNodup t.heads) :
    (∀ x, alistGet (trackHeadsForRef ref id (some ps) t).last_ids x =
        if x = ref then some id else alistGet t.last_ids x) ∧
    (∀ i x, memH (trackHeadsForRef ref id (some ps) t) i x ↔
        ((i = id ∧ x = ref) ∨ (memH t i x ∧ i ∉ ps))) ∧
    keysNodup (trackHeadsForRef ref id (some ps) t).heads := by
  have hget1 : ∀ x, alistGet (ps.foldl (fun h p => alistDel p h) t.heads) x =
      if x ∈ ps then none else alistGet t.heads x := fun x => foldl_del_get ps t.heads x hnd
  have hnd1 : keysNodup (ps.foldl (fun h p => alistDel p h) t.heads) :=
    foldl_del_nodup ps t.heads hnd
  have hL : ∃ L : List Bytes,
      trackHeadsForRef ref id (some ps) t =
        { last_ref := some ref, last_ids := alistPut ref id t.last_ids,
          heads := alistPut id L (ps.foldl (fun h p => alistDel p h) t.heads) } ∧
      (∀ x, x ∈ L ↔ (x = ref ∨
          x ∈ (alistGet (ps.foldl (fun h p => alistDel p h) t.heads) id).getD [])) := by
    rcases hcase : alistGet (ps.foldl (fun h p => alistDel p h) t.heads) id with _ | refs
    · refine ⟨[ref], ?_, ?_⟩
      · simp only [trackHeadsForRef]
        rw [hcase]
      · intro x
        simp
    · refine ⟨if refs.contains ref then refs else refs ++ [ref], ?_, ?_⟩
      · simp only [trackHeadsForRef]
        rw [hcase]
      · intro x
        by_cases hc : refs.contains ref
        · have hmem : ref ∈ refs := List.mem_of_elem_eq_true hc
          simp only [hc, if_true, Option.getD_some]
          constructor
          · intro hx; exact Or.inr hx
          · intro hx
            rcases hx with hx | hx
            · exact hx ▸ hmem
            · exact hx
        · rw [if_neg hc]
          simp only [Option.getD_some, List.mem_append, List.mem_singleton]
          tauto
  obtain ⟨L, htr, hmemL⟩ := hL
  refine ⟨?_, ?_, ?_⟩
  · intro x
    rw [htr]
    exact alistGet_put ref id t.last_ids x
  · intro i x
    rw [htr]
    show x ∈ (alistGet (alistPut id L (ps.foldl (fun h p => alistDel p h) t.heads)) i).getD []
        ↔ _
    rw [alistGet_put]
    by_cases hi : i = id
    · subst hi
      rw [if_pos rfl]
      show x ∈ L ↔ _
      rw [hmemL x, hget1 i]
      unfold memH
      by_cases hp : i ∈ ps <;> simp [hp]
    · rw [if_neg hi]
      unfold memH
      rw [hget1 i]
      by_cases hp : i ∈ ps <;> simp [hp, hi]
  · rw [htr]
    show keysNodup (alistPut id L (ps.foldl (fun h p => alistDel p h) t.heads))
    exact alistPut_nodup id L _ hnd1

theorem trackHeads_eq (c : CommitCommand) (t : RefTracker) (ms : List Bytes)
    (hm : c.merges = some ms) :
    trackHeads c t = some (parentsSpec c t ms,
      trackHeadsForRef c.ref c.idOf (some (parentsSpec c t ms)) t) := by
  unfold trackHeads parentsSpec
  rw [hm]

theorem trackRun_cons_elim (c : CommitCommand) (cs : List CommitCommand)
    (t0 tEnd : RefTracker) (pss : List (List Bytes))
    (h : trackRun (c :: cs) t0 = some (tEnd, pss)) :
    ∃ ms pss2, c.merges = some ms ∧
      trackRun cs (trackHeadsForRef c.ref c.idOf (some (parentsSpec c t0 ms)) t0)
        = some (tEnd, pss2) ∧
      pss = parentsSpec c t0 ms :: pss2 := by
  rw [trackRun] at h
  rcases hm : c.merges with _ | ms
  · have hnone : trackHeads c t0 = none := by
      unfold trackHeads
      rw [hm]
    rw [hnone] at h
    simp at h
  · rw [trackHeads_eq c t0 ms hm] at h
    simp only [] at h
    rcases h2 : trackRun cs (trackHeadsForRef c.ref c.idOf (some (parentsSpec c t0 ms)) t0)
        with _ | ⟨tE, pss2⟩
    · rw [h2] at h
      simp at h
    · rw [h2] at h
      simp only [Option.some.injEq, Prod.mk.injEq] at h
      refine ⟨ms, pss2, rfl, ?_, ?_⟩
      · rw [h2, h.1]
      · rw [← h.2]

theorem trackRun_last_ids (cs : List CommitCommand) (t0 t : RefTracker)
    (pss : List (List Bytes)) (h : trackRun cs t0 = some (t, pss)) (r : Bytes) :
    alistGet t.last_ids r =
      match cs.reverse.find? (fun c => c.ref == r) with
      | some c => some c.idOf
      | none => alistGet t0.last_ids r := by
  induction cs generalizing t0 pss with
  | nil =>
      simp only [trackRun, Option.some.injEq, Prod.mk.injEq] at h
      rw [← h.1]
      simp
  | cons c cs ih =>
      obtain ⟨ms, pss2, hm, h2, hpss⟩ := trackRun_cons_elim c cs t0 t pss h
      have hstep : ∀ x,
          alistGet (trackHeadsForRef c.ref c.idOf
              (some (parentsSpec c t0 ms)) t0).last_ids x =
            if x = c.ref then some c.idOf else alistGet t0.last_ids x := by
        intro x
        show alistGet (alistPut c.ref c.idOf t0.last_ids) x = _
        exact alistGet_put c.ref c.idOf t0.last_ids x
      rw [ih _ pss2 h2]
      rw [List.reverse_cons, List.find?_append]
      rcases hf : cs.reverse.find? (fun d => d.ref == r) with _ | d
      · rw [hf]
        simp only [Option.none_or]
        rcases hb : (c.ref == r) with _ | _
        · have hfc : [c].find? (fun d => d.ref == r) = none := by
            simp [List.find?, hb]
          rw [hfc]
          have hne : ¬r = c.ref := by
            intro hc
            rw [hc] at hb
            simp at hb
          simp only []
          rw [hstep r, if_neg hne]
        · have hfc : [c].find? (fun d => d.ref == r) = some c := by
            simp [List.find?, hb]
          rw [hfc]
          have heq : r = c.ref := by
            have := hb
            simp at this
            exact this.symm
          simp only []
          rw [hstep r, if_pos heq]
      · rw [hf]
        simp

theorem trackRun_heads (cs : List CommitCommand) (t0 t : RefTracker)
    (pss : List (List Bytes)) (hnd : keysNodup t0.heads)
    (h : trackRun cs t0 = some (t, pss)) (i r : Bytes) :
    memH t i r ↔
      ((∃ (j : Nat) (c : CommitCommand), cs[j]? = some c ∧ c.idOf = i ∧ c.ref = r ∧
          ∀ (k : Nat) (p : List Bytes), j < k → pss[k]? = some p → i ∉ p) ∨
       (memH t0 i r ∧ ∀ p ∈ pss, i ∉ p)) := by
  induction cs generalizing t0 pss with
  | nil =>
      simp only [trackRun, Option.some.injEq, Prod.mk.injEq] at h
      obtain ⟨h1, h2⟩ := h
      subst h1
      subst h2
      constructor
      · intro hm
        exact Or.inr ⟨hm, by simp⟩
      · intro hm
        rcases hm with ⟨j, c, hj, _⟩ | ⟨hm, _⟩
        · simp at hj
        · exact hm
  | cons c cs ih =>
      obtain ⟨ms, pss2, hm, h2, hpss⟩ := trackRun_cons_elim c cs t0 t pss h
      subst hpss
      obtain ⟨_, hstepmem, hstepnd⟩ :=
        trackHeadsForRef_spec c.ref c.idOf (parentsSpec c t0 ms) t0 hnd
      have hmem1 : ∀ x,
          memH (trackHeadsForRef c.ref c.idOf (some (parentsSpec c t0 ms)) t0) i x ↔
            ((i = c.idOf ∧ x = c.ref) ∨ (memH t0 i x ∧ i ∉ parentsSpec c t0 ms)) :=
        fun x => hstepmem i x
      rw [ih _ pss2 hstepnd h2]
      constructor
      · intro hcase
        rcases hcase with ⟨j, d, hj, hid, href, hlater⟩ | ⟨hm1, hall⟩
        · -- lift index j to j+1
          left
          refine ⟨j + 1, d, by simpa using hj, hid, href, ?_⟩
          intro k p hk hkp
          match k, hk with
          | k' + 1, hk =>
            have hk' : j < k' := by omega
            exact hlater k' p hk' (by simpa using hkp)
        · rw [hmem1 r] at hm1
          rcases hm1 with ⟨hid, href⟩ | ⟨hm0, hnp⟩
          · -- the head commit c is the witness at index 0
            left
            refine ⟨0, c, by simp, hid.symm, href.symm, ?_⟩
            intro k p hk hkp
            match k, hk with
            | k' + 1, _ =>
              have : p ∈ pss2 := List.getElem?_mem (by simpa using hkp)
              exact hall p this
          · right
            refine ⟨hm0, ?_⟩
            intro p hpmem
            rcases List.mem_cons.mp hpmem with hpe | hpe
            · rw [hpe]; exact hnp
            · exact hall p hpe
      · intro hcase
        rcases hcase with ⟨j, d, hj, hid, href, hlater⟩ | ⟨hm0, hall⟩
        · match j with
          | 0 =>
            have hd : c = d := by simpa using hj
            subst hd
            right
            refine ⟨?_, ?_⟩
            · rw [hmem1 r]
              exact Or.inl ⟨hid.symm, href.symm⟩
            · intro p hpmem
              obtain ⟨n, hn⟩ := List.getElem?_of_mem hpmem
              exact hlater (n + 1) p (by omega) (by simpa using hn)
          | j' + 1 =>
            left
            refine ⟨j', d, by simpa using hj, hid, href, ?_⟩
            intro k p hk hkp
            exact hlater (k + 1) p (by omega) (by simpa using hkp)
        · right
          refine ⟨?_, ?_⟩
          · rw [hmem1 r]
            have hps : i ∉ parentsSpec c t0 ms := by
              have hmem : parentsSpec c t0 ms ∈ parentsSpec c t0 ms :: pss2 :=
                List.mem_cons_self (parentsSpec c t0 ms) pss2
              exact hall (parentsSpec c t0 ms) hmem
            exact Or.inr ⟨hm0, hps⟩
          · intro p hpmem
            exact hall p (List.mem_cons_of_mem (parentsSpec c t0 ms) hpmem)


/-- **C8** (amended). Per call: `track_heads` returns exactly the parent
list the spec describes, sets `last_ids[ref]` to the new id leaving other
refs untouched, and updates `heads` so that `r` is a head of `i` iff
either `i` is the new commit with `r` its ref, or it already was one and
`i` is not among the returned parents. Over a whole run from a fresh
tracker: `last_ids[r]` is the id of the most recent commit on `r`, and
`heads[i]` contains `r` iff some commit `j` had ref `r` and id `i`, and
no later call returned `i` in its parent list (the claim's
"no later commit on r has appeared" is false: the id is also evicted
when a later commit names it as from/merge parent, see the
counterexample). -/
theorem track_heads_spec :
    (∀ (c : CommitCommand) (t : RefTracker) (ms : List Bytes), c.merges = some ms →
      ∃ t2, trackHeads c t = some (parentsSpec c t ms, t2) ∧
        (∀ x, alistGet t2.last_ids x =
            if x = c.ref then some c.idOf else alistGet t.last_ids x) ∧
        (keysNodup t.heads →
          (∀ i x, memH t2 i x ↔
            ((i = c.idOf ∧ x = c.ref) ∨ (memH t i x ∧ i ∉ parentsSpec c t ms))))) ∧
    (∀ (cs : List CommitCommand) (t : RefTracker) (pss : List (List Bytes)),
      trackRun cs RefTracker.init = some (t, pss) →
      (∀ r, alistGet t.last_ids r =
          match cs.reverse.find? (fun c => c.ref == r) with
          | some c => some c.idOf
          | none => none) ∧
      (∀ i r, memH t i r ↔
        ∃ (j : Nat) (c : CommitCommand), cs[j]? = some c ∧ c.idOf = i ∧ c.ref = r ∧
          ∀ (k : Nat) (p : List Bytes), j < k → pss[k]? = some p → i ∉ p)) := by
  constructor
  · intro c t ms hm
    refine ⟨trackHeadsForRef c.ref c.idOf (some (parentsSpec c t ms)) t,
      trackHeads_eq c t ms hm, ?_, ?_⟩
    · intro x
      show alistGet (alistPut c.ref c.idOf t.last_ids) x = _
      exact alistGet_put c.ref c.idOf t.last_ids x
    · intro hnd i x
      exact (trackHeadsForRef_spec c.ref c.idOf (parentsSpec c t ms) t hnd).2.1 i x
  · intro cs t pss hrun
    constructor
    · intro r
      rw [trackRun_last_ids cs RefTracker.init t pss hrun r]
      rcases hf : cs.reverse.find? (fun c => c.ref == r) with _ | d
      · rw [hf]
        rfl
      · rw [hf]
    · intro i r
      have hnd0 : keysNodup RefTracker.init.heads := by simp [RefTracker.init, keysNodup]
      rw [trackRun_heads cs RefTracker.init t pss hnd0 hrun i r]
      constructor
      · intro hc
        rcases hc with hc | ⟨hmem, _⟩
        · exact hc
        · exact absurd hmem (by simp [memH, RefTracker.init, alistGet])
      · intro hc
        exact Or.inl hc

/-- **C8 witness**: the run-level conjunct instantiated on the concrete
two-commit sequence. -/
theorem track_heads_spec_witness :
    trackRun [cexC1, cexC2] RefTracker.init = some (cexTFinal, [[], [bs ":1"]]) ∧
    (memH cexTFinal (bs ":2") (bs "r2") ↔
      ∃ (j : Nat) (c : CommitCommand), [cexC1, cexC2][j]? = some c ∧
        c.idOf = bs ":2" ∧ c.ref = bs "r2" ∧
        ∀ (k : Nat) (p : List Bytes), j < k → [[], [bs ":1"]][k]? = some p →
          (bs ":2") ∉ p) :=
  ⟨by decide, (track_heads_spec.2 [cexC1, cexC2] cexTFinal [[], [bs ":1"]] (by decide)).2
      (bs ":2") (bs "r2")⟩

/-- **C8 counterexample** to the claim as stated: after `cexC1` (ref r1,
id `:1`) then `cexC2` (ref r2, parent `:1`), no commit on r1 has appeared
after `cexC1`, yet `heads` has no entry for `:1` at all — the parent
link from `cexC2` evicted it. -/
theorem track_heads_claim_counterexample :
    (trackRun [cexC1, cexC2] RefTracker.init).map
        (fun p => alistGet p.1.heads (bs ":1")) = some none ∧
    cexC1.idOf = bs ":1" ∧ cexC1.ref = bs "r1" ∧ cexC2.ref = bs "r2" := by
  decide

/-! ## C3: parent rewriting for squashed commits -/

/-- **C3.** The squash walk: from a squashed commit `B` whose first
recorded parent `A` is not squashed, `_find_interesting_parent` returns
`A`; from a squashed commit with no recorded parent (absent entry,
`None`, or `[]`) it returns Python `None`. A reset or tag whose `from`
resolves to `None` is dropped (state unchanged, nothing printed); a kept
commit is emitted with its `from_` replaced by the walk's result
(`some A` = rewritten, `none` = re-rooted) and its merges by the
surviving merge list. -/
theorem filter_parent_squash_law :
    (∀ (st : FState) (B A : Bytes) (r : List Bytes),
        st.squashed.contains B = true →
        alistGet st.parents B = some (some (A :: r)) →
        st.squashed.contains A = false →
        findInterestingParent st B = some (some A)) ∧
    (∀ (st : FState) (B : Bytes),
        st.squashed.contains B = true →
        (alistGet st.parents B = none ∨ alistGet st.parents B = some none ∨
         alistGet st.parents B = some (some [])) →
        findInterestingParent st B = some none) ∧
    (∀ (cfg : FilterCfg) (st : FState) (c : ResetCommand) (f : Bytes),
        c.from_ = some f →
        findInterestingParent st f = some none →
        filterStep cfg st (.reset c) = .ok st) ∧
    (∀ (cfg : FilterCfg) (st : FState) (c : TagCommand) (f : Bytes),
        c.from_ = some f →
        findInterestingParent st f = some none →
        filterStep cfg st (.tag c) = .ok st) ∧
    (∀ (cfg : FilterCfg) (st : FState) (c : CommitCommand) (ops : List FileCommand)
        (res : Option Bytes) (mr : Option (List Bytes)),
        c.file_iter = some ops →
        filterFileCommands cfg ops ≠ [] →
        filterFileCommands cfg ops ≠ [FileCommand.deleteall] →
        findInterestingFrom st c.from_ = some res →
        findInterestingMerges st c.merges = some mr →
        ∃ st2 refBlobs,
          filterStep cfg st (.commit c) =
            emitCommit st2 refBlobs
              { c with file_iter := some (filterFileCommands cfg ops),
                       from_ := res,
                       merges := match mr with | some ms => some ms | none => c.merges }) := by
  have hwalk1 : ∀ (st : FState) (B A : Bytes) (r : List Bytes),
      st.squashed.contains B = true →
      alistGet st.parents B = some (some (A :: r)) →
      st.squashed.contains A = false →
      findInterestingParent st B = some (some A) := by
    intro st B A r hB hP hA
    unfold findInterestingParent
    obtain ⟨n, hn⟩ : ∃ n, st.squashed.length = n + 1 := by
      cases hsq : st.squashed with
      | nil => rw [hsq] at hB; simp at hB
      | cons a l => exact ⟨l.length, rfl⟩
    rw [hn]
    have hB2 : B ∈ st.squashed := by simpa using hB
    have hA2 : A ∉ st.squashed := by simpa using hA
    simp [findParentGo, hB2, hP, hA2]
  refine ⟨hwalk1, ?_, ?_, ?_, ?_⟩
  · intro st B hB hP
    unfold findInterestingParent
    obtain ⟨n, hn⟩ : ∃ n, st.squashed.length = n + 1 := by
      cases hsq : st.squashed with
      | nil => rw [hsq] at hB; simp at hB
      | cons a l => exact ⟨l.length, rfl⟩
    rw [hn]
    have hB2 : B ∈ st.squashed := by simpa using hB
    rcases hP with hP | hP | hP <;> simp [findParentGo, hB2, hP]
  · intro cfg st c f hf hw
    simp only [filterStep, hf, hw]
  · intro cfg st c f hf hw
    simp only [filterStep, hf, findInterestingFrom, hw]
  · intro cfg st c ops res mr hops hne hnd hfrom hmr
    exact ⟨_, _, by
      simp only [filterStep, hops]
      rw [if_pos (Or.inl hne), if_neg hnd, hfrom, hmr]⟩

/-- **C3 witness**: the walk and the reset-drop at concrete states. -/
theorem filter_parent_squash_law_witness :
    findInterestingParent cexFSt (bs ":2") = some (some (bs ":1")) ∧
    filterStep (mkFilterCfg none none true) cexRootSt
        (.reset ⟨bs "refs/x", some (bs ":9")⟩) = .ok cexRootSt :=
  ⟨filter_parent_squash_law.1 cexFSt (bs ":2") (bs ":1") [] (by decide) (by decide)
      (by decide),
   filter_parent_squash_law.2.2.1 (mkFilterCfg none none true) cexRootSt
      ⟨bs "refs/x", some (bs ":9")⟩ (bs ":9") rfl
      (filter_parent_squash_law.2.1 cexRootSt (bs ":9") (by decide)
        (Or.inl (by decide)))⟩

/-! ## C4: blob emission before a kept commit -/

/-- **C4** (amended). `post_handler`: when every referenced dataref has a
buffered blob, the kept commit is emitted preceded by those blobs, in
reference order, each via `emitLF` of its serialization; when the first
referenced dataref has no buffered blob the handler raises `KeyError`
instead of emitting the commit (refuting the claim's "still emitted"
case for raw SHA-1 or unbuffered-mark datarefs). -/
theorem filter_blob_emission :
    (∀ (st : FState) (refs : List Bytes) (c2 : CommitCommand) (sb : Bytes),
        serializeCmd (.commit c2) = some sb →
        (∀ r ∈ refs, (alistGet st.blobs r).isSome) →
        emitCommit st refs c2 = .ok { st with out := st.out ++
          (refs.filterMap (fun r => (alistGet st.blobs r).map
            (fun b => emitLF b.toBytes))).flatten ++ emitLF sb }) ∧
    (∀ (st : FState) (r : Bytes) (rest : List Bytes) (c2 : CommitCommand),
        alistGet st.blobs r = none →
        emitCommit st (r :: rest) c2 = .err (.keyError r)) := by
  constructor
  · intro st refs c2 sb hs hbuf
    induction refs generalizing st with
    | nil =>
        simp [emitCommit, hs]
    | cons r rest ih =>
        have hr : (alistGet st.blobs r).isSome := hbuf r (List.mem_cons_self r rest)
        obtain ⟨b, hb⟩ : ∃ b, alistGet st.blobs r = some b :=
          Option.isSome_iff_exists.mp hr
        have hbuf2 : ∀ x ∈ rest, (alistGet st.blobs x).isSome := fun x hx =>
          hbuf x (List.mem_cons_of_mem r hx)
        simp only [emitCommit, hb]
        rw [ih { st with out := st.out ++ emitLF b.toBytes } hbuf2]
        simp [hb, List.append_assoc]
  · intro st r rest c2 hr
    simp only [emitCommit, hr]

/-- **C4 witness**: both conjuncts at concrete states. -/
theorem filter_blob_emission_witness :
    emitCommit cexBlobSt [bs ":1"] cexKeptCommit = .ok { cexBlobSt with
      out := cexBlobSt.out ++
        (([bs ":1"]).filterMap (fun r => (alistGet cexBlobSt.blobs r).map
          (fun b => emitLF b.toBytes))).flatten ++ emitLF cexSb } ∧
    emitCommit FState.init [bs "abc123"] cexKeptCommit
      = .err (.keyError (bs "abc123")) :=
  ⟨filter_blob_emission.1 cexBlobSt [bs ":1"] cexKeptCommit cexSb (by decide)
      (by decide),
   filter_blob_emission.2 FState.init (bs "abc123") [] cexKeptCommit (by decide)⟩

/-- **C4 counterexample** to the claim as stated: a kept commit whose
file-modify dataref is the raw SHA-1 `abc123` (no buffered blob) is not
emitted; the filter raises `KeyError(b'abc123')`. -/
theorem filter_blob_claim_counterexample :
    filterStep (mkFilterCfg none none true) FState.init (.commit cexShaCommit)
      = .err (.keyError (bs "abc123")) := by
  decide

/-! ## C2: the unconfigured filter as an identity -/

theorem filterRun_append (cfg : FilterCfg) (l1 l2 : List ImportCommand) (st : FState) :
    filterRun cfg (l1 ++ l2) st =
      match filterRun cfg l1 st with
      | .ok st2 => filterRun cfg l2 st2
      | .err e => .err e
      | .hang => .hang := by
  induction l1 generalizing st with
  | nil => simp [filterRun]
  | cons a l ih =>
      show filterRun cfg (a :: (l ++ l2)) st = _
      rw [filterRun, filterRun]
      rcases filterStep cfg st a with st2 | e
      · exact ih st2
      · rfl
      · rfl

theorem filterRun_blobs (cfg : FilterCfg) (blobs : List BlobCommand) (st : FState) :
    filterRun cfg (blobs.map ImportCommand.blob) st =
      .ok { st with blobs := putBlobs blobs st.blobs } := by
  induction blobs generalizing st with
  | nil => simp [filterRun, putBlobs]
  | cons b bl ih =>
      show filterRun cfg (.blob b :: bl.map ImportCommand.blob) st = _
      rw [filterRun]
      show (match filterStep cfg st (.blob b) with
            | .ok st2 => filterRun cfg (bl.map ImportCommand.blob) st2
            | .err e => .err e
            | .hang => .hang) = _
      rw [filterStep]
      show filterRun cfg (bl.map ImportCommand.blob)
          { st with blobs := alistPut b.idOf b st.blobs } = _
      rw [ih]
      rfl

theorem putAll_get_other (bl : List BlobCommand) (d : List (Bytes × BlobCommand))
    (k : Bytes) (hk : k ∉ bl.map BlobCommand.idOf) :
    alistGet (putBlobs bl d) k = alistGet d k := by
  induction bl generalizing d with
  | nil => rfl
  | cons b bl ih =>
      have hk1 : k ≠ b.idOf := by
        intro hc
        exact hk (by rw [hc]; exact List.mem_cons_self _ _)
      have hk2 : k ∉ bl.map BlobCommand.idOf := by
        intro hc
        exact hk (List.mem_cons_of_mem _ hc)
      show alistGet (putBlobs bl (alistPut b.idOf b d)) k = _
      rw [ih _ hk2, alistGet_put, if_neg hk1]

theorem putAll_get (blobs : List BlobCommand) (d : List (Bytes × BlobCommand))
    (hnd : (blobs.map BlobCommand.idOf).Nodup) :
    ∀ b ∈ blobs, alistGet (putBlobs blobs d) b.idOf = some b := by
  induction blobs generalizing d with
  | nil => intro b hb; exact absurd hb (List.not_mem_nil b)
  | cons b0 bl ih =>
      have hnd' := List.nodup_cons.mp (show (b0.idOf :: bl.map BlobCommand.idOf).Nodup from hnd)
      intro b hb
      rcases List.mem_cons.mp hb with hb | hb
      · subst hb
        show alistGet (putBlobs bl (alistPut b.idOf b d)) b.idOf = some b
        rw [putAll_get_other bl _ _ hnd'.1, alistGet_put, if_pos rfl]
      · exact ih (alistPut b0.idOf b0 d) hnd'.2 b hb

theorem refBlobs_lookup (blobs : List BlobCommand) (D : List (Bytes × BlobCommand))
    (hD : ∀ b ∈ blobs, alistGet D b.idOf = some b) :
    (blobs.map BlobCommand.idOf).filterMap
        (fun r => (alistGet D r).map (fun b => emitLF b.toBytes)) =
      blobs.map (fun b => emitLF b.toBytes) := by
  induction blobs with
  | nil => rfl
  | cons b bl ih =>
      show List.filterMap _ (b.idOf :: bl.map BlobCommand.idOf) = _
      rw [List.filterMap_cons]
      rw [hD b (List.mem_cons_self b bl)]
      simp only [Option.map_some']
      rw [ih (fun x hx => hD x (List.mem_cons_of_mem b hx))]
      rfl

/-- `emitCommit` when every referenced blob is buffered. -/
theorem emitCommit_ok (st : FState) (refs : List Bytes) (c2 : CommitCommand) (sb : Bytes)
    (hs : serializeCmd (.commit c2) = some sb)
    (hbuf : ∀ r ∈ refs, (alistGet st.blobs r).isSome) :
    emitCommit st refs c2 = .ok { st with out := st.out ++
      (refs.filterMap (fun r => (alistGet st.blobs r).map
        (fun b => emitLF b.toBytes))).flatten ++ emitLF sb } := by
  induction refs generalizing st with
  | nil => simp [emitCommit, hs]
  | cons r rest ih =>
      have hr : (alistGet st.blobs r).isSome := hbuf r (List.mem_cons_self r rest)
      obtain ⟨b, hb⟩ : ∃ b, alistGet st.blobs r = some b :=
        Option.isSome_iff_exists.mp hr
      have hbuf2 : ∀ x ∈ rest, (alistGet st.blobs x).isSome := fun x hx =>
        hbuf x (List.mem_cons_of_mem r hx)
      simp only [emitCommit, hb]
      rw [ih { st with out := st.out ++ emitLF b.toBytes } hbuf2]
      simp [hb, List.append_assoc]

theorem findInterestingParent_empty (st : FState) (hsq : st.squashed = []) (f : Bytes) :
    findInterestingParent st f = some (some f) := by
  unfold findInterestingParent
  rw [hsq]
  simp [findParentGo]

theorem findInterestingFrom_empty (st : FState) (hsq : st.squashed = []) (o : Option Bytes) :
    findInterestingFrom st o = some o := by
  cases o with
  | none => rfl
  | some f => exact findInterestingParent_empty st hsq f

theorem findMergesGo_empty (st : FState) (hsq : st.squashed = []) (ms : List Bytes) :
    findMergesGo st ms = some ms := by
  induction ms with
  | nil => rfl
  | cons r rs ih =>
      show (match findInterestingParent st r with
            | none => none
            | some none => findMergesGo st rs
            | some (some p) => (findMergesGo st rs).map (fun l => p :: l)) = _
      rw [findInterestingParent_empty st hsq r, ih]
      rfl

theorem merges_id (st : FState) (hsq : st.squashed = []) (o : Option (List Bytes)) :
    ∃ mr, findInterestingMerges st o = some mr ∧
      (match mr with | some ms => some ms | none => o) = o := by
  cases o with
  | none => exact ⟨none, rfl, rfl⟩
  | some ms =>
      cases ms with
      | nil =>
          refine ⟨none, ?_, rfl⟩
          show (match findMergesGo st [] with
                | none => none
                | some [] => some (none : Option (List Bytes))
                | some (m :: ms) => some (some (m :: ms))) = _
          rfl
      | cons m ms =>
          refine ⟨some (m :: ms), ?_, rfl⟩
          show (match findMergesGo st (m :: ms) with
                | none => none
                | some [] => some (none : Option (List Bytes))
                | some (m :: ms) => some (some (m :: ms))) = _
          rw [findMergesGo_empty st hsq]

/-- Stitch one canonically-emitted command onto a finished tail run. -/
theorem run_cons (cfg : FilterCfg) (a : ImportCommand) (rest : List ImportCommand)
    (st st1 : FState)
    (hstep : filterStep cfg st a = .ok st1)
    (hout1 : st1.out = st.out ++ emitLF ((serializeCmd a).getD []))
    (hrest : ∃ st2, filterRun cfg rest st1 = .ok st2 ∧
        st2.out = st1.out ++ canonOut rest ∧ st2.squashed = []) :
    ∃ st2, filterRun cfg (a :: rest) st = .ok st2 ∧
      st2.out = st.out ++ canonOut (a :: rest) ∧ st2.squashed = [] := by
  obtain ⟨st2, h1, h2, h3⟩ := hrest
  refine ⟨st2, ?_, ?_, h3⟩
  · rw [filterRun, hstep]
    exact h1
  · rw [h2, hout1]
    simp [canonOut, List.append_assoc]

/-- **C2** (amended). On a `NiceStream` — blobs grouped right before the
kept commit that references all of them in buffering order, tags with a
`from`, no empty or deleteall-only commits — the filter with no
includes/excludes succeeds and its output is exactly the concatenation
of every command's canonical printed bytes, in input order. -/
theorem filter_identity :
    ∀ cs, NiceStream cs → ∀ st : FState, st.squashed = [] →
      ∃ st2, filterRun (mkFilterCfg none none true) cs st = .ok st2 ∧
        st2.out = st.out ++ canonOut cs ∧ st2.squashed = [] := by
  intro cs h
  induction h with
  | nil =>
      intro st hsq
      exact ⟨st, rfl, by simp [canonOut], hsq⟩
  | progress m rest hr ih =>
      intro st hsq
      exact run_cons _ _ rest st _ rfl rfl (ih _ hsq)
  | checkpoint rest hr ih =>
      intro st hsq
      exact run_cons _ _ rest st _ rfl rfl (ih _ hsq)
  | feature c rest hr ih =>
      intro st hsq
      exact run_cons _ _ rest st _ rfl rfl (ih _ hsq)
  | reset c rest hr ih =>
      intro st hsq
      rcases hf : c.from_ with _ | f
      · refine run_cons _ _ rest st
          { st with out := st.out ++ emitLF (ResetCommand.toBytes c) } ?_ rfl (ih _ hsq)
        simp only [filterStep, hf]
      · have hc : (⟨c.ref, some f⟩ : ResetCommand) = c := by rw [← hf]
        refine run_cons _ _ rest st
          { st with out := st.out ++ emitLF (ResetCommand.toBytes ⟨c.ref, some f⟩) } ?_ ?_
          (ih _ hsq)
        · simp only [filterStep, hf, findInterestingParent_empty st hsq f]
        · show st.out ++ emitLF (ResetCommand.toBytes ⟨c.ref, some f⟩) = _
          rw [hc]
          rfl
  | tag c f rest hf hr ih =>
      intro st hsq
      have hc : ({ c with from_ := some f } : TagCommand) = c := by rw [← hf]
      refine run_cons _ _ rest st
        { st with out := st.out ++ emitLF (TagCommand.toBytes { c with from_ := some f }) } ?_ ?_
        (ih _ hsq)
      · have hff : findInterestingFrom st c.from_ = some (some f) := by
          rw [hf]
          exact findInterestingFrom_empty st hsq (some f)
        simp only [filterStep, hff]
      · show st.out ++ emitLF (TagCommand.toBytes { c with from_ := some f }) = _
        rw [hc]
        rfl
  | group blobs c ops rest hops hne hnd hrefs hnodup hser hrest ih =>
      intro st hsq
      obtain ⟨sb, hsb⟩ := Option.isSome_iff_exists.mp hser
      have hker : filterFileCommands (mkFilterCfg none none true) ops = ops := by
        simp [filterFileCommands, mkFilterCfg]
      have hfrom2 : findInterestingFrom
          { st with blobs := putBlobs blobs st.blobs } c.from_ = some c.from_ :=
        findInterestingFrom_empty _ hsq c.from_
      obtain ⟨mr, hmr, hmr2⟩ :=
        merges_id { st with blobs := putBlobs blobs st.blobs } hsq c.merges
      have hstep : filterStep (mkFilterCfg none none true)
          { st with blobs := putBlobs blobs st.blobs } (.commit c) =
          emitCommit { st with blobs := putBlobs blobs st.blobs,
                               parents := recordParents c c.from_ c.merges st.parents }
            (blobs.map BlobCommand.idOf) c := by
        simp only [filterStep, hops, hker]
        rw [if_pos (Or.inl hne), if_neg hnd, hfrom2, hmr]
        simp only []
        rcases mr with _ | ms
        · simp only []
          rw [← hrefs,
            show ({ c with file_iter := some ops, from_ := c.from_, merges := c.merges }
              : CommitCommand) = c from by rw [← hops]]
          rfl
        · simp only [] at hmr2
          simp only []
          rw [hmr2, ← hrefs,
            show ({ c with file_iter := some ops, from_ := c.from_, merges := c.merges }
              : CommitCommand) = c from by rw [← hops]]
          rfl
      have hbufAll : ∀ r ∈ blobs.map BlobCommand.idOf,
          (alistGet (putBlobs blobs st.blobs) r).isSome := by
        intro r hrm
        obtain ⟨b, hb, hbid⟩ := List.mem_map.mp hrm
        rw [← hbid, putAll_get blobs st.blobs hnodup b hb]
        rfl
      have hemit := emitCommit_ok
        { st with blobs := putBlobs blobs st.blobs,
                  parents := recordParents c c.from_ c.merges st.parents }
        (blobs.map BlobCommand.idOf) c sb hsb hbufAll
      obtain ⟨st2, hrun2, hout2, hsq2⟩ := ih
        { st with blobs := putBlobs blobs st.blobs,
                  parents := recordParents c c.from_ c.merges st.parents,
                  out := st.out ++
                    ((blobs.map BlobCommand.idOf).filterMap
                      (fun r => (alistGet (putBlobs blobs st.blobs) r).map
                        (fun b => emitLF b.toBytes))).flatten ++ emitLF sb }
        hsq
      refine ⟨st2, ?_, ?_, hsq2⟩
      · rw [filterRun_append, filterRun_blobs]
        simp only []
        rw [filterRun, hstep, hemit]
        exact hrun2
      · rw [hout2]
        rw [show ((blobs.map BlobCommand.idOf).filterMap
              (fun r => (alistGet (putBlobs blobs st.blobs) r).map
                (fun b => emitLF b.toBytes))) =
            blobs.map (fun b => emitLF b.toBytes) from
          refBlobs_lookup blobs (putBlobs blobs st.blobs)
            (putAll_get blobs st.blobs hnodup)]
        have hsb2 : CommitCommand.toBytes c = some sb := hsb
        simp [canonOut, serializeCmd, hsb2, List.append_assoc, Function.comp_def]

/-- **C2 counterexample** to the claim as stated: on the valid stream
`[blob :1, empty commit :3]` the unconfigured filter emits nothing — the
unreferenced blob is only buffered and the empty commit is squashed —
though the canonical serialization of the stream is nonempty. -/
theorem filter_identity_claim_counterexample :
    filterRun (mkFilterCfg none none true) [.blob cexBlob, .commit cexEmptyCommit]
        FState.init =
      .ok ⟨[(bs ":1", cexBlob)], [bs ":3"], [(bs ":3", none)], []⟩ ∧
    canonOut [.blob cexBlob, .commit cexEmptyCommit] ≠ [] := by
  decide

/-- **C2 witness**: the identity on the concrete two-command group. -/
theorem filter_identity_witness :
    ∃ st2, filterRun (mkFilterCfg none none true)
        [.blob cexBlob, .commit cexRefCommit] FState.init = .ok st2 ∧
      st2.out = FState.init.out ++ canonOut [.blob cexBlob, .commit cexRefCommit] ∧
      st2.squashed = [] :=
  filter_identity [.blob cexBlob, .commit cexRefCommit]
    (NiceStream.group [cexBlob] cexRefCommit
      [.modify ⟨bs "README", 420, some (bs ":1"), none⟩] []
      rfl (by decide) (by decide) (by decide) (by decide) (by decide)
      NiceStream.nil)
    FState.init rfl


/-! ## C9: `format_path` quoting -/

/-- C9.  For every non-empty path with no LF byte, `format_path` wraps
the path in double quotes iff its first byte is `"` or quoting on spaces
was requested and a space is present; otherwise it returns the path
unchanged.  In particular the single-byte path `"` is emitted quoted. -/
theorem format_path_quote_iff (p : Bytes) (qs : Bool) (hne : p ≠ [])
    (hnl : ¬ bcontains p 10) :
    (format_path p qs = 34 :: (p ++ [34]) ↔
      (p.head? = some 34 ∨ (qs = true ∧ bcontains p 32))) ∧
    ((p.head? = some 34 ∨ (qs = true ∧ bcontains p 32)) ∨ format_path p qs = p) ∧
    format_path [34] false = [34, 34, 34] := by
  have hlen : 34 :: (p ++ [34]) ≠ p := by
    intro h
    have := congrArg List.length h
    simp at this
    omega
  have hfp : format_path p qs =
      if p.head? == some 34 || (qs && bcontains p 32) then 34 :: (p ++ [34]) else p := by
    unfold format_path
    rw [if_neg (by simpa using hnl)]
  refine ⟨?_, ?_, by decide⟩
  · constructor
    · intro h
      by_cases hc : (p.head? == some 34 || (qs && bcontains p 32)) = true
      · rcases Bool.or_eq_true_iff.mp hc with h1 | h1
        · left; exact beq_iff_eq.mp h1
        · right
          rcases Bool.and_eq_true_iff.mp h1 with ⟨h2, h3⟩
          exact ⟨h2, h3⟩
      · rw [hfp, if_neg hc] at h
        exact absurd h.symm hlen
    · intro h
      have hc : (p.head? == some 34 || (qs && bcontains p 32)) = true := by
        rcases h with h1 | ⟨h2, h3⟩
        · simp [h1]
        · simp [h2, h3]
      rw [hfp, if_pos hc]
  · by_cases hc : (p.head? == some 34 || (qs && bcontains p 32)) = true
    · left
      rcases Bool.or_eq_true_iff.mp hc with h1 | h1
      · left; exact beq_iff_eq.mp h1
      · right; exact Bool.and_eq_true_iff.mp h1
    · right
      rw [hfp, if_neg hc]

/-- Witness for C9 at the concrete path `"` (the boundary case named by
the spec) with `quote_spaces = False`. -/
theorem format_path_quote_iff_witness :
    format_path [34] false = 34 :: ([34] ++ [34]) ∧ format_path (bs "a b") false = bs "a b" := by
  constructor
  · exact (format_path_quote_iff [34] false (by decide) (by decide)).1.mpr (by decide)
  · rcases (format_path_quote_iff (bs "a b") false (by decide) (by decide)).2.1 with h | h
    · exact absurd h (by decide)
    · exact h

/-! ## Core stream lemmas -/

theorem contains_iff_mem {s : Bytes} {b : Nat} : s.contains b ↔ b ∈ s := by
  simp [List.contains]

theorem splitLine_app (l rest : Bytes) (h : ¬ l.contains 10) :
    splitLine (l ++ 10 :: rest) = (l ++ [10], rest) := by
  induction l with
  | nil => simp [splitLine]
  | cons c r ih =>
      have hc : c ≠ 10 := by
        intro hc
        exact h (contains_iff_mem.mpr (by simp [hc]))
      have hr : ¬ r.contains 10 := by
        intro hr
        exact h (contains_iff_mem.mpr (List.mem_cons_of_mem _ (contains_iff_mem.mp hr)))
      simp [splitLine, hc, ih hr]

theorem splitFirst_app (b : Nat) (a rest : Bytes) (h : ¬ a.contains b) :
    splitFirst b (a ++ b :: rest) = some (a, rest) := by
  induction a with
  | nil => simp [splitFirst]
  | cons c r ih =>
      have hc : c ≠ b := by
        intro hc
        exact h (contains_iff_mem.mpr (by simp [hc]))
      have hr : ¬ r.contains b := by
        intro hr
        exact h (contains_iff_mem.mpr (List.mem_cons_of_mem _ (contains_iff_mem.mp hr)))
      simp [splitFirst, hc, ih hr]

theorem splitFirst_none (b : Nat) (a : Bytes) (h : ¬ a.contains b) :
    splitFirst b a = none := by
  induction a with
  | nil => simp [splitFirst]
  | cons c r ih =>
      have hc : c ≠ b := by
        intro hc
        exact h (contains_iff_mem.mpr (by simp [hc]))
      have hr : ¬ r.contains b := by
        intro hr
        exact h (contains_iff_mem.mpr (List.mem_cons_of_mem _ (contains_iff_mem.mp hr)))
      simp [splitFirst, hc, ih hr]

theorem dropWhile_eq_self_of_all_false {p : Nat → Bool} {l : List Nat}
    (h : ∀ x ∈ l, p x = false) : l.dropWhile p = l := by
  cases l with
  | nil => rfl
  | cons c r => simp [List.dropWhile_cons, h c (List.mem_cons_self _ _)]

theorem parsePyInt_natToBytes (n : Nat) : parsePyInt (natToBytes n) = some (n : Int) := by
  have hdig := natToBytes_digits n
  have hne := natToBytes_ne_nil n
  have hnws : ∀ b ∈ natToBytes n, isWS b = false := by
    intro b hb
    have h := hdig b hb
    simp only [isWS, Bool.or_eq_false_iff, beq_eq_false_iff_ne, ne_eq]
    refine ⟨⟨⟨⟨⟨?_, ?_⟩, ?_⟩, ?_⟩, ?_⟩, ?_⟩ <;> omega
  have h1 : (natToBytes n).dropWhile isWS = natToBytes n :=
    dropWhile_eq_self_of_all_false hnws
  have h2 : ((natToBytes n).reverse.dropWhile isWS) = (natToBytes n).reverse :=
    dropWhile_eq_self_of_all_false (fun x hx => hnws x (List.mem_reverse.mp hx))
  unfold parsePyInt
  rw [h1, h2, List.reverse_reverse]
  match hh : natToBytes n with
  | [] => exact absurd hh hne
  | c :: r =>
      have hc := hdig c (by rw [hh]; exact List.mem_cons_self _ _)
      have hc45 : ¬ c = 45 := by omega
      have hc43 : ¬ c = 43 := by omega
      have hpn : parseNat (c :: r) = some n := by rw [← hh]; exact parseNat_natToBytes n
      simp [hc45, hc43, hpn]

/-! ## C5: `original-oid` in a commit header (code bug) -/

set_option maxRecDepth 40000 in
/-- C5 (code bug).  The repository's own test
(`test_commit_with_original_oid`) requires the parser to accept an
`original-oid OID` line between the mark and the authorship lines, and
the spec declares `original-oid` support required; but `_parse_commit`
in `src/fastimport/parser.py` has no `original-oid` handling, so the
line is pushed back and the committer lookup fails: parsing raises
`MissingSection(3, 'commit', 'committer')` instead of recording the
OID. -/
theorem parse_commit_original_oid_rejected :
    parseStream (bs "commit refs/heads/master\nmark :2\noriginal-oid 6193131b432739c1c6c9ac85614f7ce1e2a59854\ncommitter Joe Doe <joe@example.com> 1234567890 +0000\ndata 7\nTesting\n")
      = .fail [] (.missingSection 3 (bs "commit") (bs "committer")) := by
  decide

/-! ## C7: `read_until` termination (code bug) -/

/-- C7 (code bug).  When a line equal to terminator+LF occurs,
`read_until` returns the concatenation (including each LF) of the lines
before it.  But when no such line occurs, the loop never terminates:
`input.readline()` returns `b''` at EOF, which never equals
terminator+LF, so the loop appends empty strings forever — the
documented `MissingTerminator` error is never raised. -/
theorem readUntilGo_step (t1 : Bytes) (l : Bytes) (h : l ≠ []) :
    readUntilGo t1 l =
      (if (splitLine l).1 = t1 then some ([], (splitLine l).2)
       else
         match readUntilGo t1 (splitLine l).2 with
         | none => none
         | some (c, rest) => some ((splitLine l).1 ++ c, rest)) := by
  match l, h with
  | b :: r, _ =>
      rw [readUntilGo]

theorem read_until_behaviour :
    (∀ (lines : List Bytes) (term rest : Bytes) (st : PState),
      (∀ l ∈ lines, ¬ l.contains 10 ∧ l ≠ term) →
      ¬ term.contains 10 →
      st.input = (lines.map (fun l => l ++ [10])).flatten ++ (term ++ [10]) ++ rest →
      readUntil term st =
        .ok ((lines.map (fun l => l ++ [10])).flatten) { st with input := rest }) ∧
    readUntil (bs "EOF") (initState (bs "hello\n") 0) = .hang := by
  constructor
  · intro lines term rest st hlines hterm hinput
    have key : ∀ (ls : List Bytes), (∀ l ∈ ls, ¬ l.contains 10 ∧ l ≠ term) →
        readUntilGo (term ++ [10]) ((ls.map (fun l => l ++ [10])).flatten ++ (term ++ [10]) ++ rest) =
          some ((ls.map (fun l => l ++ [10])).flatten, rest) := by
      intro ls
      induction ls with
      | nil =>
          intro _
          simp only [List.map_nil, List.flatten_nil, List.nil_append]
          have hsplit : splitLine (term ++ [10] ++ rest) = (term ++ [10], rest) := by
            have := splitLine_app term rest hterm
            simpa using this
          rw [readUntilGo_step _ _ (by simp), hsplit]
          simp
      | cons l ls ih =>
          intro hall
          obtain ⟨hl10, hlne⟩ := hall l (List.mem_cons_self _ _)
          have ihh := ih (fun x hx => hall x (List.mem_cons_of_mem _ hx))
          have harr : (((l :: ls).map (fun x => x ++ [10])).flatten ++ (term ++ [10]) ++ rest) =
              l ++ 10 :: ((ls.map (fun x => x ++ [10])).flatten ++ (term ++ [10]) ++ rest) := by
            simp
          have hsplit : splitLine (l ++ 10 :: ((ls.map (fun x => x ++ [10])).flatten ++ (term ++ [10]) ++ rest)) =
              (l ++ [10], (ls.map (fun x => x ++ [10])).flatten ++ (term ++ [10]) ++ rest) :=
            splitLine_app _ _ hl10
          have hne2 : l ++ [10] ≠ term ++ [10] := by
            intro hcon
            exact hlne (by simpa using hcon)
          rw [harr, readUntilGo_step _ _ (by simp), hsplit]
          simp only [hne2, if_neg, if_false]
          rw [ihh]
          simp
    unfold readUntil
    rw [hinput, key lines hlines]
  · have h0 : readUntilGo (bs "EOF" ++ [10]) [] = none := by
      rw [readUntilGo]
    have h1 : readUntilGo (bs "EOF" ++ [10]) (bs "hello\n") = none := by
      rw [readUntilGo_step _ _ (by decide)]
      have hs : splitLine (bs "hello\n") = (bs "hello\n", []) := by decide
      rw [hs, if_neg (by decide), h0]
    unfold readUntil
    simp [initState, h1]

/-- Witness for C7 at the (disabled) unit test's data: reading until
`baz` over `foo\nbar\nbaz\nabc\n` returns `foo\nbar\n`. -/
theorem read_until_behaviour_witness :
    readUntil (bs "baz") (initState (bs "foo\nbar\nbaz\nabc\n") 0) =
      .ok (bs "foo\nbar\n")
        { initState (bs "foo\nbar\nbaz\nabc\n") 0 with input := bs "abc\n" } :=
  read_until_behaviour.1 [bs "foo", bs "bar"] (bs "baz") (bs "abc\n")
    (initState (bs "foo\nbar\nbaz\nabc\n") 0) (by decide) (by decide) (by decide)

/-! ## C6: `property` values longer than the line (corrected) -/

/-- C6 (amended).  For a `property NAME LEN VALUE` line whose LEN
exceeds the on-line bytes, `_name_value` reads LEN − len(online) raw
bytes but keeps only the first LEN − len(online) − 1 of them: the
parsed value is the on-line bytes, one LF, then those LEN − len(online)
− 1 bytes (the final byte read replaces the LF the line read consumed). -/
theorem name_value_long_value (k : Bytes) (n : Nat) (v1 raw : Bytes) (st : PState)
    (hk : ¬ k.contains 32) (hv : v1.length < n) (hraw : n - v1.length ≤ raw.length)
    (hinput : st.input = raw) :
    nameValue (k ++ [32] ++ natToBytes n ++ [32] ++ v1) st =
      .ok (k, some (v1 ++ 10 :: raw.take (n - v1.length - 1)))
        { st with input := raw.drop (n - v1.length),
                  lineno := st.lineno + countLF (raw.take (n - v1.length)) } := by
  have hstep : ∀ (m : Nat) (s : Bytes), splitByteN 32 (m + 1) s =
      (match splitFirst 32 s with
       | none => [s]
       | some (pre, post) => pre :: splitByteN 32 m post) := fun _ _ => rfl
  have hsplit : splitByteN 32 2 (k ++ [32] ++ natToBytes n ++ [32] ++ v1) =
      [k, natToBytes n, v1] := by
    have h1 : splitFirst 32 (k ++ 32 :: (natToBytes n ++ 32 :: v1)) =
        some (k, natToBytes n ++ 32 :: v1) := splitFirst_app 32 k _ hk
    have h2 : splitFirst 32 (natToBytes n ++ 32 :: v1) = some (natToBytes n, v1) :=
      splitFirst_app 32 (natToBytes n) v1 (notSpace_natToBytes n)
    have harr : k ++ [32] ++ natToBytes n ++ [32] ++ v1 =
        k ++ 32 :: (natToBytes n ++ 32 :: v1) := by simp
    rw [harr, hstep 1, h1]
    show k :: splitByteN 32 1 (natToBytes n ++ 32 :: v1) = [k, natToBytes n, v1]
    rw [hstep 0, h2]
    rfl
  unfold nameValue
  rw [hsplit]
  simp only [parsePyInt_natToBytes]
  have hstill : (n : Int) - v1.length > 0 := by
    have : (v1.length : Int) < n := by exact_mod_cast hv
    omega
  rw [if_pos hstill]
  have htn : ((n : Int) - v1.length).toNat = n - v1.length := by omega
  rw [htn]
  have hread : readBytes (n - v1.length) st =
      .ok (raw.take (n - v1.length))
        { st with input := raw.drop (n - v1.length),
                  lineno := st.lineno + countLF (raw.take (n - v1.length)) } := by
    unfold readBytes
    rw [hinput]
    have hlen : (raw.take (n - v1.length)).length = n - v1.length := by
      rw [List.length_take]
      omega
    rw [if_neg (by rw [hlen]; simp)]
  show (readBytes (n - v1.length) >>= fun rd =>
      pure (k, some (v1 ++ 10 :: rd.take ((n - v1.length) - 1)))) st = _
  rw [M_bind_apply, hread]
  have htt : (raw.take (n - v1.length)).take (n - v1.length - 1) = raw.take (n - v1.length - 1) := by
    rw [List.take_take]
    congr 1
    omega
  show Res.ok (k, some (v1 ++ 10 :: (raw.take (n - v1.length)).take (n - v1.length - 1))) _ = _
  rw [htt]

/-- Witness for C6 at the test suite's `property p3 16 alpha` line. -/
theorem name_value_long_value_witness :
    nameValue (bs "p3" ++ [32] ++ natToBytes 16 ++ [32] ++ bs "alpha")
        (initState (bs "beta\ngamma\nXY") 0) =
      .ok (bs "p3", some (bs "alpha" ++ 10 :: (bs "beta\ngamma\nXY").take (16 - (bs "alpha").length - 1)))
        { initState (bs "beta\ngamma\nXY") 0 with
            input := (bs "beta\ngamma\nXY").drop (16 - (bs "alpha").length),
            lineno := 0 + countLF ((bs "beta\ngamma\nXY").take (16 - (bs "alpha").length)) } :=
  name_value_long_value (bs "p3") 16 (bs "alpha") (bs "beta\ngamma\nXY")
    (initState (bs "beta\ngamma\nXY") 0) (by decide) (by decide) (by decide) (by decide)

/-- C6 counterexample at the repository's own test data
(`property p3 16 alpha` + raw `beta\ngamma\n...`): the claim's formula —
on-line bytes, LF, then all LEN − len(online) raw bytes — does not
equal the parsed value (it has one byte too many). -/
theorem name_value_claim_counterexample :
    nameValue (bs "p3 16 alpha") (initState (bs "beta\ngamma\nrest") 7) =
      .ok (bs "p3", some (bs "alpha\nbeta\ngamma"))
        { initState (bs "beta\ngamma\nrest") 7 with
            input := bs "rest", lineno := 2 } ∧
    bs "alpha\nbeta\ngamma" ≠
      bs "alpha" ++ [10] ++ (bs "beta\ngamma\nrest").take (16 - (bs "alpha").length) := by
  constructor
  · decide
  · decide

/-! ## C10: EOF after a bare `blob`/`commit` header -/

/-- C10.  A stream whose last bytes are a `blob` (or `commit REF`)
header line with nothing following makes the parser apply the
`mark :`-prefix test to the `None` end-of-stream marker: iteration
fails with an `AttributeError` — a type-kind error carrying no line
number — rather than yielding the command or raising any
parse-position error. -/
theorem parse_header_at_eof_attribute_error :
    parseStream (bs "blob\n") = .fail [] .attrNoneHasNoStartswith ∧
    parseStream (bs "commit refs/heads/master\n") = .fail [] .attrNoneHasNoStartswith ∧
    PyErr.linenoOf .attrNoneHasNoStartswith = none ∧
    PyErr.isParsePositionErr .attrNoneHasNoStartswith = false := by
  refine ⟨by decide, by decide, rfl, rfl⟩

/-! ## Serialization round-trip (well-formed commands re-parse) -/

/-! ## C1 development: well-formedness predicates -/

/-- No byte of `s` equals `x`. -/
def allNot (s : Bytes) (x : Nat) : Bool := s.all (fun b => ! (b == x))

theorem allNot_iff {s : Bytes} {x : Nat} : allNot s x = true ↔ ∀ b ∈ s, b ≠ x := by
  simp [allNot, List.all_eq_true]

/-- The last byte, if any, is not whitespace (`rstrip`-stable). -/
def lastNotWSb (s : Bytes) : Bool :=
  match s.reverse with
  | [] => true
  | c :: _ => ! isWS c

/-- An authorship whose `format_who_when` rendering parses back to
itself: no LF anywhere, no `<` in the name, the name not ending in
whitespace, and a whole-minute timezone. -/
def WFauth (a : Authorship) : Bool :=
  allNot a.name 10 && allNot a.name 60 && lastNotWSb a.name &&
  allNot a.email 10 && (a.timezone % 60 == 0)

/-- A data section that keeps the stream's line structure intact. -/
def WFdata (d : Bytes) : Bool := ! d.isEmpty && ! bends d [10]

/-- A path printed verbatim by `format_path` and accepted by
`check_path`. -/
def WFpath (p : Bytes) : Bool :=
  allNot p 10 && ! p.isEmpty && ! bstarts p (bs "/") && ! (p.head? == some 34)

/-- Additionally safe on the two-path (`R`/`C`) lines: no spaces, no
backslashes, no closing quote. -/
def WFpath2 (p : Bytes) : Bool :=
  WFpath p && allNot p 32 && allNot p 92 && ! bends p [34]

def WFfile : FileCommand → Bool
  | .modify m =>
      WFpath m.path &&
      (if S_ISDIR m.mode then
        (m.mode == 0o40000) && (m.dataref == some (bs "-")) && (m.data == none)
       else
        (m.mode == 0o100644 || m.mode == 0o100755 ||
         m.mode == 0o120000 || m.mode == 0o160000) &&
        (match m.dataref, m.data with
         | some r, none => allNot r 10 && allNot r 32 && ! (r == bs "inline")
         | none, some d => WFdata d
         | _, _ => false))
  | .delete p => WFpath p
  | .rename o n => WFpath2 o && WFpath2 n
  | .copy s d => WFpath2 s && WFpath2 d
  | .deleteall => true
  | .notemodify _ => false

/-- A commit mark that round-trips (the parser always produces the
bytes form). -/
def WFmark : Option MarkVal → Bool
  | none => true
  | some (.bytes m) => allNot m 10
  | some (.int _) => false

def WFprop (p : Bytes × Option Bytes) : Bool :=
  allNot p.1 10 && allNot p.1 32 &&
  (match p.2 with | none => true | some v => allNot v 10)

/-- Property keys pairwise strictly increasing (Python's `sorted` is
then the identity and the parsed dict lists them in the same order). -/
def propsPairwiseB : List (Bytes × Option Bytes) → Bool
  | [] => true
  | p :: rest => rest.all (fun q => bytesLt p.1 q.1) && propsPairwiseB rest

def WFcommit (c : CommitCommand) : Bool :=
  allNot c.ref 10 &&
  WFmark c.mark &&
  (match c.author with
   | none => c.more_authors == some []
   | some a => WFauth a &&
       (match c.more_authors with
        | some l => l.all WFauth
        | none => false)) &&
  WFauth c.committer &&
  (match c.message with | some m => WFdata m | none => false) &&
  (match c.from_ with | none => true | some f => allNot f 10) &&
  (match c.merges with
   | some ms => ms.all (fun m => allNot m 10 && allNot m 32)
   | none => false) &&
  (match c.properties with
   | some ps => ps.all WFprop && propsPairwiseB ps
   | none => false) &&
  (match c.file_iter with
   | some ops => ops.all WFfile
   | none => false)

/-- The command values whose serialization parses back to the same
value (up to the recorded line number). -/
def WFcmd : ImportCommand → Bool
  | .blob b =>
      (match b.mark with | none => true | some m => allNot m 10) && WFdata b.data
  | .checkpoint => true
  | .commit c => WFcommit c
  | .feature f =>
      allNot f.feature_name 10 && allNot f.feature_name 61 &&
      ! (f.feature_name == bs "done") &&
      (match f.value with
       | none => true
       | some v => allNot v 10 && ! (v.head? == some 34))
  | .progress m => allNot m 10
  | .reset r =>
      allNot r.ref 10 && (match r.from_ with | none => true | some f => allNot f 10)
  | .tag t =>
      allNot t.id 10 &&
      (match t.from_ with | some f => allNot f 10 | none => false) &&
      (match t.tagger with | some a => WFauth a | none => false) &&
      (match t.message with | some m => WFdata m | none => false)

/-- Adjust the line-position fields to where a parse records them. -/
def setPos (c : ImportCommand) (n : Int) : ImportCommand :=
  match c with
  | .blob b => .blob { b with lineno := n }
  | .commit cc => .commit { cc with lineno := n }
  | .feature f => .feature { f with lineno := n }
  | other => other

/-! ## Line reading machinery -/

theorem splitLine_noLF (l : Bytes) (rest : Bytes) (h : ∀ b ∈ l, b ≠ 10) :
    splitLine (l ++ 10 :: rest) = (l ++ [10], rest) := by
  induction l with
  | nil => simp [splitLine]
  | cons c r ih =>
      have hc : c ≠ 10 := h c (List.mem_cons_self c r)
      have ihr := ih (fun b hb => h b (List.mem_cons_of_mem c hb))
      simp only [List.cons_append, splitLine, if_neg hc]
      rw [show r.append (10 :: rest) = r ++ 10 :: rest from rfl, ihr]

/-- The pushed-back state `push_line` produces. -/
def pushSt (l : Bytes) (st : PState) : PState :=
  { st with buf := (l ++ [10]) :: st.buf, lineno := st.lineno - 1 }

theorem pushLine_eq (l : Bytes) (st : PState) : pushLine l st = .ok () (pushSt l st) := rfl

theorem nextLine_raw (st : PState) (l rest : Bytes)
    (hb : st.buf = []) (hi : st.input = l ++ 10 :: rest) (hl : ∀ b ∈ l, b ≠ 10) :
    nextLine st = .ok (some l)
      { st with input := rest, lineno := st.lineno + 1 } := by
  have hrl : readline st = .ok (l ++ [10]) { st with input := rest, lineno := st.lineno + 1 } := by
    have h1 : readline st = (match st.buf with
        | l2 :: rest2 => Res.ok l2 { st with buf := rest2, lineno := st.lineno + 1 }
        | [] => Res.ok (splitLine st.input).1
            { st with input := (splitLine st.input).2, lineno := st.lineno + 1 }) := rfl
    rw [h1, hb]
    simp only []
    rw [hi, splitLine_noLF l rest hl]
  have h2 : nextLine st = (readline >>= fun l2 =>
      if l2 = [] then (pure none : M (Option Bytes))
      else pure (some l2.dropLast)) st := rfl
  rw [h2, M_bind_apply, hrl]
  simp only []
  have hne : l ++ [10] ≠ [] := by simp
  rw [if_neg hne, M_pure_apply, List.dropLast_concat]

theorem nextLine_eof (st : PState) (hb : st.buf = []) (hi : st.input = []) :
    nextLine st = .ok none { st with lineno := st.lineno + 1 } := by
  have hrl : readline st = .ok [] { st with lineno := st.lineno + 1 } := by
    have h1 : readline st = (match st.buf with
        | l2 :: rest2 => Res.ok l2 { st with buf := rest2, lineno := st.lineno + 1 }
        | [] => Res.ok (splitLine st.input).1
            { st with input := (splitLine st.input).2, lineno := st.lineno + 1 }) := rfl
    rw [h1, hb]
    simp only []
    rw [hi]
    rfl
  have h2 : nextLine st = (readline >>= fun l2 =>
      if l2 = [] then (pure none : M (Option Bytes))
      else pure (some l2.dropLast)) st := rfl
  rw [h2, M_bind_apply, hrl]
  rfl

theorem nextLine_push (l : Bytes) (st : PState) :
    nextLine (pushSt l st) = .ok (some l) st := by
  have hrl : readline (pushSt l st) = .ok (l ++ [10])
      { st with lineno := st.lineno - 1 + 1 } := rfl
  have h2 : nextLine (pushSt l st) = (readline >>= fun l2 =>
      if l2 = [] then (pure none : M (Option Bytes))
      else pure (some l2.dropLast)) (pushSt l st) := rfl
  rw [h2, M_bind_apply, hrl]
  simp only []
  have hne : l ++ [10] ≠ [] := by simp
  rw [if_neg hne, M_pure_apply, List.dropLast_concat]
  have hln : st.lineno - 1 + 1 = st.lineno := by omega
  rw [hln]

/-! ## Numeric rendering facts -/

theorem isWS_false_of_digit {b : Nat} (h1 : 48 ≤ b) (h2 : b ≤ 57) : isWS b = false := by
  simp only [isWS, Bool.or_eq_false_iff, beq_eq_false_iff_ne, ne_eq]
  refine ⟨⟨⟨⟨⟨?_, ?_⟩, ?_⟩, ?_⟩, ?_⟩, ?_⟩ <;> omega

theorem pyStrip_eq_self (s : Bytes) (h : ∀ b ∈ s, isWS b = false) :
    ((s.dropWhile isWS).reverse.dropWhile isWS).reverse = s := by
  rw [dropWhile_eq_self_of_all_false h,
    dropWhile_eq_self_of_all_false (fun b hb => h b (List.mem_reverse.mp hb)),
    List.reverse_reverse]

theorem intToBytes_mem (i : Int) : ∀ b ∈ intToBytes i, b = 45 ∨ (48 ≤ b ∧ b ≤ 57) := by
  intro b hb
  unfold intToBytes at hb
  by_cases h : i < 0
  · rw [if_pos h] at hb
    rcases List.mem_cons.mp hb with h2 | h2
    · exact Or.inl h2
    · exact Or.inr (natToBytes_digits _ b h2)
  · rw [if_neg h] at hb
    exact Or.inr (natToBytes_digits _ b hb)

theorem intToBytes_ne_nil (i : Int) : intToBytes i ≠ [] := by
  unfold intToBytes
  by_cases h : i < 0
  · simp [h]
  · simp [h, natToBytes_ne_nil]

theorem parsePyInt_intToBytes (i : Int) : parsePyInt (intToBytes i) = some i := by
  unfold intToBytes
  by_cases h : i < 0
  · rw [if_pos h]
    unfold parsePyInt
    have hnws : ∀ b ∈ 45 :: natToBytes i.natAbs, isWS b = false := by
      intro b hb
      rcases List.mem_cons.mp hb with h2 | h2
      · subst h2; rfl
      · obtain ⟨d1, d2⟩ := natToBytes_digits _ b h2
        exact isWS_false_of_digit d1 d2
    rw [show ((((45 :: natToBytes i.natAbs).dropWhile isWS).reverse.dropWhile
          isWS).reverse) = 45 :: natToBytes i.natAbs from pyStrip_eq_self _ hnws]
    simp only [ite_true]
    rw [parseNat_natToBytes]
    simp
    rw [abs_of_neg h, neg_neg]
  · rw [if_neg h]
    rw [parsePyInt_natToBytes]
    congr 1
    omega

theorem pad2_digits (n : Nat) : ∀ b ∈ pad2 n, 48 ≤ b ∧ b ≤ 57 := by
  intro b hb
  unfold pad2 at hb
  by_cases h : n < 10
  · rw [if_pos h] at hb
    rcases List.mem_cons.mp hb with h2 | h2
    · omega
    · simp at h2
      omega
  · rw [if_neg h] at hb
    exact natToBytes_digits n b hb

theorem digits_len_two {n : Nat} (h1 : 10 ≤ n) (h2 : n < 100) :
    (natToBytes n).length = 2 := by
  rw [natToBytes_eq_digits, if_neg (by omega)]
  simp only [List.length_reverse, List.length_map]
  rw [Nat.digits_len 10 n (by norm_num) (by omega)]
  have : Nat.log 10 n = 1 := by
    rw [Nat.log_eq_of_pow_le_of_lt_pow] <;> simpa using by omega
  omega

theorem pad2_length {n : Nat} (h : n < 100) : (pad2 n).length = 2 := by
  unfold pad2
  by_cases h10 : n < 10
  · rw [if_pos h10]; rfl
  · rw [if_neg h10]
    exact digits_len_two (by omega) h

theorem parseNat_pad2 (n : Nat) : parseNat (pad2 n) = some n := by
  unfold pad2
  by_cases h : n < 10
  · rw [if_pos h]
    have hdig : ([48, n + 48] : Bytes).all isDigit = true := by
      simp [isDigit]
      omega
    simp [parseNat, hdig, digitsVal]
  · rw [if_neg h]
    exact parseNat_natToBytes n

theorem parsePyInt_digitsOnly (s : Bytes) (hne : s ≠ [])
    (hd : ∀ b ∈ s, 48 ≤ b ∧ b ≤ 57) (hp : parseNat s = some n) :
    parsePyInt s = some (n : Int) := by
  unfold parsePyInt
  have hnws : ∀ b ∈ s, isWS b = false := fun b hb =>
    isWS_false_of_digit (hd b hb).1 (hd b hb).2
  rw [show (((s.dropWhile isWS).reverse.dropWhile isWS).reverse) = s from
    pyStrip_eq_self _ hnws]
  match s, hne with
  | c :: r, _ =>
      have hc := hd c (List.mem_cons_self c r)
      have hc45 : ¬ c = 45 := by omega
      have hc43 : ¬ c = 43 := by omega
      simp [if_neg hc45, if_neg hc43, hp]

theorem parsePyInt_pad2 (x : Nat) : parsePyInt (pad2 x) = some (x : Int) := by
  refine parsePyInt_digitsOnly (pad2 x) ?_ (pad2_digits x) (parseNat_pad2 x)
  unfold pad2
  by_cases h : x < 10
  · simp [h]
  · simp [h, natToBytes_ne_nil]

theorem parse_tz_format (tz : Int) (h : tz % 60 = 0) :
    parse_tz ((if tz < 0 then [45] else [43]) ++
        pad2 (tz.natAbs / 3600) ++
        pad2 (tz.natAbs / 60 - tz.natAbs / 3600 * 60)) = some tz := by
  have hm : tz.natAbs / 60 - tz.natAbs / 3600 * 60 < 100 := by omega
  set sgn : Bytes := if tz < 0 then [45] else [43] with hsgn
  set p2h := pad2 (tz.natAbs / 3600) with hp2h
  set p2m := pad2 (tz.natAbs / 60 - tz.natAbs / 3600 * 60) with hp2m
  have hsgn1 : sgn.length = 1 := by
    rw [hsgn]
    by_cases h0 : tz < 0 <;> simp [h0]
  have hlm : p2m.length = 2 := pad2_length hm
  unfold parse_tz
  have htake : (sgn ++ p2h ++ p2m).take 1 = sgn := by
    rw [List.append_assoc, ← hsgn1, List.take_left]
  rw [htake]
  have hcond : ¬ (sgn ≠ [43] ∧ sgn ≠ [45]) := by
    rw [hsgn]
    by_cases h0 : tz < 0 <;> simp [h0]
  rw [if_neg hcond]
  have hdrop1 : (sgn ++ p2h ++ p2m).drop 1 = p2h ++ p2m := by
    rw [List.append_assoc, ← hsgn1, List.drop_left]
  have hlen : (sgn ++ p2h ++ p2m).length = 1 + p2h.length + 2 := by
    simp [hsgn1, hlm]
    try omega
  have htakeh : ((sgn ++ p2h ++ p2m).drop 1).take ((sgn ++ p2h ++ p2m).length - 3) = p2h := by
    rw [hdrop1, hlen, show 1 + p2h.length + 2 - 3 = p2h.length from by omega, List.take_left]
  have hdropm : (sgn ++ p2h ++ p2m).drop ((sgn ++ p2h ++ p2m).length - 2) = p2m := by
    rw [hlen, show 1 + p2h.length + 2 - 2 = (sgn ++ p2h).length from by
      simp [hsgn1]
      try omega]
    rw [List.drop_left]
  rw [htakeh, hdropm, hp2h, hp2m, parsePyInt_pad2, parsePyInt_pad2]
  simp only []
  congr 1
  rw [hsgn]
  by_cases h0 : tz < 0
  · rw [if_pos h0, if_pos rfl]
    omega
  · rw [if_neg h0, if_neg (show ¬ ([43] : Bytes) = [45] from by simp)]
    omega

/-! ## Splitting and regex lemmas -/

theorem splitFirst_exact (sep : Nat) (pre post : Bytes) (h : ∀ b ∈ pre, b ≠ sep) :
    splitFirst sep (pre ++ sep :: post) = some (pre, post) := by
  induction pre with
  | nil => simp [splitFirst]
  | cons c r ih =>
      have hc : c ≠ sep := h c (List.mem_cons_self c r)
      have ihr := ih (fun b hb => h b (List.mem_cons_of_mem c hb))
      simp only [List.cons_append, splitFirst, if_neg hc]
      rw [show r.append (sep :: post) = r ++ sep :: post from rfl, ihr]
      rfl

theorem splitFirst_none_of_all (sep : Nat) (x : Bytes) (h : ∀ b ∈ x, b ≠ sep) :
    splitFirst sep x = none := by
  induction x with
  | nil => rfl
  | cons c r ih =>
      have hc : c ≠ sep := h c (List.mem_cons_self c r)
      have ihr := ih (fun b hb => h b (List.mem_cons_of_mem c hb))
      simp [splitFirst, hc, ihr]

theorem splitAllByte_nosep (sep : Nat) (x : Bytes) (h : ∀ b ∈ x, b ≠ sep) :
    splitAllByte sep x = [x] := by
  induction x with
  | nil => rfl
  | cons c r ih =>
      have hc : c ≠ sep := h c (List.mem_cons_self c r)
      have ihr := ih (fun b hb => h b (List.mem_cons_of_mem c hb))
      simp [splitAllByte, hc, ihr]

theorem splitAllByte_pair (x y : Bytes) (hx : ∀ b ∈ x, b ≠ 32) (hy : ∀ b ∈ y, b ≠ 32) :
    splitAllByte 32 (x ++ 32 :: y) = [x, y] := by
  induction x with
  | nil => simp [splitAllByte, splitAllByte_nosep 32 y hy]
  | cons c r ih =>
      have hc : c ≠ 32 := hx c (List.mem_cons_self c r)
      have ihr := ih (fun b hb => hx b (List.mem_cons_of_mem c hb))
      simp [splitAllByte, hc, ihr]

theorem splitByteN_one (sep : Nat) (n : Nat) (x : Bytes) (h : ∀ b ∈ x, b ≠ sep) :
    splitByteN sep n x = [x] := by
  cases n with
  | zero => rfl
  | succ n => simp [splitByteN, splitFirst_none_of_all sep x h]

theorem splitByteN_two (x y : Bytes) (hx : ∀ b ∈ x, b ≠ 61) :
    splitByteN 61 1 (x ++ 61 :: y) = [x, y] := by
  simp [splitByteN, splitFirst_exact 61 x y hx]

theorem splitByteN_three (x y z : Bytes) (hx : ∀ b ∈ x, b ≠ 32) (hy : ∀ b ∈ y, b ≠ 32) :
    splitByteN 32 2 (x ++ 32 :: (y ++ 32 :: z)) = [x, y, z] := by
  simp [splitByteN, splitFirst_exact 32 x _ hx, splitFirst_exact 32 y z hy]

theorem lastGtSpSplit_none (l : Bytes) (h : ∀ b ∈ l, b ≠ 62) : lastGtSpSplit l = none := by
  induction l with
  | nil => rfl
  | cons c r ih =>
      have hc : c ≠ 62 := h c (List.mem_cons_self c r)
      have ihr := ih (fun b hb => h b (List.mem_cons_of_mem c hb))
      rw [lastGtSpSplit, ihr]
      intro rest h1 _
      exact absurd h1 hc

theorem lastGtSpSplit_cons_some (c : Nat) (l : Bytes) (p : Bytes × Bytes)
    (h : lastGtSpSplit l = some p) :
    lastGtSpSplit (c :: l) = some (c :: p.1, p.2) := by
  by_cases hc : c = 62
  · subst hc
    rcases l with _ | ⟨l0, lr⟩
    · exact absurd h (by simp [lastGtSpSplit])
    · by_cases h0 : l0 = 32
      · subst h0
        rw [lastGtSpSplit, h]
      · rw [lastGtSpSplit, h]
        intro rest _ h2
        injection h2 with h3 _
        exact h0 h3
  · rw [lastGtSpSplit, h]
    intro rest h1 _
    exact absurd h1 hc

theorem lastGtSpSplit_boundary (email d : Bytes) (hd : lastGtSpSplit d = none)
    (hne : d ≠ []) :
    lastGtSpSplit (email ++ 62 :: 32 :: d) = some (email, d) := by
  have h32 : lastGtSpSplit (32 :: d) = none := by
    rw [lastGtSpSplit, hd]
    intro rest h1 _
    omega
  induction email with
  | nil =>
      show lastGtSpSplit (62 :: 32 :: d) = some ([], d)
      rw [lastGtSpSplit, h32]
      simp only []
      rw [if_neg hne]
  | cons c r ih =>
      show lastGtSpSplit (c :: (r ++ 62 :: 32 :: d)) = some (c :: r, d)
      exact lastGtSpSplit_cons_some c _ (r, d) ih

theorem whoWhenSearch_parts (pre email d : Bytes) (hpre : ∀ b ∈ pre, b ≠ 60)
    (hd : ∀ b ∈ d, b ≠ 62) (hne : d ≠ []) :
    whoWhenSearch (pre ++ 60 :: (email ++ 62 :: 32 :: d)) = some (pre, email, d) := by
  unfold whoWhenSearch
  simp only [whoWhenSearchGo, splitFirst_exact 60 pre _ hpre,
    lastGtSpSplit_boundary email d (lastGtSpSplit_none d hd) hne]

theorem dropWhile_cons_false {p : Nat → Bool} {c : Nat} {r : Bytes} (h : p c = false) :
    (c :: r).dropWhile p = c :: r := by
  simp [List.dropWhile_cons, h]

theorem rstripWS_name (n : Bytes) (h : lastNotWSb n = true) : rstripWS (n ++ [32]) = n := by
  unfold rstripWS
  rw [List.reverse_append]
  rw [show ([32] : Bytes).reverse ++ n.reverse = 32 :: n.reverse from by simp]
  rw [List.dropWhile_cons]
  rw [show isWS 32 = true from rfl]
  simp only [if_true]
  cases hn : n.reverse with
  | nil =>
      have : n = [] := by simpa using congrArg List.reverse hn
      simp [this]
  | cons c cr =>
      have hc : isWS c = false := by
        unfold lastNotWSb at h
        rw [hn] at h
        simpa using h
      rw [dropWhile_cons_false hc, ← hn, List.reverse_reverse]

theorem bends32_false (n : Bytes) (h : lastNotWSb n = true) : bends n [32] = false := by
  unfold bends
  cases hn : n.reverse with
  | nil =>
      have : n = [] := by simpa using congrArg List.reverse hn
      subst this
      rfl
  | cons c cr =>
      have hc : isWS c = false := by
        unfold lastNotWSb at h
        rw [hn] at h
        simpa using h
      have hc32 : c ≠ 32 := by
        intro hcon
        rw [hcon] at hc
        exact absurd hc (by simp [isWS])
      show List.isSuffixOf [32] n = false
      rw [List.isSuffixOf]
      show List.isPrefixOf [32] n.reverse = false
      rw [hn]
      simp [List.isPrefixOf, Ne.symm hc32]

/-! ## The who-when round trip -/

/-- The timezone bytes `format_who_when` emits. -/
def tzBytes (tz : Int) : Bytes :=
  (if tz < 0 then [45] else [43]) ++
    pad2 (tz.natAbs / 3600) ++ pad2 (tz.natAbs / 60 - tz.natAbs / 3600 * 60)

/-- The date bytes (timestamp, space, timezone). -/
def dateBytes (a : Authorship) : Bytes := intToBytes a.timestamp ++ 32 :: tzBytes a.timezone

theorem format_who_when_eq (a : Authorship) :
    format_who_when a =
      (a.name ++ (if a.name = [] then [] else [32])) ++ 60 ::
        (a.email ++ 62 :: 32 :: dateBytes a) := by
  simp only [format_who_when, dateBytes, tzBytes]
  simp [List.append_assoc]

theorem tzBytes_mem (tz : Int) : ∀ b ∈ tzBytes tz, b = 43 ∨ b = 45 ∨ (48 ≤ b ∧ b ≤ 57) := by
  intro b hb
  unfold tzBytes at hb
  rcases List.mem_append.mp hb with hb | hb
  · rcases List.mem_append.mp hb with hb | hb
    · by_cases h0 : tz < 0
      · rw [if_pos h0] at hb; simp at hb; omega
      · rw [if_neg h0] at hb; simp at hb; omega
    · exact Or.inr (Or.inr (pad2_digits _ b hb))
  · exact Or.inr (Or.inr (pad2_digits _ b hb))

theorem dateBytes_no62 (a : Authorship) : ∀ b ∈ dateBytes a, b ≠ 62 := by
  intro b hb
  unfold dateBytes at hb
  rcases List.mem_append.mp hb with hb | hb
  · rcases intToBytes_mem _ b hb with h | h <;> omega
  · rcases List.mem_cons.mp hb with hb | hb
    · omega
    · rcases tzBytes_mem _ b hb with h | h | h <;> omega

theorem dateBytes_ne_nil (a : Authorship) : dateBytes a ≠ [] := by
  unfold dateBytes
  rcases hcr : intToBytes a.timestamp with _ | ⟨c, cr⟩
  · exact absurd hcr (intToBytes_ne_nil _)
  · simp

theorem dateBytes_dropWS (a : Authorship) : (dateBytes a).dropWhile isWS = dateBytes a := by
  unfold dateBytes
  rcases hcr : intToBytes a.timestamp with _ | ⟨c, cr⟩
  · exact absurd hcr (intToBytes_ne_nil _)
  · have hc : isWS c = false := by
      have := intToBytes_mem a.timestamp c (by rw [hcr]; exact List.mem_cons_self c cr)
      rcases this with h | h
      · rw [h]; rfl
      · exact isWS_false_of_digit h.1 h.2
    simp only [List.cons_append]
    exact dropWhile_cons_false hc

theorem dateBytes_detect (a : Authorship) :
    (splitAllByte 32 ((dateBytes a).dropWhile isWS)).length = 2 := by
  rw [dateBytes_dropWS]
  unfold dateBytes
  rw [splitAllByte_pair]
  · rfl
  · intro b hb
    rcases intToBytes_mem _ b hb with h | h <;> omega
  · intro b hb
    rcases tzBytes_mem _ b hb with h | h | h <;> omega

theorem parse_raw_dateBytes (a : Authorship) (h : a.timezone % 60 = 0) (lineno : Int) :
    parse_raw ((dateBytes a).dropWhile isWS) lineno = .ok (a.timestamp, a.timezone) := by
  rw [dateBytes_dropWS]
  unfold parse_raw dateBytes
  rw [splitFirst_exact 32 _ _ (by
    intro b hb
    rcases intToBytes_mem _ b hb with hx | hx <;> omega)]
  simp only []
  rw [show parsePyFloat (intToBytes a.timestamp) = some a.timestamp from
    parsePyInt_intToBytes a.timestamp]
  simp only []
  rw [show tzBytes a.timezone = (if a.timezone < 0 then [45] else [43]) ++
      pad2 (a.timezone.natAbs / 3600) ++
      pad2 (a.timezone.natAbs / 60 - a.timezone.natAbs / 3600 * 60) from rfl]
  rw [parse_tz_format a.timezone h]

theorem whoWhen_format (a : Authorship) (cmd sect : Bytes) (ajw : Bool) (st : PState)
    (hwf : WFauth a = true) (hdf : st.dateFmt = none ∨ st.dateFmt = some DateFmt.raw) :
    whoWhen (format_who_when a) cmd sect ajw st =
      .ok a { st with dateFmt := some DateFmt.raw } := by
  have hcomp : allNot a.name 10 = true ∧ allNot a.name 60 = true ∧
      lastNotWSb a.name = true ∧ allNot a.email 10 = true ∧
      (a.timezone % 60 == 0) = true := by
    simpa [WFauth, Bool.and_eq_true, and_assoc] using hwf
  obtain ⟨h1, h2, h3, h4, h5⟩ := hcomp
  have htz : a.timezone % 60 = 0 := by simpa using h5
  have hpre : ∀ b ∈ a.name ++ (if a.name = [] then [] else [32]), b ≠ 60 := by
    intro b hb
    rcases List.mem_append.mp hb with hb | hb
    · exact allNot_iff.mp h2 b hb
    · by_cases h0 : a.name = []
      · rw [if_pos h0] at hb; simp at hb
      · rw [if_neg h0] at hb; simp at hb; omega
  have hsearch : whoWhenSearch (format_who_when a) =
      some (a.name ++ (if a.name = [] then [] else [32]), a.email, dateBytes a) := by
    rw [format_who_when_eq]
    exact whoWhenSearch_parts _ _ _ hpre (dateBytes_no62 a) (dateBytes_ne_nil a)
  have hname : (if (rstripWS (a.name ++ if a.name = [] then [] else [32])).length > 0 ∧
      bends (rstripWS (a.name ++ if a.name = [] then [] else [32])) [32] = true then
      (rstripWS (a.name ++ if a.name = [] then [] else [32])).dropLast
    else rstripWS (a.name ++ if a.name = [] then [] else [32])) = a.name := by
    by_cases h0 : a.name = []
    · rw [h0]
      simp [rstripWS]
    · rw [if_neg h0, rstripWS_name a.name h3, if_neg]
      rintro ⟨_, hb⟩
      rw [bends32_false a.name h3] at hb
      exact Bool.false_ne_true hb
  unfold whoWhen
  rw [hsearch]
  simp only []
  rcases hdf with hdf | hdf
  · simp only [M_bind_apply, getPS, setDateFmt, M_pure_apply, hdf, dateBytes_detect a,
      runDateParse, parse_raw_dateBytes a htz, ite_true]
    rw [hname]
  · have hst : { st with dateFmt := some DateFmt.raw } = st := by
      cases st
      simp_all
    simp only [M_bind_apply, getPS, M_pure_apply, hdf, runDateParse,
      parse_raw_dateBytes a htz]
    rw [hname, hst]

/-! ## Prefix and drop utilities -/

theorem bstarts_append_self (p s : Bytes) : bstarts (p ++ s) p = true := by
  simp [bstarts, List.isPrefixOf_iff_prefix]

theorem bstarts_cons_ne {c d : Nat} (x y : Bytes) (h : ¬ d = c) :
    bstarts (c :: x) (d :: y) = false := by
  simp [bstarts, List.isPrefixOf, h]

theorem unquoteCGo_id (s : Bytes) (h : ∀ b ∈ s, b ≠ 92) :
    ∀ fuel, s.length ≤ fuel → unquoteCGo fuel s = .ok s := by
  induction s with
  | nil =>
      intro fuel _
      cases fuel <;> rfl
  | cons c r ih =>
      intro fuel hf
      cases fuel with
      | zero => simp at hf
      | succ f =>
          have hc : ¬ c = 92 := h c (List.mem_cons_self c r)
          have ihr := ih (fun b hb => h b (List.mem_cons_of_mem c hb)) f
            (by simp at hf; omega)
          simp [unquoteCGo, hc, ihr]

theorem unquoteC_id (s : Bytes) (h : ∀ b ∈ s, b ≠ 92) : unquoteC s = .ok s :=
  unquoteCGo_id s h (s.length + 1) (by omega)

theorem natToBytes_no_ltlt (n : Nat) : bstarts (natToBytes n) (bs "<<") = false := by
  rcases hc : natToBytes n with _ | ⟨c, t⟩
  · exact absurd hc (natToBytes_ne_nil n)
  · have hd : 48 ≤ c ∧ c ≤ 57 :=
      natToBytes_digits n c (by rw [hc]; exact List.mem_cons_self c t)
    rw [show bs "<<" = (60 : Nat) :: [60] from rfl]
    exact bstarts_cons_ne _ _ (by omega)

/-! ## Section lemmas (mark, from, merge, property, user info, data) -/

theorem getMarkIfAny_present (st st1 : PState) (m : Bytes)
    (h : nextLine st = .ok (some (bs "mark :" ++ m)) st1) :
    getMarkIfAny st = .ok (some m) st1 := by
  have h2 : getMarkIfAny st = (nextLine >>= fun o =>
      match o with
      | none => throwErr .attrNoneHasNoStartswith
      | some line =>
          if bstarts line (bs "mark :") then pure (some (line.drop 6))
          else do
            pushLine line
            pure none) st := rfl
  rw [h2, M_bind_apply, h]
  simp only []
  rw [if_pos (bstarts_append_self (bs "mark :") m)]
  rw [M_pure_apply, show (6 : Nat) = (bs "mark :").length from rfl, List.drop_left]

theorem getMarkIfAny_absent (st st1 : PState) (l : Bytes)
    (h : nextLine st = .ok (some l) st1) (hm : bstarts l (bs "mark :") = false) :
    getMarkIfAny st = .ok none (pushSt l st1) := by
  have h2 : getMarkIfAny st = (nextLine >>= fun o =>
      match o with
      | none => throwErr .attrNoneHasNoStartswith
      | some line =>
          if bstarts line (bs "mark :") then pure (some (line.drop 6))
          else do
            pushLine line
            pure none) st := rfl
  rw [h2, M_bind_apply, h]
  simp only []
  rw [if_neg (by rw [hm]; exact Bool.false_ne_true)]
  rw [M_bind_apply, pushLine_eq]
  simp only []
  rw [M_pure_apply]

theorem getFrom_present (req : Option Bytes) (st st1 : PState) (f : Bytes)
    (h : nextLine st = .ok (some (bs "from " ++ f)) st1) :
    getFrom req st = .ok (some f) st1 := by
  have h2 : getFrom req st = (nextLine >>= fun o =>
      match o with
      | none => pure none
      | some line =>
          if bstarts line (bs "from ") then pure (some (line.drop 5))
          else
            match req with
            | some cmd => do
                let st ← getPS
                throwErr (.missingSection st.lineno cmd (bs "from"))
            | none => do
                pushLine line
                pure none) st := rfl
  rw [h2, M_bind_apply, h]
  simp only []
  rw [if_pos (bstarts_append_self (bs "from ") f)]
  rw [M_pure_apply, show (5 : Nat) = (bs "from ").length from rfl, List.drop_left]

theorem getFrom_absent (st st1 : PState) (l : Bytes)
    (h : nextLine st = .ok (some l) st1) (hm : bstarts l (bs "from ") = false) :
    getFrom none st = .ok none (pushSt l st1) := by
  have h2 : getFrom none st = (nextLine >>= fun o =>
      match o with
      | none => pure none
      | some line =>
          if bstarts line (bs "from ") then pure (some (line.drop 5))
          else do
            pushLine line
            pure none) st := rfl
  rw [h2, M_bind_apply, h]
  simp only []
  rw [if_neg (by rw [hm]; exact Bool.false_ne_true)]
  rw [M_bind_apply, pushLine_eq]
  simp only []
  rw [M_pure_apply]

theorem getFrom_eof (st st1 : PState)
    (h : nextLine st = .ok none st1) :
    getFrom none st = .ok none st1 := by
  have h2 : getFrom none st = (nextLine >>= fun o =>
      match o with
      | none => pure none
      | some line =>
          if bstarts line (bs "from ") then pure (some (line.drop 5))
          else do
            pushLine line
            pure none) st := rfl
  rw [h2, M_bind_apply, h]
  rfl

theorem getMerge_present (st st1 : PState) (m : Bytes)
    (h : nextLine st = .ok (some (bs "merge " ++ m)) st1) :
    getMerge st = .ok (some m) st1 := by
  have h2 : getMerge st = (nextLine >>= fun o =>
      match o with
      | none => pure none
      | some line =>
          if bstarts line (bs "merge ") then pure (some (line.drop 6))
          else do
            pushLine line
            pure none) st := rfl
  rw [h2, M_bind_apply, h]
  simp only []
  rw [if_pos (bstarts_append_self (bs "merge ") m)]
  rw [M_pure_apply, show (6 : Nat) = (bs "merge ").length from rfl, List.drop_left]

theorem getMerge_absent (st st1 : PState) (l : Bytes)
    (h : nextLine st = .ok (some l) st1) (hm : bstarts l (bs "merge ") = false) :
    getMerge st = .ok none (pushSt l st1) := by
  have h2 : getMerge st = (nextLine >>= fun o =>
      match o with
      | none => pure none
      | some line =>
          if bstarts line (bs "merge ") then pure (some (line.drop 6))
          else do
            pushLine line
            pure none) st := rfl
  rw [h2, M_bind_apply, h]
  simp only []
  rw [if_neg (by rw [hm]; exact Bool.false_ne_true)]
  rw [M_bind_apply, pushLine_eq]
  simp only []
  rw [M_pure_apply]

theorem getMerge_eof (st st1 : PState)
    (h : nextLine st = .ok none st1) :
    getMerge st = .ok none st1 := by
  have h2 : getMerge st = (nextLine >>= fun o =>
      match o with
      | none => pure none
      | some line =>
          if bstarts line (bs "merge ") then pure (some (line.drop 6))
          else do
            pushLine line
            pure none) st := rfl
  rw [h2, M_bind_apply, h]
  rfl

theorem nameValue_noval (name : Bytes) (st : PState) (h : ∀ b ∈ name, b ≠ 32) :
    nameValue name st = .ok (name, none) st := by
  unfold nameValue
  rw [splitByteN_one 32 2 name h]
  rfl

theorem nameValue_val (name v : Bytes) (st : PState) (hn : ∀ b ∈ name, b ≠ 32) :
    nameValue (name ++ 32 :: (natToBytes v.length ++ 32 :: v)) st = .ok (name, some v) st := by
  unfold nameValue
  rw [splitByteN_three name (natToBytes v.length) v hn (fun b hb => by
    have := natToBytes_digits _ b hb
    omega)]
  simp only []
  rw [parsePyInt_natToBytes]
  simp only []
  rw [if_neg (by omega)]
  rfl

theorem getProperty_noval (st st1 : PState) (name : Bytes)
    (h : nextLine st = .ok (some (bs "property " ++ name)) st1)
    (hn : ∀ b ∈ name, b ≠ 32) :
    getProperty st = .ok (some (name, none)) st1 := by
  have h2 : getProperty st = (nextLine >>= fun o =>
      match o with
      | none => pure none
      | some line =>
          if bstarts line (bs "property ") then do
            let nv ← nameValue (line.drop 9)
            pure (some nv)
          else do
            pushLine line
            pure none) st := rfl
  rw [h2, M_bind_apply, h]
  simp only []
  rw [if_pos (bstarts_append_self (bs "property ") name)]
  rw [M_bind_apply, show (9 : Nat) = (bs "property ").length from rfl, List.drop_left]
  rw [nameValue_noval name st1 hn]
  rfl

theorem getProperty_val (st st1 : PState) (name v : Bytes)
    (h : nextLine st = .ok (some (bs "property " ++
      (name ++ 32 :: (natToBytes v.length ++ 32 :: v)))) st1)
    (hn : ∀ b ∈ name, b ≠ 32) :
    getProperty st = .ok (some (name, some v)) st1 := by
  have h2 : getProperty st = (nextLine >>= fun o =>
      match o with
      | none => pure none
      | some line =>
          if bstarts line (bs "property ") then do
            let nv ← nameValue (line.drop 9)
            pure (some nv)
          else do
            pushLine line
            pure none) st := rfl
  rw [h2, M_bind_apply, h]
  simp only []
  rw [if_pos (bstarts_append_self (bs "property ") _)]
  rw [M_bind_apply, show (9 : Nat) = (bs "property ").length from rfl, List.drop_left]
  rw [nameValue_val name v st1 hn]
  rfl

theorem getProperty_absent (st st1 : PState) (l : Bytes)
    (h : nextLine st = .ok (some l) st1) (hm : bstarts l (bs "property ") = false) :
    getProperty st = .ok none (pushSt l st1) := by
  have h2 : getProperty st = (nextLine >>= fun o =>
      match o with
      | none => pure none
      | some line =>
          if bstarts line (bs "property ") then do
            let nv ← nameValue (line.drop 9)
            pure (some nv)
          else do
            pushLine line
            pure none) st := rfl
  rw [h2, M_bind_apply, h]
  simp only []
  rw [if_neg (by rw [hm]; exact Bool.false_ne_true)]
  rw [M_bind_apply, pushLine_eq]
  simp only []
  rw [M_pure_apply]

theorem getProperty_eof (st st1 : PState)
    (h : nextLine st = .ok none st1) :
    getProperty st = .ok none st1 := by
  have h2 : getProperty st = (nextLine >>= fun o =>
      match o with
      | none => pure none
      | some line =>
          if bstarts line (bs "property ") then do
            let nv ← nameValue (line.drop 9)
            pure (some nv)
          else do
            pushLine line
            pure none) st := rfl
  rw [h2, M_bind_apply, h]
  rfl

theorem getUserInfoOpt_present (cmd sect : Bytes) (ajw : Bool) (st st1 : PState)
    (a : Authorship)
    (h : nextLine st = .ok (some ((sect ++ [32]) ++ format_who_when a)) st1)
    (hwf : WFauth a = true)
    (hdf : st1.dateFmt = none ∨ st1.dateFmt = some DateFmt.raw) :
    getUserInfoOpt cmd sect ajw st = .ok (some a) { st1 with dateFmt := some DateFmt.raw } := by
  have h2 : getUserInfoOpt cmd sect ajw st = (nextLine >>= fun o =>
      match o with
      | none => throwErr .attrNoneHasNoStartswith
      | some line =>
          if bstarts line (sect ++ [32]) then do
            let a2 ← whoWhen (line.drop (sect.length + 1)) cmd sect ajw
            pure (some a2)
          else do
            pushLine line
            pure none) st := rfl
  rw [h2, M_bind_apply, h]
  simp only []
  rw [if_pos (bstarts_append_self _ _)]
  rw [M_bind_apply]
  rw [show sect.length + 1 = (sect ++ [32]).length from by simp]
  rw [List.drop_left]
  rw [whoWhen_format a cmd sect ajw st1 hwf hdf]
  simp only []
  rw [M_pure_apply]

theorem getUserInfoOpt_absent (cmd sect : Bytes) (ajw : Bool) (st st1 : PState) (l : Bytes)
    (h : nextLine st = .ok (some l) st1) (hm : bstarts l (sect ++ [32]) = false) :
    getUserInfoOpt cmd sect ajw st = .ok none (pushSt l st1) := by
  have h2 : getUserInfoOpt cmd sect ajw st = (nextLine >>= fun o =>
      match o with
      | none => throwErr .attrNoneHasNoStartswith
      | some line =>
          if bstarts line (sect ++ [32]) then do
            let a2 ← whoWhen (line.drop (sect.length + 1)) cmd sect ajw
            pure (some a2)
          else do
            pushLine line
            pure none) st := rfl
  rw [h2, M_bind_apply, h]
  simp only []
  rw [if_neg (by rw [hm]; exact Bool.false_ne_true)]
  rw [M_bind_apply, pushLine_eq]
  simp only []
  rw [M_pure_apply]

theorem getUserInfoReq_present (cmd sect : Bytes) (ajw : Bool) (st st1 : PState)
    (a : Authorship)
    (h : nextLine st = .ok (some ((sect ++ [32]) ++ format_who_when a)) st1)
    (hwf : WFauth a = true)
    (hdf : st1.dateFmt = none ∨ st1.dateFmt = some DateFmt.raw) :
    getUserInfoReq cmd sect ajw st = .ok a { st1 with dateFmt := some DateFmt.raw } := by
  have h2 : getUserInfoReq cmd sect ajw st = (nextLine >>= fun o =>
      match o with
      | none => throwErr .attrNoneHasNoStartswith
      | some line =>
          if bstarts line (sect ++ [32]) then
            whoWhen (line.drop (sect.length + 1)) cmd sect ajw
          else do
            let st ← getPS
            throwErr (.missingSection st.lineno cmd sect)) st := rfl
  rw [h2, M_bind_apply, h]
  simp only []
  rw [if_pos (bstarts_append_self _ _)]
  rw [show sect.length + 1 = (sect ++ [32]).length from by simp]
  rw [List.drop_left]
  rw [whoWhen_format a cmd sect ajw st1 hwf hdf]

theorem readBytes_exact (st : PState) (d tail : Bytes) (hi : st.input = d ++ tail) :
    readBytes d.length st =
      .ok d { st with input := tail, lineno := st.lineno + countLF d } := by
  unfold readBytes
  simp only [hi, List.take_left, List.drop_left]
  rw [if_neg (by simp)]

theorem optionalLF_lf (st : PState) (tail : Bytes) (hi : st.input = 10 :: tail) :
    optionalLF st = .ok () { st with input := tail, lineno := st.lineno + 1 } := by
  unfold optionalLF
  simp only [hi]
  rw [show splitLine (10 :: tail) = ([10], tail) from by simp [splitLine]]
  rw [if_neg (by simp)]

theorem getData_format (req sect : Bytes) (st st1 : PState) (d tail : Bytes)
    (h : nextLine st = .ok (some (bs "data " ++ natToBytes d.length)) st1)
    (hi : st1.input = d ++ 10 :: tail) :
    getData req sect st = .ok d
      { st1 with input := tail, lineno := st1.lineno + countLF d + 1 } := by
  have h2 : getData req sect st = (nextLine >>= fun o =>
      match o with
      | none => throwErr .attrNoneHasNoStartswith
      | some line =>
          if bstarts line (bs "data ") then do
            let rest := line.drop 5
            if bstarts rest (bs "<<") then readUntil (rest.drop 2)
            else
              match parsePyInt rest with
              | none => throwErr .valueError
              | some size => do
                  let rd ← if size < 0 then readBytesNeg size else readBytes size.toNat
                  optionalLF
                  pure rd
          else do
            let st ← getPS
            throwErr (.missingSection st.lineno req sect)) st := rfl
  rw [h2, M_bind_apply, h]
  simp only []
  rw [if_pos (bstarts_append_self (bs "data ") _)]
  rw [show (5 : Nat) = (bs "data ").length from rfl, List.drop_left]
  rw [if_neg (by rw [natToBytes_no_ltlt]; exact Bool.false_ne_true)]
  rw [parsePyInt_natToBytes]
  simp only []
  rw [if_neg (by omega)]
  rw [M_bind_apply]
  rw [show ((d.length : Int)).toNat = d.length from by omega]
  rw [readBytes_exact st1 d (10 :: tail) hi]
  simp only []
  rw [M_bind_apply]
  rw [optionalLF_lf _ tail rfl]
  simp only []
  rw [M_pure_apply]

/-! ## Uniform line supply: raw input or a pushed-back line -/

theorem lf_decomp_unique {l1 r1 l2 r2 : Bytes} (h1 : ∀ b ∈ l1, b ≠ 10)
    (h2 : ∀ b ∈ l2, b ≠ 10) (he : l1 ++ 10 :: r1 = l2 ++ 10 :: r2) :
    l1 = l2 ∧ r1 = r2 := by
  have e1 := splitLine_noLF l1 r1 h1
  have e2 := splitLine_noLF l2 r2 h2
  rw [he, e2] at e1
  have ha : l2 ++ [10] = l1 ++ [10] := congrArg Prod.fst e1
  have hb : r2 = r1 := congrArg Prod.snd e1
  exact ⟨(List.append_left_injective [10] ha).symm, hb.symm⟩

/-- The state offers byte stream `X`: either as raw input with an empty
push-back buffer, or with the first line sitting in the buffer. -/
def offers (st : PState) (X : Bytes) : Prop :=
  (st.buf = [] ∧ st.input = X) ∨
  (∃ l st1, st = pushSt l st1 ∧ st1.buf = [] ∧ (∀ b ∈ l, b ≠ 10) ∧
    X = l ++ 10 :: st1.input)

theorem offers_raw (st : PState) (hb : st.buf = []) : offers st st.input :=
  Or.inl ⟨hb, rfl⟩

theorem offers_pushSt (l : Bytes) (st1 : PState) (hb : st1.buf = [])
    (hl : ∀ b ∈ l, b ≠ 10) : offers (pushSt l st1) (l ++ 10 :: st1.input) :=
  Or.inr ⟨l, st1, rfl, hb, hl, rfl⟩

theorem offers_read {st : PState} {X l rest : Bytes} (ho : offers st X)
    (hX : X = l ++ 10 :: rest) (hl : ∀ b ∈ l, b ≠ 10) :
    nextLine st = .ok (some l)
      { st with buf := [], input := rest, lineno := st.lineno + 1 } := by
  rcases ho with ⟨hb, hi⟩ | ⟨l2, st1, hst, hb1, hl2, hX2⟩
  · have h := nextLine_raw st l rest hb (by rw [hi, hX]) hl
    rw [h]
    cases st
    simp_all
  · obtain ⟨hll, hrr⟩ := lf_decomp_unique hl2 hl (by rw [← hX2, hX])
    rw [hst, nextLine_push]
    subst hll
    cases st1
    simp_all [pushSt]
    try omega

theorem offers_eof {st : PState} (ho : offers st []) :
    nextLine st = .ok none { st with buf := [], lineno := st.lineno + 1 } := by
  rcases ho with ⟨hb, hi⟩ | ⟨l2, st1, _, _, _, hX2⟩
  · have h := nextLine_eof st hb hi
    rw [h]
    cases st
    simp_all
  · exact absurd hX2 (by simp)

/-! ## Serialized sections in line-suffix form -/

def markSfx : Option MarkVal → Bytes
  | none => []
  | some (.bytes m) => bs "mark :" ++ m ++ [10]
  | some (.int n) => bs "mark :" ++ natToBytes n ++ [10]

def authorLine (a : Authorship) : Bytes := bs "author " ++ format_who_when a ++ [10]

def authorLines (l : List Authorship) : Bytes := (l.map (fun a => authorLine a)).flatten

def authorsSfx (c : CommitCommand) : Bytes :=
  match c.author with
  | none => []
  | some a => authorLine a ++
      (match c.more_authors with
       | none => []
       | some more => authorLines more)

def dataSfx (d : Bytes) : Bytes := bs "data " ++ natToBytes d.length ++ [10] ++ d ++ [10]

def msgSfx : Option Bytes → Bytes
  | none => []
  | some m => dataSfx m

def fromSfx : Option Bytes → Bytes
  | none => []
  | some f => bs "from " ++ f ++ [10]

def mergeLines (ms : List Bytes) : Bytes :=
  (ms.map (fun m => bs "merge " ++ m ++ [10])).flatten

def mergesSfx : Option (List Bytes) → Bytes
  | none => []
  | some ms => mergeLines ms

def propLine (p : Bytes × Option Bytes) : Bytes := format_property p.1 p.2 ++ [10]

def propLines (ps : List (Bytes × Option Bytes)) : Bytes :=
  (ps.map (fun p => propLine p)).flatten

def propsSfx : Option (List (Bytes × Option Bytes)) → Bytes
  | none => []
  | some ps => propLines ps

def fileSfx (op : FileCommand) : Bytes := (FileCommand.toBytes op).getD [] ++ [10]

def filesSfx (ops : List FileCommand) : Bytes := (ops.map (fun op => fileSfx op)).flatten

def commitBody (c : CommitCommand) : Bytes :=
  markSfx c.mark ++ authorsSfx c ++
  (bs "committer " ++ format_who_when c.committer ++ [10]) ++
  msgSfx c.message ++ fromSfx c.from_ ++ mergesSfx c.merges ++
  propsSfx c.properties ++ filesSfx (c.file_iter.getD [])

/-! ## Moving the line feeds across a section (`10 :: x` to `x ++ [10]`) -/

theorem shiftLF {α : Type} (g : α → Bytes) (xs : List α) (rest : Bytes) :
    (xs.map (fun x => 10 :: g x)).flatten ++ 10 :: rest =
      10 :: ((xs.map (fun x => g x ++ [10])).flatten ++ rest) := by
  induction xs with
  | nil => rfl
  | cons x xs ih =>
      simp only [List.map_cons, List.flatten_cons, List.cons_append, List.append_assoc, ih]
      simp

theorem shift1 (x rest : Bytes) : (10 :: x) ++ 10 :: rest = 10 :: ((x ++ [10]) ++ rest) := by
  simp

/-! ## No-LF facts for the serialized lines -/

theorem fww_no10 (a : Authorship) (h : WFauth a = true) :
    ∀ b ∈ format_who_when a, b ≠ 10 := by
  have hcomp : allNot a.name 10 = true ∧ allNot a.name 60 = true ∧
      lastNotWSb a.name = true ∧ allNot a.email 10 = true ∧
      (a.timezone % 60 == 0) = true := by
    simpa [WFauth, Bool.and_eq_true, and_assoc] using h
  obtain ⟨h1, _, _, h4, _⟩ := hcomp
  rw [format_who_when_eq]
  intro b hb
  rcases List.mem_append.mp hb with hb | hb
  · rcases List.mem_append.mp hb with hb | hb
    · exact allNot_iff.mp h1 b hb
    · by_cases h0 : a.name = []
      · rw [if_pos h0] at hb; simp at hb
      · rw [if_neg h0] at hb; simp at hb; omega
  · rcases List.mem_cons.mp hb with hb | hb
    · omega
    · rcases List.mem_append.mp hb with hb | hb
      · exact allNot_iff.mp h4 b hb
      · rcases List.mem_cons.mp hb with hb | hb
        · omega
        · rcases List.mem_cons.mp hb with hb | hb
          · omega
          · unfold dateBytes at hb
            rcases List.mem_append.mp hb with hb | hb
            · rcases intToBytes_mem _ b hb with h | h <;> omega
            · rcases List.mem_cons.mp hb with hb | hb
              · omega
              · rcases tzBytes_mem _ b hb with h | h | h <;> omega

theorem propLine_shape (p : Bytes × Option Bytes) (h : WFprop p = true) :
    (∃ body, format_property p.1 p.2 = bs "property " ++ body) ∧
    (∀ b ∈ format_property p.1 p.2, b ≠ 10) := by
  obtain ⟨hn10, hn32, hval⟩ : allNot p.1 10 = true ∧ allNot p.1 32 = true ∧
      (match p.2 with | none => true | some v => allNot v 10) = true := by
    simpa [WFprop, Bool.and_eq_true, and_assoc] using h
  rcases hv : p.2 with _ | v
  · refine ⟨⟨p.1, by simp [format_property, hv]⟩, ?_⟩
    intro b hb
    simp only [format_property, hv] at hb
    rcases List.mem_append.mp hb with hb | hb
    · exact (show ∀ x ∈ bs "property ", x ≠ 10 from by decide) b hb
    · exact allNot_iff.mp hn10 b hb
  · rw [hv] at hval
    refine ⟨⟨p.1 ++ [32] ++ natToBytes v.length ++ [32] ++ v,
      by simp [format_property, hv]⟩, ?_⟩
    intro b hb
    simp only [format_property, hv] at hb
    simp only [List.append_assoc, List.mem_append] at hb
    rcases hb with hb | hb | hb | hb | hb | hb
    · exact (show ∀ x ∈ bs "property ", x ≠ 10 from by decide) b hb
    · exact allNot_iff.mp hn10 b hb
    · simp at hb; omega
    · have := natToBytes_digits _ b hb; omega
    · simp at hb; omega
    · exact allNot_iff.mp hval b hb

/-- The first line of a byte block: empty, or a LF-free line whose head
byte is in the given set. -/
def lineShape (X : Bytes) (hs : List Nat) : Prop :=
  X = [] ∨ ∃ l rest h0, X = l ++ 10 :: rest ∧ (∀ b ∈ l, b ≠ 10) ∧
    h0 ∈ hs ∧ l.head? = some h0

theorem lineShape_append {X Y : Bytes} {hs : List Nat}
    (hX : lineShape X hs) (hY : lineShape Y hs) : lineShape (X ++ Y) hs := by
  rcases hX with hX | ⟨l, rest, h0, he, hl, hh, hhd⟩
  · rw [hX]; simpa using hY
  · exact Or.inr ⟨l, rest ++ Y, h0, by rw [he]; simp, hl, hh, hhd⟩

theorem lineShape_mono {X : Bytes} {hs hs2 : List Nat}
    (hsub : ∀ h0 ∈ hs, h0 ∈ hs2) (hX : lineShape X hs) : lineShape X hs2 := by
  rcases hX with hX | ⟨l, rest, h0, he, hl, hh, hhd⟩
  · exact Or.inl hX
  · exact Or.inr ⟨l, rest, h0, he, hl, hsub h0 hh, hhd⟩

theorem lineShape_flatten {α : Type} (g : α → Bytes) (xs : List α) (hs : List Nat)
    (h : ∀ x ∈ xs, lineShape (g x) hs) :
    lineShape ((xs.map g).flatten) hs := by
  induction xs with
  | nil => exact Or.inl rfl
  | cons x xs ih =>
      simp only [List.map_cons, List.flatten_cons]
      exact lineShape_append (h x (List.mem_cons_self x xs))
        (ih (fun y hy => h y (List.mem_cons_of_mem x hy)))

theorem lineShape_mergeLines (ms : List Bytes)
    (hms : ∀ m ∈ ms, ∀ b ∈ m, b ≠ 10) : lineShape (mergeLines ms) [109] := by
  refine lineShape_flatten _ ms [109] (fun m hm => ?_)
  refine Or.inr ⟨bs "merge " ++ m, [], 109, by simp, ?_, by simp, rfl⟩
  intro b hb
  rcases List.mem_append.mp hb with hb | hb
  · exact (show ∀ x ∈ bs "merge ", x ≠ 10 from by decide) b hb
  · exact hms m hm b hb

theorem lineShape_propLines (ps : List (Bytes × Option Bytes))
    (hps : ∀ p ∈ ps, WFprop p = true) : lineShape (propLines ps) [112] := by
  refine lineShape_flatten _ ps [112] (fun p hp => ?_)
  obtain ⟨⟨body, hbody⟩, hno10⟩ := propLine_shape p (hps p hp)
  refine Or.inr ⟨format_property p.1 p.2, [], 112, by simp [propLine], hno10, by simp, ?_⟩
  rw [hbody]
  rfl

/-! ## File-command piece lemmas -/

theorem bcontains_false (s : Bytes) (x : Nat) (h : ∀ b ∈ s, b ≠ x) :
    bcontains s x = false := by
  induction s with
  | nil => rfl
  | cons c r ih =>
      have hc : c ≠ x := h c (List.mem_cons_self c r)
      have ihr := ih (fun b hb => h b (List.mem_cons_of_mem c hb))
      simp only [bcontains] at ihr ⊢
      simp [List.contains_cons, ihr, Ne.symm hc]
      exact fun hm => h x (List.mem_cons_of_mem c hm) rfl

theorem bstarts_single (c : Nat) (p : Bytes) (h : p.head? ≠ some c) :
    bstarts p [c] = false := by
  cases p with
  | nil => rfl
  | cons d r =>
      have : c ≠ d := by
        intro he
        exact h (by rw [he]; rfl)
      simp [bstarts, List.isPrefixOf, this]

theorem format_path_id (p : Bytes) (h10 : ∀ b ∈ p, b ≠ 10) (hq : p.head? ≠ some 34) :
    format_path p false = p := by
  unfold format_path
  rw [bcontains_false p 10 h10]
  simp [hq]

theorem format_path_id_q (p : Bytes) (h10 : ∀ b ∈ p, b ≠ 10) (hq : p.head? ≠ some 34)
    (h32 : ∀ b ∈ p, b ≠ 32) : format_path p true = p := by
  unfold format_path
  rw [bcontains_false p 10 h10, bcontains_false p 32 h32]
  simp [hq]

theorem WFpath_parts {p : Bytes} (h : WFpath p = true) :
    (∀ b ∈ p, b ≠ 10) ∧ p ≠ [] ∧ bstarts p (bs "/") = false ∧ p.head? ≠ some 34 := by
  obtain ⟨h1, h2, h3, h4⟩ : allNot p 10 = true ∧ p.isEmpty = false ∧
      bstarts p (bs "/") = false ∧ (p.head? == some 34) = false := by
    simpa [WFpath, Bool.and_eq_true, and_assoc] using h
  refine ⟨allNot_iff.mp h1, by simpa using h2, h3, by simpa using h4⟩

theorem WFpath2_parts {p : Bytes} (h : WFpath2 p = true) :
    WFpath p = true ∧ (∀ b ∈ p, b ≠ 32) ∧ (∀ b ∈ p, b ≠ 92) ∧
    bends p [34] = false := by
  obtain ⟨h1, h2, h3, h4⟩ : WFpath p = true ∧ allNot p 32 = true ∧
      allNot p 92 = true ∧ bends p [34] = false := by
    simpa [WFpath2, Bool.and_eq_true, and_assoc] using h
  exact ⟨h1, allNot_iff.mp h2, allNot_iff.mp h3, h4⟩

theorem checkPath_ok (p : Bytes) (hne : p ≠ []) (hs : bstarts p (bs "/") = false) :
    checkPath p = .ok p := by
  unfold checkPath
  rw [if_neg]
  rintro (h | h)
  · exact hne h
  · rw [hs] at h
    exact Bool.false_ne_true h

theorem pathOf_plain (p : Bytes) (hq : p.head? ≠ some 34) (st : PState) :
    pathOf p st = .ok p st := by
  unfold pathOf
  rw [bstarts_single 34 p hq]
  rfl

theorem mode_roundtrip (mo : Nat)
    (h : mo = 0o100644 ∨ mo = 0o100755 ∨ mo = 0o120000 ∨ mo = 0o160000) :
    ∃ ms, formatMode mo = some ms ∧ (∀ b ∈ ms, b ≠ 32 ∧ b ≠ 10) ∧
      S_ISDIR mo = false ∧ ∀ st, modeOf ms st = .ok mo st := by
  rcases h with h | h | h | h <;> subst h
  · exact ⟨bs "644", rfl, by decide, rfl, fun st => rfl⟩
  · exact ⟨bs "755", rfl, by decide, rfl, fun st => rfl⟩
  · exact ⟨bs "120000", rfl, by decide, rfl, fun st => rfl⟩
  · exact ⟨bs "160000", rfl, by decide, rfl, fun st => rfl⟩

theorem parseFileModify_dir (m : FileModifyCommand) (st : PState)
    (hm : m.mode = 0o40000) (hdr : m.dataref = some (bs "-")) (hd : m.data = none)
    (hp : WFpath m.path = true) :
    parseFileModify (bs "040000" ++ 32 :: ([45] ++ 32 :: m.path)) st =
      .ok (.modify m) st := by
  obtain ⟨h10, hne, hs, hq⟩ := WFpath_parts hp
  unfold parseFileModify
  rw [splitByteN_three _ _ _ (by decide) (by decide)]
  simp only []
  rw [M_bind_apply, pathOf_plain m.path hq st]
  simp only []
  rw [M_bind_apply, show modeOf (bs "040000") st = .ok 0o40000 st from rfl]
  simp only []
  rw [if_neg (by decide)]
  rw [M_bind_apply, show liftE (checkPath m.path) st = .ok m.path st from by
    rw [checkPath_ok m.path hne hs]
    rfl]
  simp only []
  rw [M_pure_apply]
  cases m
  simp_all
  decide

theorem parseFileModify_ref (m : FileModifyCommand) (ms r : Bytes) (st : PState)
    (hms32 : ∀ b ∈ ms, b ≠ 32) (hmode : ∀ st2, modeOf ms st2 = .ok m.mode st2)
    (hr32 : ∀ b ∈ r, b ≠ 32) (hrinl : r ≠ bs "inline")
    (hdr : m.dataref = some r) (hd : m.data = none) (hp : WFpath m.path = true) :
    parseFileModify (ms ++ 32 :: (r ++ 32 :: m.path)) st = .ok (.modify m) st := by
  obtain ⟨h10, hne, hs, hq⟩ := WFpath_parts hp
  unfold parseFileModify
  rw [splitByteN_three _ _ _ hms32 hr32]
  simp only []
  rw [M_bind_apply, pathOf_plain m.path hq st]
  simp only []
  rw [M_bind_apply, hmode st]
  simp only []
  rw [if_neg hrinl]
  rw [M_bind_apply, show liftE (checkPath m.path) st = .ok m.path st from by
    rw [checkPath_ok m.path hne hs]
    rfl]
  simp only []
  rw [M_pure_apply]
  cases m
  simp_all

theorem parseFileModify_inline (m : FileModifyCommand) (ms d rest : Bytes) (st : PState)
    (hms32 : ∀ b ∈ ms, b ≠ 32) (hmode : ∀ st2, modeOf ms st2 = .ok m.mode st2)
    (hdr : m.dataref = none) (hd : m.data = some d) (hp : WFpath m.path = true)
    (hb : st.buf = [])
    (hi : st.input = (bs "data " ++ natToBytes d.length) ++ 10 :: (d ++ 10 :: rest)) :
    parseFileModify (ms ++ 32 :: (bs "inline" ++ 32 :: m.path)) st =
      .ok (.modify m)
        { st with input := rest, lineno := st.lineno + 1 + countLF d + 1 } := by
  obtain ⟨h10, hne, hs, hq⟩ := WFpath_parts hp
  have hnl : nextLine st = .ok (some (bs "data " ++ natToBytes d.length))
      { st with input := d ++ 10 :: rest, lineno := st.lineno + 1 } :=
    nextLine_raw st _ _ hb hi (fun b hb2 => by
      rcases List.mem_append.mp hb2 with h | h
      · exact (show ∀ x ∈ bs "data ", x ≠ 10 from by decide) b h
      · have := natToBytes_digits _ b h
        omega)
  have hgd := getData_format (bs "filemodify") (bs "data") st _ d rest hnl rfl
  unfold parseFileModify
  rw [splitByteN_three _ _ _ hms32 (by decide)]
  simp only []
  rw [M_bind_apply, pathOf_plain m.path hq st]
  simp only []
  rw [M_bind_apply, hmode st]
  simp only []
  rw [if_pos trivial]
  rw [M_bind_apply, hgd]
  simp only []
  rw [M_bind_apply, show liftE (checkPath m.path) = (pure m.path : M Bytes) from by
    rw [checkPath_ok m.path hne hs]
    rfl]
  rw [M_pure_apply]
  simp only []
  rw [M_pure_apply]
  cases m
  simp_all

theorem pathPairOf_plain (o n : Bytes) (st : PState)
    (ho : WFpath2 o = true) (hn : WFpath2 n = true) :
    pathPairOf (o ++ 32 :: n) st = .ok (o, n) st := by
  obtain ⟨hop, ho32, ho92, _⟩ := WFpath2_parts ho
  obtain ⟨hnp, _, hn92, hnq34e⟩ := WFpath2_parts hn
  obtain ⟨_, hone, _, hoq⟩ := WFpath_parts hop
  obtain ⟨_, _, _, hnq⟩ := WFpath_parts hnp
  have hhead : (o ++ 32 :: n).head? ≠ some 34 := by
    cases o with
    | nil => exact absurd rfl hone
    | cons c r =>
        simp only [List.cons_append, List.head?_cons]
        simpa using hoq
  unfold pathPairOf
  rw [bstarts_single 34 _ hhead]
  rw [if_neg Bool.false_ne_true]
  rw [splitFirst_exact 32 o n ho32]
  simp only []
  rw [M_bind_apply, M_pure_apply]
  simp only []
  rw [bstarts_single 34 n hnq, hnq34e]
  simp only [Bool.false_and, Bool.false_or]
  rw [if_neg Bool.false_ne_true, if_neg Bool.false_ne_true]
  rw [M_bind_apply, M_pure_apply]
  simp only []
  rw [M_bind_apply, show liftE (unquoteC o) st = .ok o st from by
    rw [unquoteC_id o ho92]
    rfl]
  simp only []
  rw [M_bind_apply, show liftE (unquoteC n) st = .ok n st from by
    rw [unquoteC_id n hn92]
    rfl]
  simp only []
  rw [M_pure_apply]

theorem no10_append {x y : Bytes} (hx : ∀ b ∈ x, b ≠ 10) (hy : ∀ b ∈ y, b ≠ 10) :
    ∀ b ∈ x ++ y, b ≠ 10 := fun b hb => (List.mem_append.mp hb).elim (hx b) (hy b)

theorem no10_cons {c : Nat} {y : Bytes} (hc : c ≠ 10) (hy : ∀ b ∈ y, b ≠ 10) :
    ∀ b ∈ c :: y, b ≠ 10 := fun b hb => (List.mem_cons.mp hb).elim (fun h => h ▸ hc) (hy b)

/-- One dispatch step of `iter_file_commands` on an already-read line. -/
def fileStep (fuel : Nat) (acc : List FileCommand) : Option Bytes → M (List FileCommand)
  | none => pure acc.reverse
  | some line =>
      if line.length = 0 ∨ bstarts line (bs "#") then fileCmdsLoop fuel acc
      else if bstarts line (bs "M ") then do
        let fc ← parseFileModify (line.drop 2)
        fileCmdsLoop fuel (fc :: acc)
      else if bstarts line (bs "D ") then do
        let p ← pathOf (line.drop 2)
        let pc ← liftE (checkPath p)
        fileCmdsLoop fuel (.delete pc :: acc)
      else if bstarts line (bs "R ") then do
        let pq ← pathPairOf (line.drop 2)
        let o ← liftE (checkPath pq.1)
        let n ← liftE (checkPath pq.2)
        fileCmdsLoop fuel (.rename o n :: acc)
      else if bstarts line (bs "C ") then do
        let pq ← pathPairOf (line.drop 2)
        let s1 ← liftE (checkPath pq.1)
        let d1 ← liftE (checkPath pq.2)
        fileCmdsLoop fuel (.copy s1 d1 :: acc)
      else if bstarts line (bs "deleteall") then
        fileCmdsLoop fuel (.deleteall :: acc)
      else do
        pushLine line
        pure acc.reverse

theorem fileCmdsLoop_eq (fuel : Nat) (acc : List FileCommand) :
    fileCmdsLoop (fuel + 1) acc = nextLine >>= fileStep fuel acc := rfl

theorem fileCmdsLoop_op (op : FileCommand) (hop : WFfile op = true)
    (fuel : Nat) (acc : List FileCommand) (st : PState) (rest : Bytes)
    (ho : offers st (fileSfx op ++ rest)) :
    ∃ st2, fileCmdsLoop (fuel + 1) acc st = fileCmdsLoop fuel (op :: acc) st2 ∧
      st2.buf = [] ∧ st2.input = rest ∧ st2.dateFmt = st.dateFmt ∧
      st2.features = st.features := by
  cases op with
  | modify m =>
      have hsplit := hop
      simp only [WFfile, Bool.and_eq_true] at hsplit
      obtain ⟨hp, hx⟩ := hsplit
      obtain ⟨h10, hne, hs, hq⟩ := WFpath_parts hp
      by_cases hSd : S_ISDIR m.mode = true
      · rw [if_pos hSd] at hx
        obtain ⟨hm40, hdrq, hdq⟩ : m.mode = 0o40000 ∧ m.dataref = some (bs "-") ∧
            m.data = none := by
          simpa [Bool.and_eq_true, and_assoc, beq_iff_eq] using hx
        have htb : FileCommand.toBytes (.modify m) =
            some (bs "M " ++ (bs "040000" ++ 32 :: ([45] ++ 32 :: m.path))) := by
          show FileModifyCommand.toBytes m = _
          unfold FileModifyCommand.toBytes
          rw [hm40]
          simp [show formatMode 0o40000 = some (bs "040000") from rfl,
            show S_ISDIR 0o40000 = true from rfl,
            show format_path m.path false = m.path from format_path_id m.path h10 hq,
            List.append_assoc]
        have hXeq : fileSfx (.modify m) ++ rest =
            (bs "M " ++ (bs "040000" ++ 32 :: ([45] ++ 32 :: m.path))) ++ 10 :: rest := by
          simp [fileSfx, htb, List.append_assoc]
        have hl10 : ∀ b ∈ bs "M " ++ (bs "040000" ++ 32 :: ([45] ++ 32 :: m.path)), b ≠ 10 :=
          no10_append (by decide) (no10_append (by decide) (no10_cons (by omega)
            (no10_append (by decide) (no10_cons (by omega) h10))))
        have hrd := offers_read ho hXeq hl10
        refine ⟨{ st with buf := [], input := rest, lineno := st.lineno + 1 }, ?_,
          rfl, rfl, rfl, rfl⟩
        rw [fileCmdsLoop_eq, M_bind_apply, hrd]
        simp only []
        unfold fileStep
        simp only []
        rw [if_neg (by
          rintro (h | h)
          · rw [show bs "M " ++ (bs "040000" ++ 32 :: ([45] ++ 32 :: m.path)) =
              77 :: ((32 : Nat) :: (bs "040000" ++ 32 :: ([45] ++ 32 :: m.path))) from rfl] at h
            simp at h
          · rw [show bs "M " ++ (bs "040000" ++ 32 :: ([45] ++ 32 :: m.path)) =
              77 :: ((32 : Nat) :: (bs "040000" ++ 32 :: ([45] ++ 32 :: m.path))) from rfl,
              show bs "#" = (35 : Nat) :: [] from rfl] at h
            rw [bstarts_cons_ne _ _ (by omega)] at h
            exact Bool.false_ne_true h)]
        rw [if_pos (bstarts_append_self (bs "M ") _)]
        rw [M_bind_apply, show (2 : Nat) = (bs "M ").length from rfl, List.drop_left]
        rw [parseFileModify_dir m _ hm40 hdrq hdq hp]
      · rw [if_neg hSd] at hx
        obtain ⟨hmodes, hmatch⟩ := by
          simp only [Bool.and_eq_true] at hx
          exact hx
        have hm4 : m.mode = 0o100644 ∨ m.mode = 0o100755 ∨ m.mode = 0o120000 ∨
            m.mode = 0o160000 := by
          simpa [Bool.or_eq_true, beq_iff_eq, or_assoc] using hmodes
        obtain ⟨ms, hfm, hms, hSdf, hmodeOf⟩ := mode_roundtrip m.mode hm4
        have hms32 : ∀ b ∈ ms, b ≠ 32 := fun b hb => (hms b hb).1
        have hms10 : ∀ b ∈ ms, b ≠ 10 := fun b hb => (hms b hb).2
        rcases hdr : m.dataref with _ | r <;> rcases hd : m.data with _ | d <;>
          rw [hdr, hd] at hmatch
        · simp at hmatch
        · -- inline op
          have htb : FileCommand.toBytes (.modify m) =
              some ((bs "M " ++ (ms ++ 32 :: (bs "inline" ++ 32 :: m.path))) ++ 10 ::
                ((bs "data " ++ natToBytes d.length) ++ 10 :: d)) := by
            show FileModifyCommand.toBytes m = _
            unfold FileModifyCommand.toBytes
            simp [hfm, hSdf, hdr, hd,
              show format_path m.path false = m.path from format_path_id m.path h10 hq,
              List.append_assoc]
          have hXeq : fileSfx (.modify m) ++ rest =
              (bs "M " ++ (ms ++ 32 :: (bs "inline" ++ 32 :: m.path))) ++ 10 ::
                ((bs "data " ++ natToBytes d.length) ++ 10 :: (d ++ 10 :: rest)) := by
            simp [fileSfx, htb, List.append_assoc]
          have hl10 : ∀ b ∈ bs "M " ++ (ms ++ 32 :: (bs "inline" ++ 32 :: m.path)), b ≠ 10 :=
            no10_append (by decide) (no10_append hms10 (no10_cons (by omega)
              (no10_append (by decide) (no10_cons (by omega) h10))))
          have hrd := offers_read ho hXeq hl10
          have hpm := parseFileModify_inline m ms d rest
            { st with buf := [], input := (bs "data " ++ natToBytes d.length) ++ 10 ::
                (d ++ 10 :: rest), lineno := st.lineno + 1 }
            hms32 hmodeOf hdr hd hp rfl rfl
          refine ⟨{ st with buf := [], input := rest, lineno := st.lineno + 1 + 1 + countLF d + 1 }, ?_, rfl, rfl, rfl, rfl⟩
          rw [fileCmdsLoop_eq, M_bind_apply, hrd]
          simp only []
          unfold fileStep
          simp only []
          rw [if_neg (by
            rintro (h | h)
            · rw [show bs "M " ++ (ms ++ 32 :: (bs "inline" ++ 32 :: m.path)) =
                77 :: ((32 : Nat) :: (ms ++ 32 :: (bs "inline" ++ 32 :: m.path))) from rfl] at h
              simp at h
            · rw [show bs "M " ++ (ms ++ 32 :: (bs "inline" ++ 32 :: m.path)) =
                77 :: ((32 : Nat) :: (ms ++ 32 :: (bs "inline" ++ 32 :: m.path))) from rfl,
                show bs "#" = (35 : Nat) :: [] from rfl] at h
              rw [bstarts_cons_ne _ _ (by omega)] at h
              exact Bool.false_ne_true h)]
          rw [if_pos (bstarts_append_self (bs "M ") _)]
          rw [M_bind_apply, show (2 : Nat) = (bs "M ").length from rfl, List.drop_left]
          rw [hpm]
        · -- dataref op
          obtain ⟨hr10, hr32, hrinl⟩ : allNot r 10 = true ∧ allNot r 32 = true ∧
              (r == bs "inline") = false := by
            simpa [Bool.and_eq_true, and_assoc] using hmatch
          have hrinl2 : r ≠ bs "inline" := by simpa using hrinl
          have hr10m := allNot_iff.mp hr10
          have hr32m := allNot_iff.mp hr32
          have htb : FileCommand.toBytes (.modify m) =
              some (bs "M " ++ (ms ++ 32 :: (r ++ 32 :: m.path))) := by
            show FileModifyCommand.toBytes m = _
            unfold FileModifyCommand.toBytes
            simp [hfm, hSdf, hdr,
              show format_path m.path false = m.path from format_path_id m.path h10 hq,
              List.append_assoc]
          have hXeq : fileSfx (.modify m) ++ rest =
              (bs "M " ++ (ms ++ 32 :: (r ++ 32 :: m.path))) ++ 10 :: rest := by
            simp [fileSfx, htb, List.append_assoc]
          have hl10 : ∀ b ∈ bs "M " ++ (ms ++ 32 :: (r ++ 32 :: m.path)), b ≠ 10 :=
            no10_append (by decide) (no10_append hms10 (no10_cons (by omega)
              (no10_append hr10m (no10_cons (by omega) h10))))
          have hrd := offers_read ho hXeq hl10
          refine ⟨{ st with buf := [], input := rest, lineno := st.lineno + 1 }, ?_,
            rfl, rfl, rfl, rfl⟩
          rw [fileCmdsLoop_eq, M_bind_apply, hrd]
          simp only []
          unfold fileStep
          simp only []
          rw [if_neg (by
            rintro (h | h)
            · rw [show bs "M " ++ (ms ++ 32 :: (r ++ 32 :: m.path)) =
                77 :: ((32 : Nat) :: (ms ++ 32 :: (r ++ 32 :: m.path))) from rfl] at h
              simp at h
            · rw [show bs "M " ++ (ms ++ 32 :: (r ++ 32 :: m.path)) =
                77 :: ((32 : Nat) :: (ms ++ 32 :: (r ++ 32 :: m.path))) from rfl,
                show bs "#" = (35 : Nat) :: [] from rfl] at h
              rw [bstarts_cons_ne _ _ (by omega)] at h
              exact Bool.false_ne_true h)]
          rw [if_pos (bstarts_append_self (bs "M ") _)]
          rw [M_bind_apply, show (2 : Nat) = (bs "M ").length from rfl, List.drop_left]
          rw [parseFileModify_ref m ms r _ hms32 hmodeOf hr32m hrinl2 hdr hd hp]
        · simp at hmatch
  | delete p =>
      have hp : WFpath p = true := by simpa [WFfile] using hop
      obtain ⟨h10, hne, hs, hq⟩ := WFpath_parts hp
      have hXeq : fileSfx (.delete p) ++ rest = (bs "D " ++ p) ++ 10 :: rest := by
        simp [fileSfx, FileCommand.toBytes, format_path_id p h10 hq]
      have hl10 : ∀ b ∈ bs "D " ++ p, b ≠ 10 :=
        no10_append (by decide) h10
      have hrd := offers_read ho hXeq hl10
      refine ⟨{ st with buf := [], input := rest, lineno := st.lineno + 1 }, ?_,
        rfl, rfl, rfl, rfl⟩
      rw [fileCmdsLoop_eq, M_bind_apply, hrd]
      simp only []
      unfold fileStep
      simp only []
      rw [if_neg (by
        rintro (h | h)
        · rw [show bs "D " ++ p = 68 :: ((32 : Nat) :: p) from rfl] at h
          simp at h
        · rw [show bs "D " ++ p = 68 :: ((32 : Nat) :: p) from rfl,
            show bs "#" = (35 : Nat) :: [] from rfl] at h
          rw [bstarts_cons_ne _ _ (by omega)] at h
          exact Bool.false_ne_true h)]
      rw [if_neg (by
        rw [show bs "D " ++ p = 68 :: ((32 : Nat) :: p) from rfl,
          show bs "M " = (77 : Nat) :: [32] from rfl]
        rw [bstarts_cons_ne _ _ (by omega)]
        exact Bool.false_ne_true)]
      rw [if_pos (bstarts_append_self (bs "D ") p)]
      rw [M_bind_apply, show (2 : Nat) = (bs "D ").length from rfl, List.drop_left]
      rw [pathOf_plain p hq _]
      simp only []
      rw [M_bind_apply, show liftE (checkPath p) = (pure p : M Bytes) from by
        rw [checkPath_ok p hne hs]
        rfl]
  | rename o n =>
      obtain ⟨ho2, hn2⟩ : WFpath2 o = true ∧ WFpath2 n = true := by
        simpa [WFfile, Bool.and_eq_true] using hop
      obtain ⟨hopth, ho32, ho92, hoe34⟩ := WFpath2_parts ho2
      obtain ⟨hnpth, hn32, hn92, hne34⟩ := WFpath2_parts hn2
      obtain ⟨ho10, hone, hos, hoq⟩ := WFpath_parts hopth
      obtain ⟨hn10, hnne, hns, hnq⟩ := WFpath_parts hnpth
      have hXeq : fileSfx (.rename o n) ++ rest =
          (bs "R " ++ (o ++ 32 :: n)) ++ 10 :: rest := by
        simp [fileSfx, FileCommand.toBytes,
          format_path_id_q o ho10 hoq ho32, format_path_id n hn10 hnq,
          List.append_assoc]
      have hl10 : ∀ b ∈ bs "R " ++ (o ++ 32 :: n), b ≠ 10 :=
        no10_append (by decide) (no10_append ho10 (no10_cons (by omega) hn10))
      have hrd := offers_read ho hXeq hl10
      refine ⟨{ st with buf := [], input := rest, lineno := st.lineno + 1 }, ?_,
        rfl, rfl, rfl, rfl⟩
      rw [fileCmdsLoop_eq, M_bind_apply, hrd]
      simp only []
      unfold fileStep
      simp only []
      rw [if_neg (by
        rintro (h | h)
        · rw [show bs "R " ++ (o ++ 32 :: n) = 82 :: ((32 : Nat) :: (o ++ 32 :: n))
            from rfl] at h
          simp at h
        · rw [show bs "R " ++ (o ++ 32 :: n) = 82 :: ((32 : Nat) :: (o ++ 32 :: n))
            from rfl, show bs "#" = (35 : Nat) :: [] from rfl] at h
          rw [bstarts_cons_ne _ _ (by omega)] at h
          exact Bool.false_ne_true h)]
      rw [if_neg (by
        rw [show bs "R " ++ (o ++ 32 :: n) = 82 :: ((32 : Nat) :: (o ++ 32 :: n)) from rfl,
          show bs "M " = (77 : Nat) :: [32] from rfl]
        rw [bstarts_cons_ne _ _ (by omega)]
        exact Bool.false_ne_true)]
      rw [if_neg (by
        rw [show bs "R " ++ (o ++ 32 :: n) = 82 :: ((32 : Nat) :: (o ++ 32 :: n)) from rfl,
          show bs "D " = (68 : Nat) :: [32] from rfl]
        rw [bstarts_cons_ne _ _ (by omega)]
        exact Bool.false_ne_true)]
      rw [if_pos (bstarts_append_self (bs "R ") _)]
      rw [M_bind_apply, show (2 : Nat) = (bs "R ").length from rfl, List.drop_left]
      rw [pathPairOf_plain o n _ ho2 hn2]
      simp only []
      rw [M_bind_apply, show liftE (checkPath o) = (pure o : M Bytes) from by
        rw [checkPath_ok o hone hos]
        rfl]
      rw [M_pure_apply]
      simp only []
      rw [M_bind_apply, show liftE (checkPath n) = (pure n : M Bytes) from by
        rw [checkPath_ok n hnne hns]
        rfl]
  | copy o n =>
      obtain ⟨ho2, hn2⟩ : WFpath2 o = true ∧ WFpath2 n = true := by
        simpa [WFfile, Bool.and_eq_true] using hop
      obtain ⟨hopth, ho32, ho92, hoe34⟩ := WFpath2_parts ho2
      obtain ⟨hnpth, hn32, hn92, hne34⟩ := WFpath2_parts hn2
      obtain ⟨ho10, hone, hos, hoq⟩ := WFpath_parts hopth
      obtain ⟨hn10, hnne, hns, hnq⟩ := WFpath_parts hnpth
      have hXeq : fileSfx (.copy o n) ++ rest =
          (bs "C " ++ (o ++ 32 :: n)) ++ 10 :: rest := by
        simp [fileSfx, FileCommand.toBytes,
          format_path_id_q o ho10 hoq ho32, format_path_id n hn10 hnq,
          List.append_assoc]
      have hl10 : ∀ b ∈ bs "C " ++ (o ++ 32 :: n), b ≠ 10 :=
        no10_append (by decide) (no10_append ho10 (no10_cons (by omega) hn10))
      have hrd := offers_read ho hXeq hl10
      refine ⟨{ st with buf := [], input := rest, lineno := st.lineno + 1 }, ?_,
        rfl, rfl, rfl, rfl⟩
      rw [fileCmdsLoop_eq, M_bind_apply, hrd]
      simp only []
      unfold fileStep
      simp only []
      rw [if_neg (by
        rintro (h | h)
        · rw [show bs "C " ++ (o ++ 32 :: n) = 67 :: ((32 : Nat) :: (o ++ 32 :: n))
            from rfl] at h
          simp at h
        · rw [show bs "C " ++ (o ++ 32 :: n) = 67 :: ((32 : Nat) :: (o ++ 32 :: n))
            from rfl, show bs "#" = (35 : Nat) :: [] from rfl] at h
          rw [bstarts_cons_ne _ _ (by omega)] at h
          exact Bool.false_ne_true h)]
      rw [if_neg (by
        rw [show bs "C " ++ (o ++ 32 :: n) = 67 :: ((32 : Nat) :: (o ++ 32 :: n)) from rfl,
          show bs "M " = (77 : Nat) :: [32] from rfl]
        rw [bstarts_cons_ne _ _ (by omega)]
        exact Bool.false_ne_true)]
      rw [if_neg (by
        rw [show bs "C " ++ (o ++ 32 :: n) = 67 :: ((32 : Nat) :: (o ++ 32 :: n)) from rfl,
          show bs "D " = (68 : Nat) :: [32] from rfl]
        rw [bstarts_cons_ne _ _ (by omega)]
        exact Bool.false_ne_true)]
      rw [if_neg (by
        rw [show bs "C " ++ (o ++ 32 :: n) = 67 :: ((32 : Nat) :: (o ++ 32 :: n)) from rfl,
          show bs "R " = (82 : Nat) :: [32] from rfl]
        rw [bstarts_cons_ne _ _ (by omega)]
        exact Bool.false_ne_true)]
      rw [if_pos (bstarts_append_self (bs "C ") _)]
      rw [M_bind_apply, show (2 : Nat) = (bs "C ").length from rfl, List.drop_left]
      rw [pathPairOf_plain o n _ ho2 hn2]
      simp only []
      rw [M_bind_apply, show liftE (checkPath o) = (pure o : M Bytes) from by
        rw [checkPath_ok o hone hos]
        rfl]
      rw [M_pure_apply]
      simp only []
      rw [M_bind_apply, show liftE (checkPath n) = (pure n : M Bytes) from by
        rw [checkPath_ok n hnne hns]
        rfl]
  | deleteall =>
      have hXeq : fileSfx .deleteall ++ rest = bs "deleteall" ++ 10 :: rest := by
        simp [fileSfx, FileCommand.toBytes]
      have hrd := offers_read ho hXeq (by decide)
      refine ⟨{ st with buf := [], input := rest, lineno := st.lineno + 1 }, ?_,
        rfl, rfl, rfl, rfl⟩
      rw [fileCmdsLoop_eq, M_bind_apply, hrd]
      simp only []
      rfl
  | notemodify c =>
      simp [WFfile] at hop

theorem fileCmdsLoop_full (ops : List FileCommand) (hops : ∀ op ∈ ops, WFfile op = true) :
    ∀ (fuel : Nat) (acc : List FileCommand) (st : PState),
      ops.length + 1 ≤ fuel →
      offers st (filesSfx ops) →
      ∃ st2, fileCmdsLoop fuel acc st = .ok (acc.reverse ++ ops) st2 ∧
        st2.buf = [] ∧ st2.input = [] ∧ st2.features = st.features := by
  induction ops with
  | nil =>
      intro fuel acc st hf ho
      cases fuel with
      | zero => omega
      | succ f =>
          have ho2 : offers st [] := by simpa [filesSfx] using ho
          obtain ⟨hb, hi⟩ : st.buf = [] ∧ st.input = [] := by
            rcases ho2 with ⟨hb, hi⟩ | ⟨l, st1, _, _, _, hX⟩
            · exact ⟨hb, hi⟩
            · exact absurd hX (by simp)
          have hnl := offers_eof ho2
          refine ⟨{ st with buf := [], lineno := st.lineno + 1 }, ?_, rfl, hi, rfl⟩
          rw [fileCmdsLoop_eq, M_bind_apply, hnl]
          simp only []
          rw [show fileStep f acc none = (pure acc.reverse : M (List FileCommand))
            from rfl]
          rw [M_pure_apply, List.append_nil]
  | cons op ops ih =>
      intro fuel acc st hf ho
      cases fuel with
      | zero => omega
      | succ f =>
          rw [show filesSfx (op :: ops) = fileSfx op ++ filesSfx ops from by
            simp [filesSfx]] at ho
          obtain ⟨st2, heq, hb2, hi2, _, hfe2⟩ :=
            fileCmdsLoop_op op (hops op (List.mem_cons_self op ops)) f acc st
              (filesSfx ops) ho
          obtain ⟨st3, heq3, hb3, hi3, hfe3⟩ :=
            ih (fun x hx => hops x (List.mem_cons_of_mem op hx)) f (op :: acc) st2
              (by simp at hf; omega) (hi2 ▸ offers_raw st2 hb2)
          refine ⟨st3, ?_, hb3, hi3, by rw [hfe3, hfe2]⟩
          rw [heq, heq3]
          simp [List.append_assoc]

theorem mergesLoop_eq (fuel : Nat) (acc : List Bytes) :
    mergesLoop (fuel + 1) acc = getMerge >>= fun o =>
      match o with
      | some m => mergesLoop fuel (acc ++ splitAllByte 32 m)
      | none => pure acc := rfl

theorem mergesLoop_full (ms : List Bytes)
    (hms : ∀ m ∈ ms, ∀ b ∈ m, b ≠ 10 ∧ b ≠ 32) :
    ∀ (fuel : Nat) (acc : List Bytes) (st : PState) (rest : Bytes),
      ms.length + 1 ≤ fuel →
      offers st (mergeLines ms ++ rest) →
      (rest = [] ∨ ∃ l r2, rest = l ++ 10 :: r2 ∧ (∀ b ∈ l, b ≠ 10) ∧
        bstarts l (bs "merge ") = false) →
      ∃ st2, mergesLoop fuel acc st = .ok (acc ++ ms) st2 ∧ offers st2 rest ∧
        st2.features = st.features := by
  induction ms with
  | nil =>
      intro fuel acc st rest hf ho hrest
      cases fuel with
      | zero => omega
      | succ f =>
          rw [show mergeLines [] ++ rest = rest from by simp [mergeLines]] at ho
          rcases hrest with hrest | ⟨l, r2, hre, hl10, hnm⟩
          · subst hrest
            obtain ⟨hb, hi⟩ : st.buf = [] ∧ st.input = [] := by
              rcases ho with ⟨hb, hi⟩ | ⟨l, st1, _, _, _, hX⟩
              · exact ⟨hb, hi⟩
              · exact absurd hX (by simp)
            have hnl := offers_eof ho
            refine ⟨{ st with buf := [], lineno := st.lineno + 1 }, ?_,
              Or.inl ⟨rfl, hi⟩, rfl⟩
            rw [mergesLoop_eq, M_bind_apply, getMerge_eof _ _ hnl]
            simp only []
            rw [M_pure_apply, List.append_nil]
          · have hrd := offers_read ho hre hl10
            have hga := getMerge_absent _ _ l hrd hnm
            refine ⟨pushSt l { st with buf := [], input := r2, lineno := st.lineno + 1 }, ?_, ?_, rfl⟩
            · rw [mergesLoop_eq, M_bind_apply, hga]
              simp only []
              rw [M_pure_apply, List.append_nil]
            · rw [hre]
              exact offers_pushSt l _ rfl hl10
  | cons m ms ih =>
      intro fuel acc st rest hf ho hrest
      cases fuel with
      | zero => omega
      | succ f =>
          rw [show mergeLines (m :: ms) ++ rest =
            (bs "merge " ++ m) ++ 10 :: (mergeLines ms ++ rest) from by
              simp [mergeLines, List.append_assoc]] at ho
          have hm := hms m (List.mem_cons_self m ms)
          have hl10 : ∀ b ∈ bs "merge " ++ m, b ≠ 10 :=
            no10_append (by decide) (fun b hb => (hm b hb).1)
          have hrd := offers_read ho rfl hl10
          have hgp := getMerge_present _ _ m hrd
          obtain ⟨st2, heq2, ho2, hfe2⟩ :=
            ih (fun x hx => hms x (List.mem_cons_of_mem m hx)) f (acc ++ [m])
              { st with buf := [], input := mergeLines ms ++ rest, lineno := st.lineno + 1 }
              rest (by simp at hf; omega) (offers_raw _ rfl) hrest
          refine ⟨st2, ?_, ho2, hfe2⟩
          rw [mergesLoop_eq, M_bind_apply, hgp]
          simp only []
          rw [splitAllByte_nosep 32 m (fun b hb => (hm b hb).2), heq2]
          simp [List.append_assoc]

theorem bytesLt_irrefl (x : Bytes) : bytesLt x x = false := by
  induction x with
  | nil => rfl
  | cons a r ih => simp [bytesLt, ih]

theorem bytesLt_ne {x y : Bytes} (h : bytesLt x y = true) : x ≠ y := by
  intro he
  subst he
  rw [bytesLt_irrefl] at h
  exact Bool.false_ne_true h

theorem dictInsert_fresh (k : Bytes) (v : Option Bytes)
    (d : List (Bytes × Option Bytes)) (h : ∀ q ∈ d, q.1 ≠ k) :
    dictInsert k v d = d ++ [(k, v)] := by
  induction d with
  | nil => rfl
  | cons q rest ih =>
      have hq : q.1 ≠ k := h q (List.mem_cons_self q rest)
      have ihr := ih (fun x hx => h x (List.mem_cons_of_mem q hx))
      cases q with
      | mk k2 v2 => simp [dictInsert, hq, ihr]

theorem sortedInsert_front (x : Bytes × Option Bytes)
    (l : List (Bytes × Option Bytes)) (h : ∀ y ∈ l, bytesLt x.1 y.1 = true) :
    sortedInsert x l = x :: l := by
  cases l with
  | nil => rfl
  | cons y ys => simp [sortedInsert, h y (List.mem_cons_self y ys)]

theorem sortProps_id (ps : List (Bytes × Option Bytes))
    (h : propsPairwiseB ps = true) : sortProps ps = ps := by
  induction ps with
  | nil => rfl
  | cons p rest ih =>
      obtain ⟨h1, h2⟩ : rest.all (fun q => bytesLt p.1 q.1) = true ∧
          propsPairwiseB rest = true := by
        simpa [propsPairwiseB, Bool.and_eq_true] using h
      rw [sortProps, ih h2, sortedInsert_front p rest
        (fun y hy => by simpa using List.all_eq_true.mp h1 y hy)]

theorem propsLoop_eq (fuel : Nat) (acc : List (Bytes × Option Bytes)) :
    propsLoop (fuel + 1) acc = getProperty >>= fun o =>
      match o with
      | some nv => propsLoop fuel (dictInsert nv.1 nv.2 acc)
      | none => pure acc := rfl

theorem propsLoop_full (ps : List (Bytes × Option Bytes))
    (hps : ∀ p ∈ ps, WFprop p = true) (hsorted : propsPairwiseB ps = true) :
    ∀ (fuel : Nat) (acc : List (Bytes × Option Bytes)) (st : PState) (rest : Bytes),
      ps.length + 1 ≤ fuel →
      (∀ p ∈ ps, ∀ q ∈ acc, q.1 ≠ p.1) →
      offers st (propLines ps ++ rest) →
      (rest = [] ∨ ∃ l r2, rest = l ++ 10 :: r2 ∧ (∀ b ∈ l, b ≠ 10) ∧
        bstarts l (bs "property ") = false) →
      ∃ st2, propsLoop fuel acc st = .ok (acc ++ ps) st2 ∧ offers st2 rest ∧
        st2.features = st.features := by
  induction ps with
  | nil =>
      intro fuel acc st rest hf hfr ho hrest
      cases fuel with
      | zero => omega
      | succ f =>
          rw [show propLines [] ++ rest = rest from by simp [propLines]] at ho
          rcases hrest with hrest | ⟨l, r2, hre, hl10, hnm⟩
          · subst hrest
            obtain ⟨hb, hi⟩ : st.buf = [] ∧ st.input = [] := by
              rcases ho with ⟨hb, hi⟩ | ⟨l, st1, _, _, _, hX⟩
              · exact ⟨hb, hi⟩
              · exact absurd hX (by simp)
            have hnl := offers_eof ho
            refine ⟨{ st with buf := [], lineno := st.lineno + 1 }, ?_,
              Or.inl ⟨rfl, hi⟩, rfl⟩
            rw [propsLoop_eq, M_bind_apply, getProperty_eof _ _ hnl]
            simp only []
            rw [M_pure_apply, List.append_nil]
          · have hrd := offers_read ho hre hl10
            have hga := getProperty_absent _ _ l hrd hnm
            refine ⟨pushSt l { st with buf := [], input := r2, lineno := st.lineno + 1 }, ?_, ?_, rfl⟩
            · rw [propsLoop_eq, M_bind_apply, hga]
              simp only []
              rw [M_pure_apply, List.append_nil]
            · rw [hre]
              exact offers_pushSt l _ rfl hl10
  | cons p ps ih =>
      intro fuel acc st rest hf hfr ho hrest
      cases fuel with
      | zero => omega
      | succ f =>
          have hwp := hps p (List.mem_cons_self p ps)
          obtain ⟨⟨body, hbody⟩, hno10⟩ := propLine_shape p hwp
          rw [show propLines (p :: ps) ++ rest =
            format_property p.1 p.2 ++ 10 :: (propLines ps ++ rest) from by
              simp [propLines, propLine, List.append_assoc]] at ho
          have hrd := offers_read ho rfl hno10
          obtain ⟨hn10a, hn32a, _⟩ : allNot p.1 10 = true ∧ allNot p.1 32 = true ∧
              (match p.2 with | none => true | some v => allNot v 10) = true := by
            simpa [WFprop, Bool.and_eq_true, and_assoc] using hwp
          have hn32 := allNot_iff.mp hn32a
          have hgp : getProperty st = .ok (some (p.1, p.2))
              { st with buf := [], input := propLines ps ++ rest, lineno := st.lineno + 1 } := by
            rcases hv : p.2 with _ | v
            · rw [show format_property p.1 p.2 = bs "property " ++ p.1 from by
                rw [hv]; rfl] at hrd
              exact getProperty_noval _ _ p.1 hrd hn32
            · rw [show format_property p.1 p.2 = bs "property " ++
                (p.1 ++ 32 :: (natToBytes v.length ++ 32 :: v)) from by
                  rw [hv]
                  simp [format_property, List.append_assoc]] at hrd
              exact getProperty_val _ _ p.1 v hrd hn32
          have hins : dictInsert p.1 p.2 acc = acc ++ [p] := by
            rw [dictInsert_fresh p.1 p.2 acc
              (fun q hq => hfr p (List.mem_cons_self p ps) q hq)]
          obtain ⟨hall, hsrt⟩ : ps.all (fun q => bytesLt p.1 q.1) = true ∧
              propsPairwiseB ps = true := by
            simpa [propsPairwiseB, Bool.and_eq_true] using hsorted
          obtain ⟨st2, heq2, ho2, hfe2⟩ :=
            ih (fun x hx => hps x (List.mem_cons_of_mem p hx)) hsrt f (acc ++ [p])
              { st with buf := [], input := propLines ps ++ rest, lineno := st.lineno + 1 }
              rest (by simp at hf; omega)
              (by
                intro q hq r hr
                rcases List.mem_append.mp hr with hr | hr
                · exact hfr q (List.mem_cons_of_mem p hq) r hr
                · rcases List.mem_singleton.mp hr with rfl
                  exact bytesLt_ne (by simpa using List.all_eq_true.mp hall q hq))
              (offers_raw _ rfl) hrest
          refine ⟨st2, ?_, ho2, hfe2⟩
          rw [propsLoop_eq, M_bind_apply, hgp]
          simp only []
          rw [hins, heq2]
          simp [List.append_assoc]

theorem moreAuthorsLoop_eq (fuel : Nat) (acc : List Authorship) :
    moreAuthorsLoop (fuel + 1) acc =
      getUserInfoOpt (bs "commit") (bs "author") false >>= fun o =>
        match o with
        | some a => moreAuthorsLoop fuel (a :: acc)
        | none => pure acc.reverse := rfl

theorem moreAuthorsLoop_full (l : List Authorship) (hl : ∀ a ∈ l, WFauth a = true) :
    ∀ (fuel : Nat) (acc : List Authorship) (st : PState) (rest : Bytes),
      l.length + 1 ≤ fuel →
      st.dateFmt = some DateFmt.raw →
      offers st (authorLines l ++ rest) →
      (∃ lr r2, rest = lr ++ 10 :: r2 ∧ (∀ b ∈ lr, b ≠ 10) ∧
        bstarts lr (bs "author" ++ [32]) = false) →
      ∃ st2, moreAuthorsLoop fuel acc st = .ok (acc.reverse ++ l) st2 ∧
        offers st2 rest ∧ st2.features = st.features ∧
        st2.dateFmt = some DateFmt.raw := by
  induction l with
  | nil =>
      intro fuel acc st rest hf hdf ho hrest
      cases fuel with
      | zero => omega
      | succ f =>
          rw [show authorLines [] ++ rest = rest from by simp [authorLines]] at ho
          obtain ⟨lr, r2, hre, hl10, hnm⟩ := hrest
          have hrd := offers_read ho hre hl10
          have hga := getUserInfoOpt_absent (bs "commit") (bs "author") false _ _
            lr hrd hnm
          refine ⟨pushSt lr { st with buf := [], input := r2, lineno := st.lineno + 1 }, ?_, ?_, rfl, hdf⟩
          · rw [moreAuthorsLoop_eq, M_bind_apply, hga]
            simp only []
            rw [M_pure_apply, List.append_nil]
          · rw [hre]
            exact offers_pushSt lr _ rfl hl10
  | cons a l ih =>
      intro fuel acc st rest hf hdf ho hrest
      cases fuel with
      | zero => omega
      | succ f =>
          have hwa := hl a (List.mem_cons_self a l)
          rw [show authorLines (a :: l) ++ rest =
            ((bs "author" ++ [32]) ++ format_who_when a) ++ 10 ::
              (authorLines l ++ rest) from by
                simp [authorLines, authorLine, List.append_assoc]
                rfl] at ho
          have hl10 : ∀ b ∈ (bs "author" ++ [32]) ++ format_who_when a, b ≠ 10 :=
            no10_append (by decide) (fww_no10 a hwa)
          have hrd := offers_read ho rfl hl10
          have hgp := getUserInfoOpt_present (bs "commit") (bs "author") false _ _
            a hrd hwa (Or.inr hdf)
          obtain ⟨st2, heq2, ho2, hfe2, hdf2⟩ :=
            ih (fun x hx => hl x (List.mem_cons_of_mem a hx)) f (a :: acc)
              { { st with buf := [], input := authorLines l ++ rest, lineno := st.lineno + 1 } with dateFmt := some DateFmt.raw }
              rest (by simp at hf; omega) rfl (offers_raw _ rfl) hrest
          refine ⟨st2, ?_, ho2, hfe2, hdf2⟩
          rw [moreAuthorsLoop_eq, M_bind_apply, hgp]
          simp only []
          rw [heq2]
          simp [List.append_assoc]

/-! ## Serialized commit shape -/

theorem toBytes_isSome (op : FileCommand) (h : WFfile op = true) :
    (FileCommand.toBytes op).isSome = true := by
  cases op with
  | modify m =>
      have hsplit := h
      simp only [WFfile, Bool.and_eq_true] at hsplit
      obtain ⟨hp, hx⟩ := hsplit
      by_cases hSd : S_ISDIR m.mode = true
      · rw [if_pos hSd] at hx
        obtain ⟨hm40, hdrq, hdq⟩ : m.mode = 0o40000 ∧ m.dataref = some (bs "-") ∧
            m.data = none := by
          simpa [Bool.and_eq_true, and_assoc, beq_iff_eq] using hx
        show (FileModifyCommand.toBytes m).isSome = true
        unfold FileModifyCommand.toBytes
        rw [hm40]
        rfl
      · rw [if_neg hSd] at hx
        obtain ⟨hmodes, hmatch⟩ := by
          simp only [Bool.and_eq_true] at hx
          exact hx
        have hm4 : m.mode = 0o100644 ∨ m.mode = 0o100755 ∨ m.mode = 0o120000 ∨
            m.mode = 0o160000 := by
          simpa [Bool.or_eq_true, beq_iff_eq, or_assoc] using hmodes
        obtain ⟨ms, hfm, _, hSdf, _⟩ := mode_roundtrip m.mode hm4
        rcases hdr : m.dataref with _ | r <;> rcases hd : m.data with _ | d <;>
          rw [hdr, hd] at hmatch
        · simp at hmatch
        · show (FileModifyCommand.toBytes m).isSome = true
          unfold FileModifyCommand.toBytes
          rw [hfm, hSdf, hdr, hd]
          rfl
        · show (FileModifyCommand.toBytes m).isSome = true
          unfold FileModifyCommand.toBytes
          rw [hfm, hSdf, hdr]
          rfl
        · simp at hmatch
  | delete p => rfl
  | rename o n => rfl
  | copy o n => rfl
  | deleteall => rfl
  | notemodify nc => rfl

theorem mapM_files (ops : List FileCommand) (h : ∀ op ∈ ops, WFfile op = true) :
    ops.mapM FileCommand.toBytes =
      some (ops.map (fun op => (FileCommand.toBytes op).getD [])) := by
  induction ops with
  | nil => rfl
  | cons op rest ih =>
      obtain ⟨pb, hpb⟩ := Option.isSome_iff_exists.mp
        (toBytes_isSome op (h op (List.mem_cons_self op rest)))
      have ihr := ih (fun x hx => h x (List.mem_cons_of_mem op hx))
      rw [List.mapM_cons, hpb, ihr]
      simp [hpb]

theorem mapM_loop_files (ops : List FileCommand) (h : ∀ op ∈ ops, WFfile op = true) :
    ∀ acc, List.mapM.loop FileCommand.toBytes ops acc =
      some (acc.reverse ++ ops.map (fun op => (FileCommand.toBytes op).getD [])) := by
  induction ops with
  | nil =>
      intro acc
      simp [List.mapM.loop]
  | cons op rest ih =>
      intro acc
      obtain ⟨pb, hpb⟩ := Option.isSome_iff_exists.mp
        (toBytes_isSome op (h op (List.mem_cons_self op rest)))
      have ihr := ih (fun x hx => h x (List.mem_cons_of_mem op hx))
      simp [List.mapM.loop, hpb, ihr]

/-- The author section expression of `CommitCommand.to_string`. -/
def authorSection (c : CommitCommand) : Bytes :=
  match c.author with
  | none => []
  | some a =>
      (10 :: (bs "author " ++ format_who_when a)) ++
        (match c.more_authors with
         | none => []
         | some more => (more.map (fun a2 => 10 :: (bs "author " ++ format_who_when a2))).flatten)

def fromLineOf : Option Bytes → Bytes
  | none => []
  | some f => 10 :: (bs "from " ++ f)

theorem commit_toBytes_eval (c : CommitCommand) (m5 : Bytes) (ms : List Bytes)
    (ps : List (Bytes × Option Bytes)) (ops : List FileCommand)
    (hmsg : c.message = some m5) (hmrg : c.merges = some ms)
    (hpr : c.properties = some ps) (hfi : c.file_iter = some ops)
    (hops : ∀ op ∈ ops, WFfile op = true) (hsorted : propsPairwiseB ps = true) :
    CommitCommand.toBytes c = some (bs "commit " ++ c.ref ++ markLineOf c.mark ++
      (authorSection c ++ [10]) ++ (bs "committer " ++ format_who_when c.committer) ++
      ((10 :: (bs "data " ++ natToBytes m5.length)) ++ [10] ++ m5) ++
      fromLineOf c.from_ ++ (ms.map (fun m => 10 :: (bs "merge " ++ m))).flatten ++
      (ps.map (fun p => 10 :: format_property p.1 p.2)).flatten ++
      ((ops.map (fun op => (FileCommand.toBytes op).getD [])).map
        (fun p => 10 :: p)).flatten) := by
  unfold CommitCommand.toBytes
  rw [hmsg, hmrg, hpr, hfi]
  by_cases hpe : ps = []
  · subst hpe
    simp [authorSection, fromLineOf, mapM_loop_files ops hops, Function.comp_def]
  · simp [authorSection, fromLineOf, mapM_loop_files ops hops,
      sortProps_id ps hsorted, hpe, Function.comp_def]

theorem commit_toBytes_shape (c : CommitCommand) (hwf : WFcommit c = true) :
    ∃ sb, CommitCommand.toBytes c = some sb ∧
      sb ++ [10] = bs "commit " ++ c.ref ++ 10 :: commitBody c := by
  simp only [WFcommit, Bool.and_eq_true] at hwf
  obtain ⟨⟨⟨⟨⟨⟨⟨⟨h1, h2⟩, h3⟩, h4⟩, h5⟩, h6⟩, h7⟩, h8⟩, h9⟩ := hwf
  rcases hmsg : c.message with _ | m5
  · rw [hmsg] at h5
    simp at h5
  rcases hmrg : c.merges with _ | ms
  · rw [hmrg] at h7
    simp at h7
  rcases hpr : c.properties with _ | ps
  · rw [hpr] at h8
    simp at h8
  rcases hfi : c.file_iter with _ | ops
  · rw [hfi] at h9
    simp at h9
  rw [hfi] at h9
  rw [hpr] at h8
  have hops : ∀ op ∈ ops, WFfile op = true := fun op hop => by
    have h9b : ops.all WFfile = true := by simpa using h9
    simpa using List.all_eq_true.mp h9b op hop
  obtain ⟨hps, hsorted⟩ : ps.all WFprop = true ∧ propsPairwiseB ps = true := by
    simpa [Bool.and_eq_true] using h8
  have heval := commit_toBytes_eval c m5 ms ps ops hmsg hmrg hpr hfi hops hsorted
  refine ⟨_, heval, ?_⟩
  rcases hmk : c.mark with _ | mkv
  · rcases hau : c.author with _ | a
    · have hmore : c.more_authors = some [] := by
        rw [hau] at h3
        simpa using h3
      rcases hfr : c.from_ with _ | fv <;>
        simp [commitBody, markSfx, authorsSfx, authorLines, authorLine, dataSfx,
          msgSfx, fromSfx, mergesSfx, mergeLines, propsSfx, propLines, propLine,
          filesSfx, fileSfx, hmk, hau, hmore, hfr, hmsg, hmrg, hpr, hfi,
          markLineOf, authorSection, fromLineOf, shiftLF, List.append_assoc,
          Function.comp_def]
    · rw [hau] at h3
      rcases hmo : c.more_authors with _ | mo
      · rw [hmo] at h3
        simp at h3
      · rcases hfr : c.from_ with _ | fv <;>
          simp [commitBody, markSfx, authorsSfx, authorLines, authorLine, dataSfx,
            msgSfx, fromSfx, mergesSfx, mergeLines, propsSfx, propLines, propLine,
            filesSfx, fileSfx, hmk, hau, hmo, hfr, hmsg, hmrg, hpr, hfi,
            markLineOf, authorSection, fromLineOf, shiftLF, List.append_assoc,
            Function.comp_def]
  · rcases mkv with mk | n
    · rcases hau : c.author with _ | a
      · have hmore : c.more_authors = some [] := by
          rw [hau] at h3
          simpa using h3
        rcases hfr : c.from_ with _ | fv <;>
          simp [commitBody, markSfx, authorsSfx, authorLines, authorLine, dataSfx,
            msgSfx, fromSfx, mergesSfx, mergeLines, propsSfx, propLines, propLine,
            filesSfx, fileSfx, hmk, hau, hmore, hfr, hmsg, hmrg, hpr, hfi,
            markLineOf, authorSection, fromLineOf, shiftLF, List.append_assoc,
            Function.comp_def]
      · rw [hau] at h3
        rcases hmo : c.more_authors with _ | mo
        · rw [hmo] at h3
          simp at h3
        · rcases hfr : c.from_ with _ | fv <;>
            simp [commitBody, markSfx, authorsSfx, authorLines, authorLine, dataSfx,
              msgSfx, fromSfx, mergesSfx, mergeLines, propsSfx, propLines, propLine,
              filesSfx, fileSfx, hmk, hau, hmo, hfr, hmsg, hmrg, hpr, hfi,
              markLineOf, authorSection, fromLineOf, shiftLF, List.append_assoc,
              Function.comp_def]
    · rw [hmk] at h2
      simp [WFmark] at h2

/-! ## Glue for the commit assembly -/

theorem flatten_len_ge {α : Type} (g : α → Bytes) (xs : List α)
    (h : ∀ x ∈ xs, 1 ≤ (g x).length) :
    xs.length ≤ ((xs.map (fun x => g x)).flatten).length := by
  induction xs with
  | nil => simp
  | cons x r ih =>
      simp only [List.map_cons, List.flatten_cons, List.length_append, List.length_cons]
      have h1 := h x (List.mem_cons_self x r)
      have h2 := ih (fun y hy => h y (List.mem_cons_of_mem x hy))
      omega

/-- The mark bytes the parser recovers. -/
def markBytesOf : Option MarkVal → Option Bytes
  | none => none
  | some (.bytes m) => some m
  | some (.int n) => some (natToBytes n)

theorem markBytesOf_map (mk : Option MarkVal) (h : WFmark mk = true) :
    (markBytesOf mk).map MarkVal.bytes = mk := by
  rcases mk with _ | mkv
  · rfl
  · rcases mkv with m | n
    · rfl
    · simp [WFmark] at h

theorem lineShape_rest (X : Bytes) (hs : List Nat) (c0 : Nat) (pre : Bytes)
    (h : lineShape X hs) (hn : c0 ∉ hs) :
    X = [] ∨ ∃ l r2, X = l ++ 10 :: r2 ∧ (∀ b ∈ l, b ≠ 10) ∧
      bstarts l (c0 :: pre) = false := by
  rcases h with h | ⟨l, rest, h0, he, hl, hh, hhd⟩
  · exact Or.inl h
  · right
    cases l with
    | nil => simp at hhd
    | cons a t =>
        have ha : a = h0 := by simpa using hhd
        subst ha
        exact ⟨a :: t, rest, he, hl,
          bstarts_cons_ne _ _ (fun he2 => hn (he2 ▸ hh))⟩

theorem getFrom_run (fo : Option Bytes) (st : PState) (T1 : Bytes)
    (hb : st.buf = []) (hi : st.input = fromSfx fo ++ T1)
    (hf10 : ∀ f, fo = some f → ∀ b ∈ f, b ≠ 10)
    (hrest : T1 = [] ∨ ∃ l r2, T1 = l ++ 10 :: r2 ∧ (∀ b ∈ l, b ≠ 10) ∧
      bstarts l (bs "from ") = false) :
    ∃ st2, getFrom none st = .ok fo st2 ∧ offers st2 T1 ∧
      st2.features = st.features := by
  rcases fo with _ | f
  · rw [show fromSfx none ++ T1 = T1 from by simp [fromSfx]] at hi
    rcases hrest with hrest | ⟨l, r2, hre, hl10, hnm⟩
    · subst hrest
      have hnl := nextLine_eof st hb hi
      refine ⟨{ st with lineno := st.lineno + 1 }, getFrom_eof st _ hnl, ?_, rfl⟩
      exact Or.inl ⟨hb, hi⟩
    · have hrd := offers_read (hi ▸ offers_raw st hb) hre hl10
      refine ⟨_, getFrom_absent st _ l hrd hnm, ?_, rfl⟩
      rw [hre]
      exact offers_pushSt l _ rfl hl10
  · have hi2 : st.input = (bs "from " ++ f) ++ 10 :: T1 := by
      rw [hi]
      simp [fromSfx, List.append_assoc]
    have hl10 : ∀ b ∈ bs "from " ++ f, b ≠ 10 :=
      no10_append (by decide) (hf10 f rfl)
    have hrd := offers_read (offers_raw st hb) hi2 hl10
    exact ⟨_, getFrom_present none st _ f hrd, offers_raw _ rfl, rfl⟩

theorem getMark_run (mk : Option MarkVal) (hmk : WFmark mk = true) (st : PState)
    (T : Bytes) (hb : st.buf = []) (hi : st.input = markSfx mk ++ T)
    (hrest : ∃ l r2, T = l ++ 10 :: r2 ∧ (∀ b ∈ l, b ≠ 10) ∧
      bstarts l (bs "mark :") = false) :
    ∃ st2, getMarkIfAny st = .ok (markBytesOf mk) st2 ∧ offers st2 T ∧
      st2.features = st.features ∧ st2.dateFmt = st.dateFmt := by
  rcases mk with _ | mkv
  · rw [show markSfx none ++ T = T from by simp [markSfx]] at hi
    obtain ⟨l, r2, hre, hl10, hnm⟩ := hrest
    have hrd := offers_read (hi ▸ offers_raw st hb) hre hl10
    refine ⟨_, getMarkIfAny_absent st _ l hrd hnm, ?_, rfl, rfl⟩
    rw [hre]
    exact offers_pushSt l _ rfl hl10
  · rcases mkv with m | n
    · have hm10 : ∀ b ∈ m, b ≠ 10 := by
        simpa [WFmark, allNot_iff] using hmk
      have hi2 : st.input = (bs "mark :" ++ m) ++ 10 :: T := by
        rw [hi]
        simp [markSfx, List.append_assoc]
      have hl10 : ∀ b ∈ bs "mark :" ++ m, b ≠ 10 :=
        no10_append (by decide) hm10
      have hrd := offers_read (offers_raw st hb) hi2 hl10
      exact ⟨_, getMarkIfAny_present st _ m hrd, offers_raw _ rfl, rfl, rfl⟩
    · simp [WFmark] at hmk

theorem moreAuthorsLoop_none (fuel : Nat) (acc : List Authorship) (st st1 : PState)
    (lr : Bytes) (hrd : nextLine st = .ok (some lr) st1)
    (hnm : bstarts lr (bs "author" ++ [32]) = false) :
    moreAuthorsLoop (fuel + 1) acc st = .ok acc.reverse (pushSt lr st1) := by
  rw [moreAuthorsLoop_eq, M_bind_apply,
    getUserInfoOpt_absent (bs "commit") (bs "author") false st st1 lr hrd hnm]
  simp only []
  rw [M_pure_apply]

theorem fileSfx_shape (op : FileCommand) (hop : WFfile op = true) :
    lineShape (fileSfx op) [77, 68, 82, 67, 100] := by
  cases op with
  | modify m =>
      have hsplit := hop
      simp only [WFfile, Bool.and_eq_true] at hsplit
      obtain ⟨hp, hx⟩ := hsplit
      obtain ⟨h10, hne, hs, hq⟩ := WFpath_parts hp
      by_cases hSd : S_ISDIR m.mode = true
      · rw [if_pos hSd] at hx
        obtain ⟨hm40, hdrq, hdq⟩ : m.mode = 0o40000 ∧ m.dataref = some (bs "-") ∧
            m.data = none := by
          simpa [Bool.and_eq_true, and_assoc, beq_iff_eq] using hx
        have htb : FileCommand.toBytes (.modify m) =
            some (bs "M " ++ (bs "040000" ++ 32 :: ([45] ++ 32 :: m.path))) := by
          show FileModifyCommand.toBytes m = _
          unfold FileModifyCommand.toBytes
          rw [hm40]
          simp [show formatMode 0o40000 = some (bs "040000") from rfl,
            show S_ISDIR 0o40000 = true from rfl,
            show format_path m.path false = m.path from format_path_id m.path h10 hq,
            List.append_assoc]
        refine Or.inr ⟨bs "M " ++ (bs "040000" ++ 32 :: ([45] ++ 32 :: m.path)), [],
          77, by simp [fileSfx, htb], ?_, by simp, by rfl⟩
        exact no10_append (by decide) (no10_append (by decide) (no10_cons (by omega)
          (no10_append (by decide) (no10_cons (by omega) h10))))
      · rw [if_neg hSd] at hx
        obtain ⟨hmodes, hmatch⟩ := by
          simp only [Bool.and_eq_true] at hx
          exact hx
        have hm4 : m.mode = 0o100644 ∨ m.mode = 0o100755 ∨ m.mode = 0o120000 ∨
            m.mode = 0o160000 := by
          simpa [Bool.or_eq_true, beq_iff_eq, or_assoc] using hmodes
        obtain ⟨ms, hfm, hms, hSdf, _⟩ := mode_roundtrip m.mode hm4
        have hms10 : ∀ b ∈ ms, b ≠ 10 := fun b hb => (hms b hb).2
        rcases hdr : m.dataref with _ | r <;> rcases hd : m.data with _ | d <;>
          rw [hdr, hd] at hmatch
        · simp at hmatch
        · have htb : FileCommand.toBytes (.modify m) =
              some ((bs "M " ++ (ms ++ 32 :: (bs "inline" ++ 32 :: m.path))) ++ 10 ::
                ((bs "data " ++ natToBytes d.length) ++ 10 :: d)) := by
            show FileModifyCommand.toBytes m = _
            unfold FileModifyCommand.toBytes
            simp [hfm, hSdf, hdr, hd,
              show format_path m.path false = m.path from format_path_id m.path h10 hq,
              List.append_assoc]
          refine Or.inr ⟨bs "M " ++ (ms ++ 32 :: (bs "inline" ++ 32 :: m.path)),
            ((bs "data " ++ natToBytes d.length) ++ 10 :: d) ++ [10],
            77, by simp [fileSfx, htb, List.append_assoc], ?_, by simp, by rfl⟩
          exact no10_append (by decide) (no10_append hms10 (no10_cons (by omega)
            (no10_append (by decide) (no10_cons (by omega) h10))))
        · obtain ⟨hr10, _, _⟩ : allNot r 10 = true ∧ allNot r 32 = true ∧
              (r == bs "inline") = false := by
            simpa [Bool.and_eq_true, and_assoc] using hmatch
          have htb : FileCommand.toBytes (.modify m) =
              some (bs "M " ++ (ms ++ 32 :: (r ++ 32 :: m.path))) := by
            show FileModifyCommand.toBytes m = _
            unfold FileModifyCommand.toBytes
            simp [hfm, hSdf, hdr,
              show format_path m.path false = m.path from format_path_id m.path h10 hq,
              List.append_assoc]
          refine Or.inr ⟨bs "M " ++ (ms ++ 32 :: (r ++ 32 :: m.path)), [],
            77, by simp [fileSfx, htb], ?_, by simp, by rfl⟩
          exact no10_append (by decide) (no10_append hms10 (no10_cons (by omega)
            (no10_append (allNot_iff.mp hr10) (no10_cons (by omega) h10))))
        · simp at hmatch
  | delete p =>
      have hp : WFpath p = true := by simpa [WFfile] using hop
      obtain ⟨h10, hne, hs, hq⟩ := WFpath_parts hp
      refine Or.inr ⟨bs "D " ++ p, [], 68,
        by simp [fileSfx, FileCommand.toBytes, format_path_id p h10 hq], ?_,
        by simp, by rfl⟩
      exact no10_append (by decide) h10
  | rename o n =>
      obtain ⟨ho2, hn2⟩ : WFpath2 o = true ∧ WFpath2 n = true := by
        simpa [WFfile, Bool.and_eq_true] using hop
      obtain ⟨hopth, ho32, _, _⟩ := WFpath2_parts ho2
      obtain ⟨hnpth, _, _, _⟩ := WFpath2_parts hn2
      obtain ⟨ho10, _, _, hoq⟩ := WFpath_parts hopth
      obtain ⟨hn10, _, _, hnq⟩ := WFpath_parts hnpth
      refine Or.inr ⟨bs "R " ++ (o ++ 32 :: n), [], 82,
        by simp [fileSfx, FileCommand.toBytes, format_path_id_q o ho10 hoq ho32,
          format_path_id n hn10 hnq, List.append_assoc], ?_, by simp, by rfl⟩
      exact no10_append (by decide) (no10_append ho10 (no10_cons (by omega) hn10))
  | copy o n =>
      obtain ⟨ho2, hn2⟩ : WFpath2 o = true ∧ WFpath2 n = true := by
        simpa [WFfile, Bool.and_eq_true] using hop
      obtain ⟨hopth, ho32, _, _⟩ := WFpath2_parts ho2
      obtain ⟨hnpth, _, _, _⟩ := WFpath2_parts hn2
      obtain ⟨ho10, _, _, hoq⟩ := WFpath_parts hopth
      obtain ⟨hn10, _, _, hnq⟩ := WFpath_parts hnpth
      refine Or.inr ⟨bs "C " ++ (o ++ 32 :: n), [], 67,
        by simp [fileSfx, FileCommand.toBytes, format_path_id_q o ho10 hoq ho32,
          format_path_id n hn10 hnq, List.append_assoc], ?_, by simp, by rfl⟩
      exact no10_append (by decide) (no10_append ho10 (no10_cons (by omega) hn10))
  | deleteall =>
      exact Or.inr ⟨bs "deleteall", [], 100, by simp [fileSfx, FileCommand.toBytes],
        by decide, by simp, by rfl⟩
  | notemodify nc =>
      simp [WFfile] at hop

theorem lineShape_filesSfx (ops : List FileCommand)
    (hops : ∀ op ∈ ops, WFfile op = true) :
    lineShape (filesSfx ops) [77, 68, 82, 67, 100] :=
  lineShape_flatten _ ops _ (fun op hop => fileSfx_shape op (hops op hop))

/-- The serialized author section, by author and extra-author values. -/
def authorsSfxOf : Option Authorship → List Authorship → Bytes
  | none, _ => []
  | some a, more => authorLine a ++ authorLines more

theorem authors_run (author : Option Authorship) (more : List Authorship)
    (hwa : ∀ a, author = some a → WFauth a = true)
    (hmo : ∀ x ∈ more, WFauth x = true) (hmoE : author = none → more = [])
    (fuel : Nat) (st : PState) (CM : Bytes)
    (ho : offers st (authorsSfxOf author more ++ CM))
    (hCM : ∃ l r2, CM = l ++ 10 :: r2 ∧ (∀ b ∈ l, b ≠ 10) ∧
      bstarts l (bs "author" ++ [32]) = false)
    (hdf : st.dateFmt = none ∨ st.dateFmt = some DateFmt.raw)
    (hfuel : more.length + 1 ≤ fuel) :
    ∃ st2 st3, getUserInfoOpt (bs "commit") (bs "author") false st = .ok author st2 ∧
      moreAuthorsLoop fuel [] st2 = .ok more st3 ∧ offers st3 CM ∧
      st3.features = st.features ∧
      (st3.dateFmt = st.dateFmt ∨ st3.dateFmt = some DateFmt.raw) := by
  obtain ⟨cl, r2, hre, hcl10, hnm⟩ := hCM
  rcases author with _ | a
  · have hmoE2 := hmoE rfl
    subst hmoE2
    rw [show authorsSfxOf none [] ++ CM = CM from by simp [authorsSfxOf]] at ho
    have hrd := offers_read ho hre hcl10
    have hga := getUserInfoOpt_absent (bs "commit") (bs "author") false _ _ cl hrd hnm
    cases fuel with
    | zero => omega
    | succ f =>
        refine ⟨_, pushSt cl { st with buf := [], input := r2, lineno := st.lineno + 1 },
          hga, ?_, ?_, rfl, Or.inl rfl⟩
        · simpa using moreAuthorsLoop_none f []
            (pushSt cl { st with buf := [], input := r2, lineno := st.lineno + 1 })
            { st with buf := [], input := r2, lineno := st.lineno + 1 }
            cl (nextLine_push cl _) hnm
        · rw [hre]
          exact offers_pushSt cl { st with buf := [], input := r2, lineno := st.lineno + 1 } rfl hcl10
  · have hwa2 := hwa a rfl
    rw [show authorsSfxOf (some a) more ++ CM =
      ((bs "author" ++ [32]) ++ format_who_when a) ++ 10 ::
        (authorLines more ++ CM) from by
          simp [authorsSfxOf, authorLine, List.append_assoc]
          rfl] at ho
    have hl10 : ∀ b ∈ (bs "author" ++ [32]) ++ format_who_when a, b ≠ 10 :=
      no10_append (by decide) (fww_no10 a hwa2)
    have hrd := offers_read ho rfl hl10
    have hgp := getUserInfoOpt_present (bs "commit") (bs "author") false _ _ a
      hrd hwa2 hdf
    obtain ⟨st3, heq3, ho3, hfe3, hdf3⟩ := moreAuthorsLoop_full more hmo fuel []
      { { st with buf := [], input := authorLines more ++ CM, lineno := st.lineno + 1 } with dateFmt := some DateFmt.raw }
      CM hfuel rfl (offers_raw _ rfl) ⟨cl, r2, hre, hcl10, hnm⟩
    refine ⟨_, st3, hgp, ?_, ho3, hfe3, Or.inr hdf3⟩
    simpa using heq3

theorem parseCommit_eq (fuel : Nat) (ref : Bytes) :
    parseCommit fuel ref = getPS >>= fun st =>
      getMarkIfAny >>= fun mark =>
      getUserInfoOpt (bs "commit") (bs "author") false >>= fun author =>
      moreAuthorsLoop fuel [] >>= fun more =>
      getUserInfoReq (bs "commit") (bs "committer") false >>= fun committer =>
      getData (bs "commit") (bs "message") >>= fun message =>
      getFrom none >>= fun from_ =>
      mergesLoop fuel [] >>= fun merges =>
      propsLoop fuel [] >>= fun props =>
      fileCmdsLoop fuel [] >>= fun ops =>
      pure
        { ref := ref, mark := mark.map .bytes, author := author,
          committer := committer, message := some message, from_ := from_,
          merges := some merges, file_iter := some ops, more_authors := some more,
          properties := some props, lineno := st.lineno } := rfl

theorem parseCommit_roundtrip (c : CommitCommand) (hwf : WFcommit c = true)
    (fuel : Nat) (st : PState)
    (hb : st.buf = []) (hdf : st.dateFmt = none)
    (hi : st.input = commitBody c)
    (hfuel : (commitBody c).length + 1 ≤ fuel) :
    ∃ st2, parseCommit fuel c.ref st = .ok { c with lineno := st.lineno } st2 ∧
      st2.buf = [] ∧ st2.input = [] ∧ st2.features = st.features := by
  have hwf2 := hwf
  simp only [WFcommit, Bool.and_eq_true] at hwf2
  obtain ⟨⟨⟨⟨⟨⟨⟨⟨h1, h2⟩, h3⟩, h4⟩, h5⟩, h6⟩, h7⟩, h8⟩, h9⟩ := hwf2
  rcases hmsg : c.message with _ | m5
  · rw [hmsg] at h5
    simp at h5
  rcases hmrg : c.merges with _ | ms
  · rw [hmrg] at h7
    simp at h7
  rcases hpr : c.properties with _ | ps
  · rw [hpr] at h8
    simp at h8
  rcases hfi : c.file_iter with _ | ops
  · rw [hfi] at h9
    simp at h9
  rw [hfi] at h9
  rw [hpr] at h8
  rw [hmrg] at h7
  have hops : ∀ op ∈ ops, WFfile op = true := fun op hop => by
    have h9b : ops.all WFfile = true := by simpa using h9
    simpa using List.all_eq_true.mp h9b op hop
  obtain ⟨hps8, hsorted⟩ : ps.all WFprop = true ∧ propsPairwiseB ps = true := by
    simpa [Bool.and_eq_true] using h8
  have hpsW : ∀ p ∈ ps, WFprop p = true := fun p hp => by
    simpa using List.all_eq_true.mp hps8 p hp
  have hmsW : ∀ m ∈ ms, ∀ b ∈ m, b ≠ 10 ∧ b ≠ 32 := by
    intro m hm b hbm
    have h7b : ∀ x ∈ ms, allNot x 10 = true ∧ allNot x 32 = true := by simpa using h7
    obtain ⟨ha, hb2⟩ := h7b m hm
    exact ⟨allNot_iff.mp ha b hbm, allNot_iff.mp hb2 b hbm⟩
  have hauthor : ∀ a, c.author = some a → WFauth a = true := by
    intro a ha
    rw [ha] at h3
    simp only [Bool.and_eq_true] at h3
    exact h3.1
  obtain ⟨mo, hmo, hmoWF, hmoNil⟩ : ∃ mo, c.more_authors = some mo ∧
      (∀ x ∈ mo, WFauth x = true) ∧ (c.author = none → mo = []) := by
    rcases hau : c.author with _ | a
    · rw [hau] at h3
      have hmore : c.more_authors = some [] := by simpa using h3
      exact ⟨[], hmore, by simp, fun _ => rfl⟩
    · rw [hau] at h3
      rcases hmo2 : c.more_authors with _ | mo
      · rw [hmo2] at h3
        simp at h3
      · rw [hmo2] at h3
        obtain ⟨_, hall⟩ := by
          simp only [Bool.and_eq_true] at h3
          exact h3
        refine ⟨mo, rfl, fun x hx => by simpa using List.all_eq_true.mp hall x hx,
          fun habs => by simp [hau] at habs⟩
  have hASfx : authorsSfx c = authorsSfxOf c.author mo := by
    rcases hau : c.author with _ | a
    · simp [authorsSfx, authorsSfxOf, hau]
    · simp [authorsSfx, authorsSfxOf, hau, hmo]
  -- fuel bounds
  have hlenMS : ms.length ≤ (mergesSfx c.merges).length := by
    rw [hmrg]
    exact flatten_len_ge _ ms (fun m hm => by simp; try omega)
  have hlenPS : ps.length ≤ (propsSfx c.properties).length := by
    rw [hpr]
    exact flatten_len_ge _ ps (fun p hp => by simp [propLine]; try omega)
  have hlenOPS : ops.length ≤ (filesSfx (c.file_iter.getD [])).length := by
    rw [hfi]
    exact flatten_len_ge _ ops (fun op hop => by simp [fileSfx]; try omega)
  have hlenTot : (markSfx c.mark).length + (authorsSfx c).length +
      (bs "committer " ++ format_who_when c.committer ++ [10]).length +
      (msgSfx c.message).length + (fromSfx c.from_).length +
      (mergesSfx c.merges).length + (propsSfx c.properties).length +
      (filesSfx (c.file_iter.getD [])).length = (commitBody c).length := by
    simp [commitBody, List.length_append]
    omega
  have hbMS : ms.length + 1 ≤ fuel := by omega
  have hbPS : ps.length + 1 ≤ fuel := by omega
  have hbOPS : ops.length + 1 ≤ fuel := by omega
  have hbMO : mo.length + 1 ≤ fuel := by
    rcases hau : c.author with _ | a
    · rw [hmoNil hau]
      simp
      omega
    · have h1m : mo.length ≤ (authorsSfx c).length := by
        rw [hASfx, hau]
        refine le_trans (flatten_len_ge (fun x => authorLine x) mo
          (fun x hx => by simp [authorLine]; try omega)) ?_
        show ((mo.map (fun x => authorLine x)).flatten).length ≤ _
        simp only [authorsSfxOf, authorLines, List.length_append]
        omega
      omega
  -- input decomposition
  have hi1 : st.input = markSfx c.mark ++ (authorsSfx c ++
      (((bs "committer" ++ [32]) ++ format_who_when c.committer) ++ 10 ::
        (((bs "data " ++ natToBytes m5.length)) ++ 10 :: (m5 ++ 10 ::
          (fromSfx c.from_ ++ (mergeLines ms ++ (propLines ps ++ filesSfx ops))))))) := by
    rw [hi]
    simp [commitBody, msgSfx, dataSfx, mergesSfx, propsSfx, hmsg, hmrg, hpr, hfi,
      List.append_assoc]
    rfl
  -- tail line shapes
  have hlsF := lineShape_filesSfx ops hops
  have hlsP := lineShape_propLines ps hpsW
  have hlsM := lineShape_mergeLines ms (fun m hm b hbm => (hmsW m hm b hbm).1)
  have hT3 := lineShape_rest (filesSfx ops) _ 112 (bs "roperty ") hlsF (by decide)
  have hT2shape : lineShape (propLines ps ++ filesSfx ops)
      [112, 77, 68, 82, 67, 100] :=
    lineShape_append (lineShape_mono (by decide) hlsP)
      (lineShape_mono (by decide) hlsF)
  have hT2 := lineShape_rest _ _ 109 (bs "erge ") hT2shape (by decide)
  have hT1shape : lineShape (mergeLines ms ++ (propLines ps ++ filesSfx ops))
      [109, 112, 77, 68, 82, 67, 100] :=
    lineShape_append (lineShape_mono (by decide) hlsM)
      (lineShape_mono (by decide) hT2shape)
  have hT1 := lineShape_rest _ _ 102 (bs "rom ") hT1shape (by decide)
  -- committer line facts
  have hCMl10 : ∀ b ∈ (bs "committer" ++ [32]) ++ format_who_when c.committer,
      b ≠ 10 := no10_append (by decide) (fww_no10 _ h4)
  have hCMnoAuthor : bstarts ((bs "committer" ++ [32]) ++ format_who_when c.committer)
      (bs "author" ++ [32]) = false := by
    rw [show (bs "committer" ++ [32]) ++ format_who_when c.committer =
      99 :: (bs "ommitter" ++ [32] ++ format_who_when c.committer) from by
        simp [List.append_assoc]
        rfl,
      show bs "author" ++ [32] = 97 :: (bs "uthor" ++ [32]) from by rfl]
    exact bstarts_cons_ne _ _ (by omega)
  have hCMnoMark : bstarts ((bs "committer" ++ [32]) ++ format_who_when c.committer)
      (bs "mark :") = false := by
    rw [show (bs "committer" ++ [32]) ++ format_who_when c.committer =
      99 :: (bs "ommitter" ++ [32] ++ format_who_when c.committer) from by
        simp [List.append_assoc]
        rfl,
      show bs "mark :" = (109 : Nat) :: bs "ark :" from rfl]
    exact bstarts_cons_ne _ _ (by omega)
  -- the first line after the mark section
  have hTA : ∃ l r2, authorsSfx c ++
      (((bs "committer" ++ [32]) ++ format_who_when c.committer) ++ 10 ::
        (((bs "data " ++ natToBytes m5.length)) ++ 10 :: (m5 ++ 10 ::
          (fromSfx c.from_ ++ (mergeLines ms ++ (propLines ps ++ filesSfx ops)))))) =
      l ++ 10 :: r2 ∧ (∀ b ∈ l, b ≠ 10) ∧ bstarts l (bs "mark :") = false := by
    rcases hau : c.author with _ | a
    · refine ⟨(bs "committer" ++ [32]) ++ format_who_when c.committer,
        (bs "data " ++ natToBytes m5.length) ++ 10 :: (m5 ++ 10 ::
          (fromSfx c.from_ ++ (mergeLines ms ++ (propLines ps ++ filesSfx ops)))),
        by simp [hASfx, hau, authorsSfxOf], hCMl10, hCMnoMark⟩
    · refine ⟨(bs "author" ++ [32]) ++ format_who_when a,
        authorLines mo ++ (((bs "committer" ++ [32]) ++ format_who_when c.committer) ++
          10 :: ((bs "data " ++ natToBytes m5.length) ++ 10 :: (m5 ++ 10 ::
            (fromSfx c.from_ ++ (mergeLines ms ++ (propLines ps ++ filesSfx ops)))))),
        ?_, ?_, ?_⟩
      · rw [hASfx, hau]
        simp [authorsSfxOf, authorLine, List.append_assoc]
        rfl
      · exact no10_append (by decide) (fww_no10 a (hauthor a hau))
      · rw [show (bs "author" ++ [32]) ++ format_who_when a =
          97 :: (bs "uthor" ++ [32] ++ format_who_when a) from by
            simp [List.append_assoc]
            rfl,
          show bs "mark :" = (109 : Nat) :: bs "ark :" from rfl]
        exact bstarts_cons_ne _ _ (by omega)
  -- step 1: the mark
  obtain ⟨S1, hS1, hoS1, hfe1, hdf1⟩ := getMark_run c.mark h2 st _ hb hi1 hTA
  -- step 2: author and extra authors
  rw [hASfx] at hoS1
  obtain ⟨S2, S3, hUIO, hMAL, hoS3, hfe3, hdf3⟩ := authors_run c.author mo hauthor
    hmoWF hmoNil fuel S1 _ hoS1
    ⟨(bs "committer" ++ [32]) ++ format_who_when c.committer, _, rfl, hCMl10,
      hCMnoAuthor⟩
    (Or.inl (by rw [hdf1, hdf])) hbMO
  -- step 3: the committer
  have hrdC := offers_read hoS3 rfl hCMl10
  have hUIR := getUserInfoReq_present (bs "commit") (bs "committer") false S3 _
    c.committer hrdC h4 (by
      rcases hdf3 with h | h
      · exact Or.inl (by simp [h, hdf1, hdf])
      · exact Or.inr (by simp [h]))
  -- step 4: the message
  have hnlD : nextLine { { S3 with buf := [], input := (bs "data " ++ natToBytes m5.length) ++ 10 :: (m5 ++ 10 :: (fromSfx c.from_ ++ (mergeLines ms ++ (propLines ps ++ filesSfx ops)))), lineno := S3.lineno + 1 } with dateFmt := some DateFmt.raw } = .ok (some (bs "data " ++ natToBytes m5.length)) { { S3 with buf := [], input := m5 ++ 10 :: (fromSfx c.from_ ++ (mergeLines ms ++ (propLines ps ++ filesSfx ops))), lineno := S3.lineno + 1 + 1 } with dateFmt := some DateFmt.raw } := by
    exact nextLine_raw _ (bs "data " ++ natToBytes m5.length) (m5 ++ 10 :: (fromSfx c.from_ ++ (mergeLines ms ++ (propLines ps ++ filesSfx ops)))) rfl rfl (no10_append (by decide) (fun b hbm => by have := natToBytes_digits _ b hbm; omega))
  have hGD := getData_format (bs "commit") (bs "message") _ _ m5
    (fromSfx c.from_ ++ (mergeLines ms ++ (propLines ps ++ filesSfx ops))) hnlD rfl
  -- step 5: from
  have hf10 : ∀ f, c.from_ = some f → ∀ b ∈ f, b ≠ 10 := by
    intro f hf
    rw [hf] at h6
    exact allNot_iff.mp (by simpa using h6)
  obtain ⟨S6, hGF, hoS6, hfeS6⟩ := getFrom_run c.from_ { { S3 with buf := [], input := fromSfx c.from_ ++ (mergeLines ms ++ (propLines ps ++ filesSfx ops)), lineno := S3.lineno + 1 + 1 + countLF m5 + 1 } with dateFmt := some DateFmt.raw } (mergeLines ms ++ (propLines ps ++ filesSfx ops)) rfl rfl hf10 hT1
  -- step 6: merges
  obtain ⟨S7, hML, hoS7, hfeS7⟩ := mergesLoop_full ms hmsW fuel [] S6 _ hbMS hoS6 hT2
  -- step 7: properties
  obtain ⟨S8, hPL, hoS8, hfeS8⟩ := propsLoop_full ps hpsW hsorted fuel [] S7 _ hbPS
    (fun p hp q hq => absurd hq (List.not_mem_nil q)) hoS7 hT3
  -- step 8: the file commands
  obtain ⟨S9, hFL, hbS9, hiS9, hfeS9⟩ := fileCmdsLoop_full ops hops fuel [] S8
    hbOPS hoS8
  refine ⟨S9, ?_, hbS9, hiS9, ?_⟩
  · rw [parseCommit_eq]
    rw [M_bind_apply, show getPS st = Res.ok st st from rfl]
    simp only []
    rw [M_bind_apply, hS1]
    simp only []
    rw [M_bind_apply, hUIO]
    simp only []
    rw [M_bind_apply, hMAL]
    simp only []
    rw [M_bind_apply, hUIR]
    simp only []
    rw [M_bind_apply, hGD]
    simp only []
    rw [M_bind_apply, hGF]
    simp only []
    rw [M_bind_apply, hML]
    simp only []
    rw [M_bind_apply, hPL]
    simp only []
    rw [M_bind_apply, hFL]
    simp only []
    rw [M_pure_apply]
    congr 1
    rw [markBytesOf_map c.mark h2]
    simp only [List.nil_append, List.reverse_nil]
    rw [← hmsg, ← hmrg, ← hpr, ← hfi, ← hmo]
  · rw [hfeS9, hfeS8, hfeS7, hfeS6]
    show S3.features = st.features
    rw [hfe3, hfe1]

/-! ## Last-byte analysis for `emitLF` -/

theorem bends10_iff (l : Bytes) : bends l [10] = true ↔ l.reverse.head? = some 10 := by
  unfold bends List.isSuffixOf
  cases hrev : l.reverse with
  | nil =>
      show List.isPrefixOf [10] [] = true ↔ _
      simp [List.isPrefixOf]
  | cons c r =>
      show List.isPrefixOf [10] (c :: r) = true ↔ _
      simp only [List.isPrefixOf, Bool.and_eq_true, beq_iff_eq, List.head?,
        Option.some.injEq]
      constructor
      · intro h2; exact h2.1.symm
      · intro h2; exact ⟨h2.symm, by simp [List.isPrefixOf]⟩

theorem revHead_append (x m : Bytes) (hm : m ≠ []) :
    (x ++ m).reverse.head? = m.reverse.head? := by
  rw [List.reverse_append]
  cases hrev : m.reverse with
  | nil =>
      have : m = [] := by simpa using congrArg List.reverse hrev
      exact absurd this hm
  | cons c r => simp

theorem bends10_of_no10 (l : Bytes) (h : ∀ b ∈ l, b ≠ 10) : bends l [10] = false := by
  cases hb : bends l [10] with
  | false => rfl
  | true =>
      have h2 := (bends10_iff l).mp hb
      cases hrev : l.reverse with
      | nil => rw [hrev] at h2; exact absurd h2 (by simp)
      | cons c r =>
          rw [hrev] at h2
          have hc : c = 10 := by simpa using h2
          have : c ∈ l := by rw [← List.mem_reverse, hrev]; exact List.mem_cons_self c r
          exact absurd hc (h c this)

/-- The block is empty, or a chunk ending in LF whose byte before that
LF is not itself an LF. -/
def goodTail (B : Bytes) : Prop :=
  B = [] ∨ ∃ W, B = W ++ [10] ∧ W ≠ [] ∧ W.reverse.head? ≠ some 10

theorem goodTail_append {A B : Bytes} (hA : goodTail A) (hB : goodTail B) :
    goodTail (A ++ B) := by
  rcases hB with hB | ⟨W, hW, hWne, hWl⟩
  · rw [hB, List.append_nil]
    exact hA
  · refine Or.inr ⟨A ++ W, by rw [hW, List.append_assoc], by simp [hWne], ?_⟩
    rw [revHead_append A W hWne]
    exact hWl

theorem goodTail_line (W : Bytes) (hW : W ≠ []) (h10 : ∀ b ∈ W, b ≠ 10) :
    goodTail (W ++ [10]) := by
  refine Or.inr ⟨W, rfl, hW, ?_⟩
  cases hrev : W.reverse with
  | nil => simp
  | cons c r =>
      have : c ∈ W := by
        rw [← List.mem_reverse, hrev]
        exact List.mem_cons_self c r
      simp [h10 c this]

theorem goodTail_flatten {α : Type} (g : α → Bytes) (xs : List α)
    (h : ∀ x ∈ xs, goodTail (g x)) :
    goodTail ((xs.map (fun x => g x)).flatten) := by
  induction xs with
  | nil => exact Or.inl rfl
  | cons x r ih =>
      simp only [List.map_cons, List.flatten_cons]
      exact goodTail_append (h x (List.mem_cons_self x r))
        (ih (fun y hy => h y (List.mem_cons_of_mem x hy)))

theorem goodTail_data (d : Bytes) (hd : WFdata d = true) :
    goodTail (dataSfx d) := by
  obtain ⟨hne, hnl⟩ : d.isEmpty = false ∧ bends d [10] = false := by
    simpa [WFdata, Bool.and_eq_true] using hd
  have hdne : d ≠ [] := by simpa using hne
  refine Or.inr ⟨bs "data " ++ natToBytes d.length ++ [10] ++ d, by
    simp [dataSfx, List.append_assoc], by simp [hdne], ?_⟩
  rw [show bs "data " ++ natToBytes d.length ++ [10] ++ d =
    (bs "data " ++ natToBytes d.length ++ [10]) ++ d from by simp [List.append_assoc]]
  rw [revHead_append _ d hdne]
  intro hcon
  rw [(bends10_iff d).mpr hcon] at hnl
  exact Bool.noConfusion hnl

theorem bends_of_shape (sb P B : Bytes) (hshape : sb ++ [10] = P ++ 10 :: B)
    (hne : B ≠ []) (hgt : goodTail B) : bends sb [10] = false := by
  rcases hgt with h | ⟨W, hW, hWne, hWl⟩
  · exact absurd h hne
  · have hshape2 : sb ++ [10] = (P ++ 10 :: W) ++ [10] := by
      rw [hshape, hW]
      simp [List.append_assoc]
    have hsb : sb = P ++ 10 :: W := List.append_cancel_right hshape2
    cases hb : bends sb [10] with
    | false => rfl
    | true =>
        have h2 := (bends10_iff sb).mp hb
        rw [hsb, revHead_append P (10 :: W) (by simp),
          show (10 :: W) = [10] ++ W from rfl, revHead_append [10] W hWne] at h2
        exact absurd h2 hWl

theorem bends10_data (x d : Bytes) (hd : WFdata d = true) : bends (x ++ d) [10] = false := by
  obtain ⟨hne, hnl⟩ : d.isEmpty = false ∧ bends d [10] = false := by
    simpa [WFdata, Bool.and_eq_true] using hd
  have hdne : d ≠ [] := by simpa using hne
  cases hb : bends (x ++ d) [10] with
  | false => rfl
  | true =>
      have h2 := (bends10_iff _).mp hb
      rw [revHead_append x d hdne] at h2
      rw [(bends10_iff d).mpr h2] at hnl
      exact Bool.noConfusion hnl

theorem goodTail_markSfx (mk : Option MarkVal) (h : WFmark mk = true) :
    goodTail (markSfx mk) := by
  cases mk with
  | none => exact Or.inl rfl
  | some v =>
      cases v with
      | bytes m =>
          exact goodTail_line (bs "mark :" ++ m)
            (by simp; exact fun hc => absurd hc (by decide))
            (no10_append (by decide) (allNot_iff.mp (by simpa [WFmark] using h)))
      | int n => simp [WFmark] at h

theorem goodTail_authorLine (a : Authorship) (h : WFauth a = true) :
    goodTail (authorLine a) :=
  goodTail_line (bs "author " ++ format_who_when a)
    (by simp; exact fun hc => absurd hc (by decide))
    (no10_append (by decide) (fww_no10 a h))

theorem goodTail_authorsSfx (c : CommitCommand)
    (h3 : (match c.author with
      | none => c.more_authors == some []
      | some a => WFauth a &&
          (match c.more_authors with
           | some l => l.all WFauth
           | none => false)) = true) :
    goodTail (authorsSfx c) := by
  rcases ha : c.author with _ | a
  · exact Or.inl (by simp [authorsSfx, ha])
  · rw [ha] at h3
    simp only [Bool.and_eq_true] at h3
    obtain ⟨hwa, hrest⟩ := h3
    rcases hmo : c.more_authors with _ | l
    · rw [hmo] at hrest
      exact Bool.noConfusion hrest
    · rw [hmo] at hrest
      have hl : ∀ x ∈ l, WFauth x = true := by
        intro x hx
        exact List.all_eq_true.mp hrest x hx
      simp only [authorsSfx, ha, hmo]
      exact goodTail_append (goodTail_authorLine a hwa)
        (goodTail_flatten authorLine l (fun x hx => goodTail_authorLine x (hl x hx)))

theorem goodTail_msgSfx (m : Bytes) (h : WFdata m = true) :
    goodTail (msgSfx (some m)) := goodTail_data m h

theorem goodTail_fromSfx (fo : Option Bytes)
    (h : (match fo with | none => true | some f => allNot f 10) = true) :
    goodTail (fromSfx fo) := by
  cases fo with
  | none => exact Or.inl rfl
  | some f =>
      exact goodTail_line (bs "from " ++ f)
        (by simp; exact fun hc => absurd hc (by decide))
        (no10_append (by decide) (allNot_iff.mp h))

theorem goodTail_mergeLines (ms : List Bytes)
    (h : ∀ m ∈ ms, allNot m 10 = true) :
    goodTail (mergeLines ms) :=
  goodTail_flatten (fun m => bs "merge " ++ m ++ [10]) ms
    (fun m hm => goodTail_line (bs "merge " ++ m)
      (by simp; exact fun hc => absurd hc (by decide))
      (no10_append (by decide) (allNot_iff.mp (h m hm))))

theorem goodTail_propLines (ps : List (Bytes × Option Bytes))
    (h : ∀ p ∈ ps, WFprop p = true) :
    goodTail (propLines ps) := by
  refine goodTail_flatten propLine ps (fun p hp => ?_)
  obtain ⟨⟨body, hbody⟩, h10⟩ := propLine_shape p (h p hp)
  exact goodTail_line (format_property p.1 p.2)
    (by rw [hbody]; simp; exact fun hc => absurd hc (by decide)) h10

theorem goodTail_fileSfx (op : FileCommand) (hop : WFfile op = true) :
    goodTail (fileSfx op) := by
  cases op with
  | modify m =>
      have hsplit := hop
      simp only [WFfile, Bool.and_eq_true] at hsplit
      obtain ⟨hp, hx⟩ := hsplit
      obtain ⟨h10, hne, hs, hq⟩ := WFpath_parts hp
      by_cases hSd : S_ISDIR m.mode = true
      · rw [if_pos hSd] at hx
        obtain ⟨hm40, hdrq, hdq⟩ : m.mode = 0o40000 ∧ m.dataref = some (bs "-") ∧
            m.data = none := by
          simpa [Bool.and_eq_true, and_assoc, beq_iff_eq] using hx
        have htb : FileCommand.toBytes (.modify m) =
            some (bs "M " ++ (bs "040000" ++ 32 :: ([45] ++ 32 :: m.path))) := by
          show FileModifyCommand.toBytes m = _
          unfold FileModifyCommand.toBytes
          rw [hm40]
          simp [show formatMode 0o40000 = some (bs "040000") from rfl,
            show S_ISDIR 0o40000 = true from rfl,
            show format_path m.path false = m.path from format_path_id m.path h10 hq,
            List.append_assoc]
        rw [show fileSfx (.modify m) =
            (bs "M " ++ (bs "040000" ++ 32 :: ([45] ++ 32 :: m.path))) ++ [10] from by
          simp [fileSfx, htb]]
        exact goodTail_line _ (by simp)
          (no10_append (by decide) (no10_append (by decide) (no10_cons (by omega)
            (no10_append (by decide) (no10_cons (by omega) h10)))))
      · rw [if_neg hSd] at hx
        obtain ⟨hmodes, hmatch⟩ := by
          simp only [Bool.and_eq_true] at hx
          exact hx
        have hm4 : m.mode = 0o100644 ∨ m.mode = 0o100755 ∨ m.mode = 0o120000 ∨
            m.mode = 0o160000 := by
          simpa [Bool.or_eq_true, beq_iff_eq, or_assoc] using hmodes
        obtain ⟨ms, hfm, hms, hSdf, _⟩ := mode_roundtrip m.mode hm4
        have hms10 : ∀ b ∈ ms, b ≠ 10 := fun b hb => (hms b hb).2
        rcases hdr : m.dataref with _ | r <;> rcases hd : m.data with _ | d <;>
          rw [hdr, hd] at hmatch
        · simp at hmatch
        · obtain ⟨hdne2, hnl⟩ : d.isEmpty = false ∧ bends d [10] = false := by
            simpa [WFdata, Bool.and_eq_true] using hmatch
          have hdne : d ≠ [] := by simpa using hdne2
          have htb : FileCommand.toBytes (.modify m) =
              some ((bs "M " ++ (ms ++ 32 :: (bs "inline" ++ 32 :: m.path))) ++ 10 ::
                ((bs "data " ++ natToBytes d.length) ++ 10 :: d)) := by
            show FileModifyCommand.toBytes m = _
            unfold FileModifyCommand.toBytes
            simp [hfm, hSdf, hdr, hd,
              show format_path m.path false = m.path from format_path_id m.path h10 hq,
              List.append_assoc]
          refine Or.inr ⟨(bs "M " ++ (ms ++ 32 :: (bs "inline" ++ 32 :: m.path))) ++ 10 ::
              ((bs "data " ++ natToBytes d.length) ++ 10 :: d),
            by simp [fileSfx, htb, List.append_assoc], by simp, ?_⟩
          rw [show (bs "M " ++ (ms ++ 32 :: (bs "inline" ++ 32 :: m.path))) ++ 10 ::
              ((bs "data " ++ natToBytes d.length) ++ 10 :: d) =
              ((bs "M " ++ (ms ++ 32 :: (bs "inline" ++ 32 :: m.path))) ++ 10 ::
                (bs "data " ++ natToBytes d.length) ++ [10]) ++ d from by
            simp [List.append_assoc]]
          rw [revHead_append _ d hdne]
          intro hcon
          rw [(bends10_iff d).mpr hcon] at hnl
          exact Bool.noConfusion hnl
        · obtain ⟨hr10, _, _⟩ : allNot r 10 = true ∧ allNot r 32 = true ∧
              (r == bs "inline") = false := by
            simpa [Bool.and_eq_true, and_assoc] using hmatch
          have htb : FileCommand.toBytes (.modify m) =
              some (bs "M " ++ (ms ++ 32 :: (r ++ 32 :: m.path))) := by
            show FileModifyCommand.toBytes m = _
            unfold FileModifyCommand.toBytes
            simp [hfm, hSdf, hdr,
              show format_path m.path false = m.path from format_path_id m.path h10 hq,
              List.append_assoc]
          rw [show fileSfx (.modify m) =
              (bs "M " ++ (ms ++ 32 :: (r ++ 32 :: m.path))) ++ [10] from by
            simp [fileSfx, htb]]
          exact goodTail_line _ (by simp)
            (no10_append (by decide) (no10_append hms10 (no10_cons (by omega)
              (no10_append (allNot_iff.mp hr10) (no10_cons (by omega) h10)))))
        · simp at hmatch
  | delete p =>
      have hp : WFpath p = true := by simpa [WFfile] using hop
      obtain ⟨h10, hne, hs, hq⟩ := WFpath_parts hp
      rw [show fileSfx (.delete p) = (bs "D " ++ p) ++ [10] from by
        simp [fileSfx, FileCommand.toBytes, format_path_id p h10 hq]]
      exact goodTail_line _ (by simp; exact fun hc => absurd hc (by decide))
        (no10_append (by decide) h10)
  | rename o n =>
      obtain ⟨ho2, hn2⟩ : WFpath2 o = true ∧ WFpath2 n = true := by
        simpa [WFfile, Bool.and_eq_true] using hop
      obtain ⟨hopth, ho32, _, _⟩ := WFpath2_parts ho2
      obtain ⟨hnpth, _, _, _⟩ := WFpath2_parts hn2
      obtain ⟨ho10, _, _, hoq⟩ := WFpath_parts hopth
      obtain ⟨hn10, _, _, hnq⟩ := WFpath_parts hnpth
      rw [show fileSfx (.rename o n) = (bs "R " ++ (o ++ 32 :: n)) ++ [10] from by
        simp [fileSfx, FileCommand.toBytes, format_path_id_q o ho10 hoq ho32,
          format_path_id n hn10 hnq, List.append_assoc]]
      exact goodTail_line _ (by simp)
        (no10_append (by decide) (no10_append ho10 (no10_cons (by omega) hn10)))
  | copy o n =>
      obtain ⟨ho2, hn2⟩ : WFpath2 o = true ∧ WFpath2 n = true := by
        simpa [WFfile, Bool.and_eq_true] using hop
      obtain ⟨hopth, ho32, _, _⟩ := WFpath2_parts ho2
      obtain ⟨hnpth, _, _, _⟩ := WFpath2_parts hn2
      obtain ⟨ho10, _, _, hoq⟩ := WFpath_parts hopth
      obtain ⟨hn10, _, _, hnq⟩ := WFpath_parts hnpth
      rw [show fileSfx (.copy o n) = (bs "C " ++ (o ++ 32 :: n)) ++ [10] from by
        simp [fileSfx, FileCommand.toBytes, format_path_id_q o ho10 hoq ho32,
          format_path_id n hn10 hnq, List.append_assoc]]
      exact goodTail_line _ (by simp)
        (no10_append (by decide) (no10_append ho10 (no10_cons (by omega) hn10)))
  | deleteall =>
      rw [show fileSfx .deleteall = bs "deleteall" ++ [10] from by
        simp [fileSfx, FileCommand.toBytes]]
      exact goodTail_line _ (by decide) (by decide)
  | notemodify nc =>
      simp [WFfile] at hop

theorem goodTail_commitBody (c : CommitCommand) (hwf : WFcommit c = true) :
    goodTail (commitBody c) ∧ commitBody c ≠ [] := by
  have hwf2 := hwf
  simp only [WFcommit, Bool.and_eq_true] at hwf2
  obtain ⟨⟨⟨⟨⟨⟨⟨⟨h1, h2⟩, h3⟩, h4⟩, h5⟩, h6⟩, h7⟩, h8⟩, h9⟩ := hwf2
  rcases hmsg : c.message with _ | m5
  · rw [hmsg] at h5
    simp at h5
  rw [hmsg] at h5
  rcases hmrg : c.merges with _ | ms
  · rw [hmrg] at h7
    simp at h7
  rw [hmrg] at h7
  rcases hpr : c.properties with _ | ps
  · rw [hpr] at h8
    simp at h8
  rw [hpr] at h8
  rcases hfi : c.file_iter with _ | ops
  · rw [hfi] at h9
    simp at h9
  rw [hfi] at h9
  simp only [Bool.and_eq_true] at h8
  constructor
  · unfold commitBody
    rw [hmsg, hmrg, hpr, hfi]
    refine goodTail_append (goodTail_append (goodTail_append (goodTail_append
      (goodTail_append (goodTail_append (goodTail_append
        (goodTail_markSfx c.mark h2) (goodTail_authorsSfx c h3)) ?_)
        (goodTail_msgSfx m5 h5)) (goodTail_fromSfx c.from_ h6)) ?_) ?_) ?_
    · exact goodTail_line (bs "committer " ++ format_who_when c.committer)
        (by simp; exact fun hc => absurd hc (by decide))
        (no10_append (by decide) (fww_no10 c.committer h4))
    · exact goodTail_mergeLines ms (fun m hm => by
        have := List.all_eq_true.mp h7 m hm
        simp only [Bool.and_eq_true] at this
        exact this.1)
    · exact goodTail_propLines ps (fun p hp => List.all_eq_true.mp h8.1 p hp)
    · show goodTail (filesSfx ((some ops).getD []))
      exact goodTail_flatten fileSfx ops
        (fun op hop2 => goodTail_fileSfx op (List.all_eq_true.mp h9 op hop2))
  · intro hc
    unfold commitBody at hc
    rw [hmsg] at hc
    simp only [msgSfx, dataSfx, List.append_eq_nil] at hc
    obtain ⟨⟨⟨⟨⟨_, hmid⟩, _⟩, _⟩, _⟩, _⟩ := hc
    obtain ⟨⟨⟨_, h10nil⟩, _⟩, _⟩ := hmid
    exact absurd h10nil (by decide)

/-- One dispatch step of `iter_commands` on the result of reading a
line. -/
def cmdStep (fuel : Nat) (acc : List ImportCommand) : Res (Option Bytes) → RunResult
  | .err e => .fail acc.reverse e
  | .hang => .hang acc.reverse
  | .ok none st2 =>
      if (dictGet st2.features (bs "done")).isSome then
        .fail acc.reverse (.prematureEnd st2.lineno)
      else .done acc.reverse st2
  | .ok (some line) st2 =>
      if line.length = 0 ∨ bstarts line (bs "#") then iterCmdsGo fuel acc st2
      else if bstarts line (bs "commit ") then
        match parseCommit fuel (line.drop 7) st2 with
        | .ok c st3 => iterCmdsGo fuel (.commit c :: acc) st3
        | .err e => .fail acc.reverse e
        | .hang => .hang acc.reverse
      else if bstarts line (bs "blob") then
        match parseBlob st2 with
        | .ok c st3 => iterCmdsGo fuel (.blob c :: acc) st3
        | .err e => .fail acc.reverse e
        | .hang => .hang acc.reverse
      else if bstarts line (bs "done") then .done acc.reverse st2
      else if bstarts line (bs "progress ") then
        iterCmdsGo fuel (.progress (line.drop 9) :: acc) st2
      else if bstarts line (bs "reset ") then
        match parseReset (line.drop 6) st2 with
        | .ok c st3 => iterCmdsGo fuel (.reset c :: acc) st3
        | .err e => .fail acc.reverse e
        | .hang => .hang acc.reverse
      else if bstarts line (bs "tag ") then
        match parseTag (line.drop 4) st2 with
        | .ok c st3 => iterCmdsGo fuel (.tag c :: acc) st3
        | .err e => .fail acc.reverse e
        | .hang => .hang acc.reverse
      else if bstarts line (bs "checkpoint") then
        iterCmdsGo fuel (.checkpoint :: acc) st2
      else if bstarts line (bs "feature") then
        match parseFeature (line.drop 8) st2 with
        | .ok c st3 => iterCmdsGo fuel (.feature c :: acc) st3
        | .err e => .fail acc.reverse e
        | .hang => .hang acc.reverse
      else .fail acc.reverse (.invalidCommand st2.lineno line)

theorem iterCmdsGo_succ (fuel : Nat) (acc : List ImportCommand) (st : PState) :
    iterCmdsGo (fuel + 1) acc st = cmdStep fuel acc (nextLine st) := rfl

theorem dispatch_no (line : Bytes) (h0 : line ≠ []) (hh : bstarts line (bs "#") = false) :
    ¬(line.length = 0 ∨ bstarts line (bs "#") = true) := by
  intro h
  rcases h with h | h
  · exact h0 (List.length_eq_zero.mp h)
  · rw [hh] at h
    exact Bool.noConfusion h

theorem bstarts_false_ne {b : Bool} (hb : b = false) : ¬(b = true) := by
  rw [hb]
  exact Bool.false_ne_true

theorem run_progress (m : Bytes) (hm : allNot m 10 = true) :
    ∃ st2, parseStream (emitLF (bs "progress " ++ m)) = .done [.progress m] st2 := by
  have hm10 : ∀ b ∈ m, b ≠ 10 := allNot_iff.mp hm
  have hno10 : ∀ b ∈ bs "progress " ++ m, b ≠ 10 :=
    no10_append (show ∀ b ∈ bs "progress ", b ≠ 10 from by decide) hm10
  have hemit : emitLF (bs "progress " ++ m) = (bs "progress " ++ m) ++ [10] := by
    unfold emitLF
    rw [bends10_of_no10 _ hno10]
    rfl
  have hcons : bs "progress " ++ m = 112 :: (bs "rogress " ++ m) := rfl
  refine ⟨?w, ?hr⟩
  rotate_left
  rw [hemit]
  unfold parseStream
  show iterCmdsGo ((List.length (bs "progress " ++ m ++ [10]) + 1) + 1) []
    (initState (bs "progress " ++ m ++ [10]) 0) = _
  rw [iterCmdsGo_succ]
  rw [nextLine_raw (initState ((bs "progress " ++ m) ++ [10]) 0) (bs "progress " ++ m) []
    rfl rfl hno10]
  simp only [cmdStep]
  rw [if_neg (dispatch_no _ (by simp; exact fun hc => absurd hc (by decide))
    (by rw [hcons, show (bs "#" : Bytes) = 35 :: [] from rfl]
        exact bstarts_cons_ne _ _ (by omega)))]
  rw [if_neg (bstarts_false_ne (by
    rw [hcons, show (bs "commit " : Bytes) = 99 :: bs "ommit " from rfl]
    exact bstarts_cons_ne _ _ (by omega)))]
  rw [if_neg (bstarts_false_ne (by
    rw [hcons, show (bs "blob" : Bytes) = 98 :: bs "lob" from rfl]
    exact bstarts_cons_ne _ _ (by omega)))]
  rw [if_neg (bstarts_false_ne (by
    rw [hcons, show (bs "done" : Bytes) = 100 :: bs "one" from rfl]
    exact bstarts_cons_ne _ _ (by omega)))]
  rw [if_pos (bstarts_append_self (bs "progress ") m)]
  rw [show (bs "progress " ++ m).drop 9 = m from by
    rw [show (9 : Nat) = (bs "progress ").length from rfl]
    exact List.drop_left _ _]
  rw [iterCmdsGo_succ]
  rw [nextLine_eof _ rfl rfl]
  simp only [cmdStep, initState]
  rw [if_neg (show ¬((dictGet ([] : List (Bytes × Option Bytes)) (bs "done")).isSome = true)
    from by decide)]
  exact rfl

theorem run_checkpoint :
    ∃ sb st2, serializeCmd .checkpoint = some sb ∧
      parseStream (emitLF sb) = .done [setPos .checkpoint 1] st2 :=
  ⟨bs "checkpoint", ⟨[], 2, [], none, [], 0⟩, rfl, by decide⟩

theorem run_reset (r : ResetCommand) (h : WFcmd (.reset r) = true) :
    ∃ sb st2, serializeCmd (.reset r) = some sb ∧
      parseStream (emitLF sb) = .done [setPos (.reset r) 1] st2 := by
  obtain ⟨href, hfo⟩ : allNot r.ref 10 = true ∧
      (match r.from_ with | none => true | some f => allNot f 10) = true := by
    simpa [WFcmd, Bool.and_eq_true] using h
  have hr10 : ∀ b ∈ r.ref, b ≠ 10 := allNot_iff.mp href
  have hcons : ∀ x : Bytes, bs "reset " ++ x = 114 :: (bs "eset " ++ x) := fun x => rfl
  have hno10L1 : ∀ b ∈ bs "reset " ++ r.ref, b ≠ 10 :=
    no10_append (show ∀ b ∈ bs "reset ", b ≠ 10 from by decide) hr10
  rcases r with ⟨ref, fo⟩
  rcases fo with _ | f
  · -- no from line: the serialization is a single LF-free line
    suffices h2 : ∃ st2, parseStream (emitLF (bs "reset " ++ ref)) =
        .done [.reset ⟨ref, none⟩] st2 by
      obtain ⟨st2, h3⟩ := h2
      exact ⟨bs "reset " ++ ref, st2, rfl, h3⟩
    have hemit : emitLF (bs "reset " ++ ref) = (bs "reset " ++ ref) ++ [10] := by
      unfold emitLF
      rw [bends10_of_no10 _ hno10L1]
      rfl
    refine ⟨?w1, ?hr1⟩
    rotate_left
    rw [hemit]
    unfold parseStream
    show iterCmdsGo ((List.length (bs "reset " ++ ref ++ [10]) + 1) + 1) []
      (initState (bs "reset " ++ ref ++ [10]) 0) = _
    rw [iterCmdsGo_succ]
    rw [nextLine_raw (initState ((bs "reset " ++ ref) ++ [10]) 0) (bs "reset " ++ ref) []
      rfl rfl hno10L1]
    simp only [cmdStep]
    rw [if_neg (dispatch_no _ (by simp; exact fun hc => absurd hc (by decide))
      (by rw [hcons, show (bs "#" : Bytes) = 35 :: [] from rfl]
          exact bstarts_cons_ne _ _ (by omega)))]
    rw [if_neg (bstarts_false_ne (by
      rw [hcons, show (bs "commit " : Bytes) = 99 :: bs "ommit " from rfl]
      exact bstarts_cons_ne _ _ (by omega)))]
    rw [if_neg (bstarts_false_ne (by
      rw [hcons, show (bs "blob" : Bytes) = 98 :: bs "lob" from rfl]
      exact bstarts_cons_ne _ _ (by omega)))]
    rw [if_neg (bstarts_false_ne (by
      rw [hcons, show (bs "done" : Bytes) = 100 :: bs "one" from rfl]
      exact bstarts_cons_ne _ _ (by omega)))]
    rw [if_neg (bstarts_false_ne (by
      rw [hcons, show (bs "progress " : Bytes) = 112 :: bs "rogress " from rfl]
      exact bstarts_cons_ne _ _ (by omega)))]
    rw [if_pos (bstarts_append_self (bs "reset ") ref)]
    rw [show (bs "reset " ++ ref).drop 6 = ref from by
      rw [show (6 : Nat) = (bs "reset ").length from rfl]
      exact List.drop_left _ _]
    rw [show ∀ st, parseReset ref st = (getFrom none >>= fun from_ =>
      (pure ⟨ref, from_⟩ : M ResetCommand)) st from fun st => rfl]
    rw [M_bind_apply, getFrom_eof _ _ (nextLine_eof _ rfl rfl)]
    simp only []
    rw [iterCmdsGo_succ]
    rw [nextLine_eof _ rfl rfl]
    simp only [cmdStep, initState]
    rw [if_neg (show ¬((dictGet ([] : List (Bytes × Option Bytes)) (bs "done")).isSome = true)
      from by decide)]
    exact rfl
  · -- with a from line: the serialization already ends in LF
    have hf10 : ∀ b ∈ f, b ≠ 10 := allNot_iff.mp hfo
    have hnoF : ∀ b ∈ bs "from " ++ f, b ≠ 10 :=
      no10_append (show ∀ b ∈ bs "from ", b ≠ 10 from by decide) hf10
    suffices h2 : ∃ st2, parseStream (emitLF (bs "reset " ++ ref ++
        (10 :: (bs "from " ++ f)) ++ [10])) = .done [.reset ⟨ref, some f⟩] st2 by
      obtain ⟨st2, h3⟩ := h2
      exact ⟨bs "reset " ++ ref ++ (10 :: (bs "from " ++ f)) ++ [10], st2, rfl, h3⟩
    have hemit : emitLF (bs "reset " ++ ref ++ (10 :: (bs "from " ++ f)) ++ [10]) =
        bs "reset " ++ ref ++ (10 :: (bs "from " ++ f)) ++ [10] := by
      unfold emitLF
      rw [(bends10_iff _).mpr (by
        rw [revHead_append _ [10] (by simp)]
        rfl)]
      rfl
    have hishape : bs "reset " ++ ref ++ (10 :: (bs "from " ++ f)) ++ [10] =
        (bs "reset " ++ ref) ++ 10 :: ((bs "from " ++ f) ++ [10]) := by
      simp [List.append_assoc]
    refine ⟨?w2, ?hr2⟩
    rotate_left
    rw [hemit]
    unfold parseStream
    show iterCmdsGo ((List.length (bs "reset " ++ ref ++ (10 :: (bs "from " ++ f)) ++ [10]) + 1) + 1) []
      (initState (bs "reset " ++ ref ++ (10 :: (bs "from " ++ f)) ++ [10]) 0) = _
    rw [iterCmdsGo_succ]
    rw [nextLine_raw (initState (bs "reset " ++ ref ++ (10 :: (bs "from " ++ f)) ++ [10]) 0)
      (bs "reset " ++ ref) ((bs "from " ++ f) ++ [10])
      rfl hishape hno10L1]
    simp only [cmdStep]
    rw [if_neg (dispatch_no _ (by simp; exact fun hc => absurd hc (by decide))
      (by rw [hcons, show (bs "#" : Bytes) = 35 :: [] from rfl]
          exact bstarts_cons_ne _ _ (by omega)))]
    rw [if_neg (bstarts_false_ne (by
      rw [hcons, show (bs "commit " : Bytes) = 99 :: bs "ommit " from rfl]
      exact bstarts_cons_ne _ _ (by omega)))]
    rw [if_neg (bstarts_false_ne (by
      rw [hcons, show (bs "blob" : Bytes) = 98 :: bs "lob" from rfl]
      exact bstarts_cons_ne _ _ (by omega)))]
    rw [if_neg (bstarts_false_ne (by
      rw [hcons, show (bs "done" : Bytes) = 100 :: bs "one" from rfl]
      exact bstarts_cons_ne _ _ (by omega)))]
    rw [if_neg (bstarts_false_ne (by
      rw [hcons, show (bs "progress " : Bytes) = 112 :: bs "rogress " from rfl]
      exact bstarts_cons_ne _ _ (by omega)))]
    rw [if_pos (bstarts_append_self (bs "reset ") ref)]
    rw [show (bs "reset " ++ ref).drop 6 = ref from by
      rw [show (6 : Nat) = (bs "reset ").length from rfl]
      exact List.drop_left _ _]
    rw [show ∀ st, parseReset ref st = (getFrom none >>= fun from_ =>
      (pure ⟨ref, from_⟩ : M ResetCommand)) st from fun st => rfl]
    rw [M_bind_apply,
      getFrom_present none _ _ f (nextLine_raw _ (bs "from " ++ f) [] rfl rfl hnoF)]
    simp only []
    rw [iterCmdsGo_succ]
    rw [nextLine_eof _ rfl rfl]
    simp only [cmdStep, initState]
    rw [if_neg (show ¬((dictGet ([] : List (Bytes × Option Bytes)) (bs "done")).isSome = true)
      from by decide)]
    exact rfl

theorem natToBytes_no10 (n : Nat) : ∀ b ∈ natToBytes n, b ≠ 10 := by
  intro b hb
  have := natToBytes_digits n b hb
  omega

theorem getPS_apply (st : PState) : getPS st = .ok st st := rfl

theorem run_blob (b : BlobCommand) (h : WFcmd (.blob b) = true) :
    ∃ sb st2, serializeCmd (.blob b) = some sb ∧
      parseStream (emitLF sb) = .done [setPos (.blob b) 1] st2 := by
  obtain ⟨hmk, hdat⟩ : (match b.mark with | none => true | some m => allNot m 10) = true ∧
      WFdata b.data = true := by
    simpa [WFcmd, Bool.and_eq_true] using h
  have hDL : ∀ b2 ∈ bs "data " ++ natToBytes b.data.length, b2 ≠ 10 :=
    no10_append (show ∀ x ∈ bs "data ", x ≠ 10 from by decide)
      (natToBytes_no10 b.data.length)
  have hDLnm : bstarts (bs "data " ++ natToBytes b.data.length) (bs "mark :") = false := by
    rw [show bs "data " ++ natToBytes b.data.length =
        100 :: (bs "ata " ++ natToBytes b.data.length) from rfl,
      show (bs "mark :" : Bytes) = 109 :: bs "ark :" from rfl]
    exact bstarts_cons_ne _ _ (by omega)
  rcases b with ⟨mk, d, ln⟩
  rcases mk with _ | m
  · -- no mark line
    suffices h2 : ∃ st2, parseStream (emitLF (bs "blob" ++ [10] ++ bs "data " ++
        natToBytes d.length ++ [10] ++ d)) = .done [.blob ⟨none, d, 1⟩] st2 by
      obtain ⟨st2, h3⟩ := h2
      exact ⟨bs "blob" ++ [10] ++ bs "data " ++ natToBytes d.length ++ [10] ++ d, st2, rfl, h3⟩
    have hemit : emitLF (bs "blob" ++ [10] ++ bs "data " ++ natToBytes d.length ++ [10] ++ d) =
        bs "blob" ++ [10] ++ bs "data " ++ natToBytes d.length ++ [10] ++ d ++ [10] := by
      unfold emitLF
      rw [bends10_data _ d hdat]
      rfl
    have hishape : bs "blob" ++ [10] ++ bs "data " ++ natToBytes d.length ++ [10] ++ d ++ [10] =
        bs "blob" ++ 10 :: ((bs "data " ++ natToBytes d.length) ++ 10 :: (d ++ [10])) := by
      simp [List.append_assoc]
    refine ⟨?w1, ?hr1⟩
    rotate_left
    rw [hemit]
    unfold parseStream
    show iterCmdsGo ((List.length (bs "blob" ++ [10] ++ bs "data " ++ natToBytes d.length ++ [10] ++ d ++ [10]) + 1) + 1) []
      (initState (bs "blob" ++ [10] ++ bs "data " ++ natToBytes d.length ++ [10] ++ d ++ [10]) 0) = _
    rw [iterCmdsGo_succ]
    rw [nextLine_raw _ (bs "blob") ((bs "data " ++ natToBytes d.length) ++ 10 :: (d ++ [10]))
      rfl hishape (by decide)]
    simp only [cmdStep]
    rw [if_neg (dispatch_no _ (by decide) (by decide))]
    rw [if_neg (bstarts_false_ne (by decide))]
    rw [if_pos (show bstarts (bs "blob") (bs "blob") = true from by decide)]
    rw [show ∀ st, parseBlob st = (getPS >>= fun st0 => getMarkIfAny >>= fun mark =>
      getData (bs "blob") (bs "data") >>= fun data =>
      (pure ⟨mark, data, st0.lineno⟩ : M BlobCommand)) st from fun st => rfl]
    rw [M_bind_apply, getPS_apply]
    simp only []
    rw [M_bind_apply, getMarkIfAny_absent _ _ (bs "data " ++ natToBytes d.length)
      (nextLine_raw _ (bs "data " ++ natToBytes d.length) (d ++ [10]) rfl rfl hDL) hDLnm]
    simp only []
    rw [M_bind_apply, getData_format (bs "blob") (bs "data") _ _ d []
      (nextLine_push (bs "data " ++ natToBytes d.length) _) rfl]
    simp only []
    rw [iterCmdsGo_succ]
    rw [nextLine_eof _ rfl rfl]
    simp only [cmdStep, initState]
    rw [if_neg (show ¬((dictGet ([] : List (Bytes × Option Bytes)) (bs "done")).isSome = true)
      from by decide)]
    exact rfl
  · -- with a mark line
    have hm10 : ∀ x ∈ m, x ≠ 10 := allNot_iff.mp (by simpa using hmk)
    have hML : ∀ x ∈ bs "mark :" ++ m, x ≠ 10 :=
      no10_append (show ∀ x ∈ bs "mark :", x ≠ 10 from by decide) hm10
    suffices h2 : ∃ st2, parseStream (emitLF (bs "blob" ++ (10 :: (bs "mark :" ++ m)) ++ [10] ++ bs "data " ++ natToBytes d.length ++ [10] ++ d)) = .done [.blob ⟨some m, d, 1⟩] st2 by
      obtain ⟨st2, h3⟩ := h2
      exact ⟨bs "blob" ++ (10 :: (bs "mark :" ++ m)) ++ [10] ++ bs "data " ++ natToBytes d.length ++ [10] ++ d, st2, rfl, h3⟩
    have hemit : emitLF (bs "blob" ++ (10 :: (bs "mark :" ++ m)) ++ [10] ++ bs "data " ++ natToBytes d.length ++ [10] ++ d) =
        bs "blob" ++ (10 :: (bs "mark :" ++ m)) ++ [10] ++ bs "data " ++ natToBytes d.length ++ [10] ++ d ++ [10] := by
      unfold emitLF
      rw [bends10_data _ d hdat]
      rfl
    have hishape : bs "blob" ++ (10 :: (bs "mark :" ++ m)) ++ [10] ++ bs "data " ++ natToBytes d.length ++ [10] ++ d ++ [10] =
        bs "blob" ++ 10 :: ((bs "mark :" ++ m) ++ 10 :: ((bs "data " ++ natToBytes d.length) ++ 10 :: (d ++ [10]))) := by
      simp [List.append_assoc]
    refine ⟨?w2, ?hr2⟩
    rotate_left
    rw [hemit]
    unfold parseStream
    show iterCmdsGo ((List.length (bs "blob" ++ (10 :: (bs "mark :" ++ m)) ++ [10] ++ bs "data " ++ natToBytes d.length ++ [10] ++ d ++ [10]) + 1) + 1) []
      (initState (bs "blob" ++ (10 :: (bs "mark :" ++ m)) ++ [10] ++ bs "data " ++ natToBytes d.length ++ [10] ++ d ++ [10]) 0) = _
    rw [iterCmdsGo_succ]
    rw [nextLine_raw _ (bs "blob")
      ((bs "mark :" ++ m) ++ 10 :: ((bs "data " ++ natToBytes d.length) ++ 10 :: (d ++ [10])))
      rfl hishape (by decide)]
    simp only [cmdStep]
    rw [if_neg (dispatch_no _ (by decide) (by decide))]
    rw [if_neg (bstarts_false_ne (by decide))]
    rw [if_pos (show bstarts (bs "blob") (bs "blob") = true from by decide)]
    rw [show ∀ st, parseBlob st = (getPS >>= fun st0 => getMarkIfAny >>= fun mark =>
      getData (bs "blob") (bs "data") >>= fun data =>
      (pure ⟨mark, data, st0.lineno⟩ : M BlobCommand)) st from fun st => rfl]
    rw [M_bind_apply, getPS_apply]
    simp only []
    rw [M_bind_apply, getMarkIfAny_present _ _ m
      (nextLine_raw _ (bs "mark :" ++ m)
        ((bs "data " ++ natToBytes d.length) ++ 10 :: (d ++ [10])) rfl rfl hML)]
    simp only []
    rw [M_bind_apply, getData_format (bs "blob") (bs "data") _ _ d []
      (nextLine_raw _ (bs "data " ++ natToBytes d.length) (d ++ [10]) rfl rfl hDL) rfl]
    simp only []
    rw [iterCmdsGo_succ]
    rw [nextLine_eof _ rfl rfl]
    simp only [cmdStep, initState]
    rw [if_neg (show ¬((dictGet ([] : List (Bytes × Option Bytes)) (bs "done")).isSome = true)
      from by decide)]
    exact rfl

theorem dictGet_single_ne (k : Bytes) (v : Option Bytes) (k2 : Bytes)
    (h : (k == k2) = false) : dictGet [(k, v)] k2 = none := by
  simp [dictGet, List.find?, h]

theorem parseFeature_none (name : Bytes) (h61 : ∀ b ∈ name, b ≠ 61) (st : PState) :
    parseFeature name st = .ok ⟨name, none, st.lineno⟩
      { st with features := dictInsert name none st.features } := by
  have h3 : parseFeature name st = ((match splitByteN 61 1 name with
      | [n] => do
          setFeature n none
          let st0 ← getPS
          pure ⟨n, none, st0.lineno⟩
      | [n, vraw] => do
          let value ← pathOf vraw
          setFeature n (some value)
          let st0 ← getPS
          pure ⟨n, some value, st0.lineno⟩
      | _ => throwErr .indexError : M FeatureCommand)) st := rfl
  rw [h3, splitByteN_one 61 1 name h61]
  show (setFeature name none >>= fun _ => getPS >>= fun st0 =>
    pure (⟨name, none, st0.lineno⟩ : FeatureCommand) : M FeatureCommand) st = _
  rw [M_bind_apply, show setFeature name none st =
    .ok () { st with features := dictInsert name none st.features } from rfl]
  simp only []
  rw [M_bind_apply, getPS_apply]
  simp only []
  rw [M_pure_apply]

theorem parseFeature_some (name v : Bytes) (h61 : ∀ b ∈ name, b ≠ 61)
    (hq : v.head? ≠ some 34) (st : PState) :
    parseFeature (name ++ 61 :: v) st = .ok ⟨name, some v, st.lineno⟩
      { st with features := dictInsert name (some v) st.features } := by
  have h3 : parseFeature (name ++ 61 :: v) st = ((match splitByteN 61 1 (name ++ 61 :: v) with
      | [n] => do
          setFeature n none
          let st0 ← getPS
          pure ⟨n, none, st0.lineno⟩
      | [n, vraw] => do
          let value ← pathOf vraw
          setFeature n (some value)
          let st0 ← getPS
          pure ⟨n, some value, st0.lineno⟩
      | _ => throwErr .indexError : M FeatureCommand)) st := rfl
  rw [h3, splitByteN_two name v h61]
  show (pathOf v >>= fun value => setFeature name (some value) >>= fun _ =>
    getPS >>= fun st0 =>
    pure (⟨name, some value, st0.lineno⟩ : FeatureCommand) : M FeatureCommand) st = _
  rw [M_bind_apply, pathOf_plain v hq st]
  simp only []
  rw [M_bind_apply, show setFeature name (some v) st =
    .ok () { st with features := dictInsert name (some v) st.features } from rfl]
  simp only []
  rw [M_bind_apply, getPS_apply]
  simp only []
  rw [M_pure_apply]

theorem run_feature (f : FeatureCommand) (h : WFcmd (.feature f) = true) :
    ∃ sb st2, serializeCmd (.feature f) = some sb ∧
      parseStream (emitLF sb) = .done [setPos (.feature f) 1] st2 := by
  obtain ⟨h10, h61, hnd, hval⟩ : allNot f.feature_name 10 = true ∧
      allNot f.feature_name 61 = true ∧ (f.feature_name == bs "done") = false ∧
      (match f.value with
       | none => true
       | some v => allNot v 10 && ! (v.head? == some 34)) = true := by
    have h2 := h
    simp only [WFcmd, Bool.and_eq_true] at h2
    exact ⟨h2.1.1.1, h2.1.1.2, by simpa using h2.1.2, h2.2⟩
  have hn10 : ∀ b ∈ f.feature_name, b ≠ 10 := allNot_iff.mp h10
  have hn61 : ∀ b ∈ f.feature_name, b ≠ 61 := allNot_iff.mp h61
  have hcons : ∀ x : Bytes, bs "feature " ++ x = 102 :: (bs "eature " ++ x) := fun x => rfl
  rcases f with ⟨name, vo, ln⟩
  rcases vo with _ | v
  · suffices h2 : ∃ st2, parseStream (emitLF (bs "feature " ++ name)) =
        .done [.feature ⟨name, none, 1⟩] st2 by
      obtain ⟨st2, h3⟩ := h2
      exact ⟨bs "feature " ++ name, st2, rfl, h3⟩
    have hL1 : ∀ b ∈ bs "feature " ++ name, b ≠ 10 :=
      no10_append (show ∀ b ∈ bs "feature ", b ≠ 10 from by decide) hn10
    have hemit : emitLF (bs "feature " ++ name) = bs "feature " ++ name ++ [10] := by
      unfold emitLF
      rw [bends10_of_no10 _ hL1]
      rfl
    refine ⟨?w1, ?hr1⟩
    rotate_left
    rw [hemit]
    unfold parseStream
    show iterCmdsGo ((List.length (bs "feature " ++ name ++ [10]) + 1) + 1) []
      (initState (bs "feature " ++ name ++ [10]) 0) = _
    rw [iterCmdsGo_succ]
    rw [nextLine_raw (initState (bs "feature " ++ name ++ [10]) 0) (bs "feature " ++ name) []
      rfl rfl hL1]
    simp only [cmdStep]
    rw [if_neg (dispatch_no _ (by simp; exact fun hc => absurd hc (by decide))
      (by rw [hcons, show (bs "#" : Bytes) = 35 :: [] from rfl]
          exact bstarts_cons_ne _ _ (by omega)))]
    rw [if_neg (bstarts_false_ne (by
      rw [hcons, show (bs "commit " : Bytes) = 99 :: bs "ommit " from rfl]
      exact bstarts_cons_ne _ _ (by omega)))]
    rw [if_neg (bstarts_false_ne (by
      rw [hcons, show (bs "blob" : Bytes) = 98 :: bs "lob" from rfl]
      exact bstarts_cons_ne _ _ (by omega)))]
    rw [if_neg (bstarts_false_ne (by
      rw [hcons, show (bs "done" : Bytes) = 100 :: bs "one" from rfl]
      exact bstarts_cons_ne _ _ (by omega)))]
    rw [if_neg (bstarts_false_ne (by
      rw [hcons, show (bs "progress " : Bytes) = 112 :: bs "rogress " from rfl]
      exact bstarts_cons_ne _ _ (by omega)))]
    rw [if_neg (bstarts_false_ne (by
      rw [hcons, show (bs "reset " : Bytes) = 114 :: bs "eset " from rfl]
      exact bstarts_cons_ne _ _ (by omega)))]
    rw [if_neg (bstarts_false_ne (by
      rw [hcons, show (bs "tag " : Bytes) = 116 :: bs "ag " from rfl]
      exact bstarts_cons_ne _ _ (by omega)))]
    rw [if_neg (bstarts_false_ne (by
      rw [hcons, show (bs "checkpoint" : Bytes) = 99 :: bs "heckpoint" from rfl]
      exact bstarts_cons_ne _ _ (by omega)))]
    rw [if_pos (show bstarts (bs "feature " ++ name) (bs "feature") = true from
      bstarts_append_self (bs "feature") (32 :: name))]
    rw [show (bs "feature " ++ name).drop 8 = name from by
      rw [show (8 : Nat) = (bs "feature ").length from rfl]
      exact List.drop_left _ _]
    rw [parseFeature_none name hn61]
    simp only []
    rw [iterCmdsGo_succ]
    rw [nextLine_eof _ rfl rfl]
    simp only [cmdStep, initState, dictInsert]
    rw [if_neg (show ¬((dictGet [(name, (none : Option Bytes))] (bs "done")).isSome = true)
      from by
      rw [dictGet_single_ne name none (bs "done") hnd]
      decide)]
    exact rfl
  · obtain ⟨hv10, hvq⟩ : allNot v 10 = true ∧ (v.head? == some 34) = false := by
      have h2 := hval
      simp only [Bool.and_eq_true] at h2
      exact ⟨h2.1, by simpa using h2.2⟩
    have hvq2 : v.head? ≠ some 34 := by
      intro hc
      rw [hc] at hvq
      simp at hvq
    have hser : serializeCmd (.feature ⟨name, some v, ln⟩) =
        some (bs "feature " ++ (name ++ 61 :: v)) := by
      simp [serializeCmd, FeatureCommand.toBytes, List.append_assoc]
    suffices h2 : ∃ st2, parseStream (emitLF (bs "feature " ++ (name ++ 61 :: v))) =
        .done [.feature ⟨name, some v, 1⟩] st2 by
      obtain ⟨st2, h3⟩ := h2
      exact ⟨bs "feature " ++ (name ++ 61 :: v), st2, hser, h3⟩
    have hL1 : ∀ b ∈ bs "feature " ++ (name ++ 61 :: v), b ≠ 10 :=
      no10_append (show ∀ b ∈ bs "feature ", b ≠ 10 from by decide)
        (no10_append hn10 (no10_cons (by omega) (allNot_iff.mp hv10)))
    have hemit : emitLF (bs "feature " ++ (name ++ 61 :: v)) =
        bs "feature " ++ (name ++ 61 :: v) ++ [10] := by
      unfold emitLF
      rw [bends10_of_no10 _ hL1]
      rfl
    refine ⟨?w2, ?hr2⟩
    rotate_left
    rw [hemit]
    unfold parseStream
    show iterCmdsGo ((List.length (bs "feature " ++ (name ++ 61 :: v) ++ [10]) + 1) + 1) []
      (initState (bs "feature " ++ (name ++ 61 :: v) ++ [10]) 0) = _
    rw [iterCmdsGo_succ]
    rw [nextLine_raw (initState (bs "feature " ++ (name ++ 61 :: v) ++ [10]) 0)
      (bs "feature " ++ (name ++ 61 :: v)) [] rfl rfl hL1]
    simp only [cmdStep]
    rw [if_neg (dispatch_no _ (by simp)
      (by rw [hcons, show (bs "#" : Bytes) = 35 :: [] from rfl]
          exact bstarts_cons_ne _ _ (by omega)))]
    rw [if_neg (bstarts_false_ne (by
      rw [hcons, show (bs "commit " : Bytes) = 99 :: bs "ommit " from rfl]
      exact bstarts_cons_ne _ _ (by omega)))]
    rw [if_neg (bstarts_false_ne (by
      rw [hcons, show (bs "blob" : Bytes) = 98 :: bs "lob" from rfl]
      exact bstarts_cons_ne _ _ (by omega)))]
    rw [if_neg (bstarts_false_ne (by
      rw [hcons, show (bs "done" : Bytes) = 100 :: bs "one" from rfl]
      exact bstarts_cons_ne _ _ (by omega)))]
    rw [if_neg (bstarts_false_ne (by
      rw [hcons, show (bs "progress " : Bytes) = 112 :: bs "rogress " from rfl]
      exact bstarts_cons_ne _ _ (by omega)))]
    rw [if_neg (bstarts_false_ne (by
      rw [hcons, show (bs "reset " : Bytes) = 114 :: bs "eset " from rfl]
      exact bstarts_cons_ne _ _ (by omega)))]
    rw [if_neg (bstarts_false_ne (by
      rw [hcons, show (bs "tag " : Bytes) = 116 :: bs "ag " from rfl]
      exact bstarts_cons_ne _ _ (by omega)))]
    rw [if_neg (bstarts_false_ne (by
      rw [hcons, show (bs "checkpoint" : Bytes) = 99 :: bs "heckpoint" from rfl]
      exact bstarts_cons_ne _ _ (by omega)))]
    rw [if_pos (show bstarts (bs "feature " ++ (name ++ 61 :: v)) (bs "feature") = true from
      bstarts_append_self (bs "feature") (32 :: (name ++ 61 :: v)))]
    rw [show (bs "feature " ++ (name ++ 61 :: v)).drop 8 = name ++ 61 :: v from by
      rw [show (8 : Nat) = (bs "feature ").length from rfl]
      exact List.drop_left _ _]
    rw [parseFeature_some name v hn61 hvq2]
    simp only []
    rw [iterCmdsGo_succ]
    rw [nextLine_eof _ rfl rfl]
    simp only [cmdStep, initState, dictInsert]
    rw [if_neg (show ¬((dictGet [(name, some v)] (bs "done")).isSome = true)
      from by
      rw [dictGet_single_ne name (some v) (bs "done") hnd]
      decide)]
    exact rfl

theorem run_tag (t : TagCommand) (h : WFcmd (.tag t) = true) :
    ∃ sb st2, serializeCmd (.tag t) = some sb ∧
      parseStream (emitLF sb) = .done [setPos (.tag t) 1] st2 := by
  obtain ⟨hid, hfo, htg, hmo⟩ : allNot t.id 10 = true ∧
      (match t.from_ with | some f => allNot f 10 | none => false) = true ∧
      (match t.tagger with | some a => WFauth a | none => false) = true ∧
      (match t.message with | some m => WFdata m | none => false) = true := by
    have h2 := h
    simp only [WFcmd, Bool.and_eq_true] at h2
    exact ⟨h2.1.1.1, h2.1.1.2, h2.1.2, h2.2⟩
  rcases t with ⟨id, fo, tgo, mo⟩
  simp only [] at hid hfo htg hmo
  rcases fo with _ | f
  · exact absurd hfo (by simp)
  rcases tgo with _ | a
  · exact absurd htg (by simp)
  rcases mo with _ | msg
  · exact absurd hmo (by simp)
  have hf10 : ∀ b ∈ f, b ≠ 10 := allNot_iff.mp hfo
  have hWFa : WFauth a = true := htg
  have hWFd : WFdata msg = true := hmo
  have hnoL1 : ∀ b ∈ bs "tag " ++ id, b ≠ 10 :=
    no10_append (show ∀ b ∈ bs "tag ", b ≠ 10 from by decide) (allNot_iff.mp hid)
  have hnoF : ∀ b ∈ bs "from " ++ f, b ≠ 10 :=
    no10_append (show ∀ b ∈ bs "from ", b ≠ 10 from by decide) hf10
  have hnoT : ∀ b ∈ (bs "tagger" ++ [32]) ++ format_who_when a, b ≠ 10 :=
    no10_append (show ∀ b ∈ bs "tagger" ++ [32], b ≠ 10 from by decide) (fww_no10 a hWFa)
  have hDL : ∀ b ∈ bs "data " ++ natToBytes msg.length, b ≠ 10 :=
    no10_append (show ∀ x ∈ bs "data ", x ≠ 10 from by decide)
      (natToBytes_no10 msg.length)
  have hcons : ∀ x : Bytes, bs "tag " ++ x = 116 :: (bs "ag " ++ x) := fun x => rfl
  suffices h2 : ∃ st2, parseStream (emitLF (bs "tag " ++ id ++ (10 :: (bs "from " ++ f)) ++
      (10 :: (bs "tagger " ++ format_who_when a)) ++
      ((10 :: (bs "data " ++ natToBytes msg.length)) ++ [10] ++ msg))) =
      .done [.tag ⟨id, some f, some a, some msg⟩] st2 by
    obtain ⟨st2, h3⟩ := h2
    exact ⟨bs "tag " ++ id ++ (10 :: (bs "from " ++ f)) ++
      (10 :: (bs "tagger " ++ format_who_when a)) ++
      ((10 :: (bs "data " ++ natToBytes msg.length)) ++ [10] ++ msg), st2, rfl, h3⟩
  have hsplitmsg : bs "tag " ++ id ++ (10 :: (bs "from " ++ f)) ++
      (10 :: (bs "tagger " ++ format_who_when a)) ++
      ((10 :: (bs "data " ++ natToBytes msg.length)) ++ [10] ++ msg) =
      (bs "tag " ++ id ++ (10 :: (bs "from " ++ f)) ++
        (10 :: (bs "tagger " ++ format_who_when a)) ++
        ((10 :: (bs "data " ++ natToBytes msg.length)) ++ [10])) ++ msg := by
    simp [List.append_assoc]
  have hemit : emitLF (bs "tag " ++ id ++ (10 :: (bs "from " ++ f)) ++
      (10 :: (bs "tagger " ++ format_who_when a)) ++
      ((10 :: (bs "data " ++ natToBytes msg.length)) ++ [10] ++ msg)) =
      bs "tag " ++ id ++ (10 :: (bs "from " ++ f)) ++
      (10 :: (bs "tagger " ++ format_who_when a)) ++
      ((10 :: (bs "data " ++ natToBytes msg.length)) ++ [10] ++ msg) ++ [10] := by
    unfold emitLF
    rw [hsplitmsg, bends10_data _ msg hWFd]
    rw [← hsplitmsg]
    rfl
  have hishape : bs "tag " ++ id ++ (10 :: (bs "from " ++ f)) ++
      (10 :: (bs "tagger " ++ format_who_when a)) ++
      ((10 :: (bs "data " ++ natToBytes msg.length)) ++ [10] ++ msg) ++ [10] =
      (bs "tag " ++ id) ++ 10 :: ((bs "from " ++ f) ++
        10 :: ((bs "tagger " ++ format_who_when a) ++
          10 :: ((bs "data " ++ natToBytes msg.length) ++ 10 :: (msg ++ [10])))) := by
    simp [List.append_assoc]
  refine ⟨?w, ?hr⟩
  rotate_left
  rw [hemit]
  unfold parseStream
  show iterCmdsGo ((List.length (bs "tag " ++ id ++ (10 :: (bs "from " ++ f)) ++
      (10 :: (bs "tagger " ++ format_who_when a)) ++
      ((10 :: (bs "data " ++ natToBytes msg.length)) ++ [10] ++ msg) ++ [10]) + 1) + 1) []
    (initState (bs "tag " ++ id ++ (10 :: (bs "from " ++ f)) ++
      (10 :: (bs "tagger " ++ format_who_when a)) ++
      ((10 :: (bs "data " ++ natToBytes msg.length)) ++ [10] ++ msg) ++ [10]) 0) = _
  rw [iterCmdsGo_succ]
  rw [nextLine_raw _ (bs "tag " ++ id) ((bs "from " ++ f) ++
      10 :: ((bs "tagger " ++ format_who_when a) ++
        10 :: ((bs "data " ++ natToBytes msg.length) ++ 10 :: (msg ++ [10]))))
    rfl hishape hnoL1]
  simp only [cmdStep]
  rw [if_neg (dispatch_no _ (by simp; exact fun hc => absurd hc (by decide))
    (by rw [hcons, show (bs "#" : Bytes) = 35 :: [] from rfl]
        exact bstarts_cons_ne _ _ (by omega)))]
  rw [if_neg (bstarts_false_ne (by
    rw [hcons, show (bs "commit " : Bytes) = 99 :: bs "ommit " from rfl]
    exact bstarts_cons_ne _ _ (by omega)))]
  rw [if_neg (bstarts_false_ne (by
    rw [hcons, show (bs "blob" : Bytes) = 98 :: bs "lob" from rfl]
    exact bstarts_cons_ne _ _ (by omega)))]
  rw [if_neg (bstarts_false_ne (by
    rw [hcons, show (bs "done" : Bytes) = 100 :: bs "one" from rfl]
    exact bstarts_cons_ne _ _ (by omega)))]
  rw [if_neg (bstarts_false_ne (by
    rw [hcons, show (bs "progress " : Bytes) = 112 :: bs "rogress " from rfl]
    exact bstarts_cons_ne _ _ (by omega)))]
  rw [if_neg (bstarts_false_ne (by
    rw [hcons, show (bs "reset " : Bytes) = 114 :: bs "eset " from rfl]
    exact bstarts_cons_ne _ _ (by omega)))]
  rw [if_pos (bstarts_append_self (bs "tag ") id)]
  rw [show (bs "tag " ++ id).drop 4 = id from by
    rw [show (4 : Nat) = (bs "tag ").length from rfl]
    exact List.drop_left _ _]
  rw [show ∀ st, parseTag id st = (getFrom (some (bs "tag")) >>= fun from_ =>
      getUserInfoReq (bs "tag") (bs "tagger") true >>= fun tagger =>
      getData (bs "tag") (bs "message") >>= fun message =>
      (pure ⟨id, from_, some tagger, some message⟩ : M TagCommand)) st from fun st => rfl]
  rw [M_bind_apply, getFrom_present (some (bs "tag")) _ _ f
    (nextLine_raw _ (bs "from " ++ f)
      ((bs "tagger " ++ format_who_when a) ++
        10 :: ((bs "data " ++ natToBytes msg.length) ++ 10 :: (msg ++ [10])))
      rfl rfl hnoF)]
  simp only []
  rw [show ∀ x : Bytes, bs "tagger " ++ x = (bs "tagger" ++ [32]) ++ x from fun x => rfl]
  rw [M_bind_apply, getUserInfoReq_present (bs "tag") (bs "tagger") true _ _ a
    (nextLine_raw _ ((bs "tagger" ++ [32]) ++ format_who_when a)
      ((bs "data " ++ natToBytes msg.length) ++ 10 :: (msg ++ [10]))
      rfl rfl hnoT) hWFa (Or.inl rfl)]
  simp only []
  rw [M_bind_apply, getData_format (bs "tag") (bs "message") _ _ msg []
    (nextLine_raw _ (bs "data " ++ natToBytes msg.length) (msg ++ [10]) rfl rfl hDL) rfl]
  simp only []
  rw [iterCmdsGo_succ]
  rw [nextLine_eof _ rfl rfl]
  simp only [cmdStep, initState]
  rw [if_neg (show ¬((dictGet ([] : List (Bytes × Option Bytes)) (bs "done")).isSome = true)
    from by decide)]
  exact rfl

theorem run_commit (c : CommitCommand) (h : WFcmd (.commit c) = true) :
    ∃ sb st2, serializeCmd (.commit c) = some sb ∧
      parseStream (emitLF sb) = .done [setPos (.commit c) 1] st2 := by
  have hwf : WFcommit c = true := by simpa [WFcmd] using h
  obtain ⟨sb, hsb, hshape⟩ := commit_toBytes_shape c hwf
  obtain ⟨hgt, hneB⟩ := goodTail_commitBody c hwf
  have hbends : bends sb [10] = false :=
    bends_of_shape sb (bs "commit " ++ c.ref) (commitBody c) hshape hneB hgt
  have hemit : emitLF sb = sb ++ [10] := by
    unfold emitLF
    rw [hbends]
    rfl
  have h1 : allNot c.ref 10 = true := by
    have h2 := hwf
    simp only [WFcommit, Bool.and_eq_true] at h2
    exact h2.1.1.1.1.1.1.1.1
  have hnoL1 : ∀ b ∈ bs "commit " ++ c.ref, b ≠ 10 :=
    no10_append (show ∀ b ∈ bs "commit ", b ≠ 10 from by decide) (allNot_iff.mp h1)
  have hlen := congrArg List.length hshape
  simp only [List.length_append, List.length_cons, List.length_nil] at hlen
  have hfuel : (commitBody c).length + 1 ≤ List.length (sb ++ [10]) + 1 := by
    simp only [List.length_append, List.length_cons, List.length_nil]
    omega
  suffices h2 : ∃ st2, parseStream (emitLF sb) = .done [.commit { c with lineno := 1 }] st2 by
    obtain ⟨st2, h3⟩ := h2
    exact ⟨sb, st2, hsb, h3⟩
  obtain ⟨st3, hpc, hb3, hi3, hfe3⟩ := parseCommit_roundtrip c hwf (List.length (sb ++ [10]) + 1) { initState (sb ++ [10]) 0 with input := commitBody c, lineno := (initState (sb ++ [10]) 0).lineno + 1 } rfl rfl rfl hfuel
  refine ⟨?w, ?hr⟩
  rotate_left
  rw [hemit]
  unfold parseStream
  show iterCmdsGo ((List.length (sb ++ [10]) + 1) + 1) [] (initState (sb ++ [10]) 0) = _
  rw [iterCmdsGo_succ]
  rw [nextLine_raw _ (bs "commit " ++ c.ref) (commitBody c) rfl hshape hnoL1]
  simp only [cmdStep]
  rw [if_neg (dispatch_no _ (by simp; exact fun hc => absurd hc (by decide))
    (by rw [show bs "commit " ++ c.ref = 99 :: (bs "ommit " ++ c.ref) from rfl,
          show (bs "#" : Bytes) = 35 :: [] from rfl]
        exact bstarts_cons_ne _ _ (by omega)))]
  rw [if_pos (bstarts_append_self (bs "commit ") c.ref)]
  rw [show (bs "commit " ++ c.ref).drop 7 = c.ref from by
    rw [show (7 : Nat) = (bs "commit ").length from rfl]
    exact List.drop_left _ _]
  rw [hpc]
  simp only []
  rw [iterCmdsGo_succ]
  rw [nextLine_eof st3 hb3 hi3]
  simp only [cmdStep]
  rw [if_neg (show ¬((dictGet st3.features (bs "done")).isSome = true) from by
    rw [hfe3]
    rw [show ({ initState (sb ++ [10]) 0 with input := commitBody c, lineno := (initState (sb ++ [10]) 0).lineno + 1 } : PState).features = ([] : List (Bytes × Option Bytes)) from rfl]
    decide)]
  exact rfl

/-- C1 counterexample: the serializer emits no trailing newline, so feeding a
command's raw bytes straight back to the parser fails.  `CheckpointCommand`
serializes to `b"checkpoint"`; `next_line` unconditionally strips the final
byte of the last (unterminated) line, so the parser sees `b"checkpoin"` and
raises `InvalidCommand` instead of yielding the command back. -/
theorem serialize_parse_claim_counterexample :
    serializeCmd .checkpoint = some (bs "checkpoint") ∧
    parseStream (bs "checkpoint") = .fail [] (.invalidCommand 1 (bs "checkpoin")) :=
  ⟨rfl, by decide⟩

def c1WitCommit : CommitCommand :=
  { ref := bs "refs/heads/x", mark := some (.bytes (bs "1")), author := none,
    committer := ⟨bs "A", bs "a@b", 0, 0⟩, message := some (bs "m"), from_ := none,
    merges := some [], file_iter := some [], more_authors := some [],
    properties := some [], lineno := 7 }

/-- C1 (amended): for well-formed command values, serialization followed by the
newline the filter printer appends parses back to exactly the one command (with
the recorded line number updated to where the parse saw it). -/
theorem serialize_parse_roundtrip (c : ImportCommand) (h : WFcmd c = true) :
    ∃ sb st2, serializeCmd c = some sb ∧
      parseStream (emitLF sb) = .done [setPos c 1] st2 := by
  cases c with
  | blob b => exact run_blob b h
  | checkpoint => exact run_checkpoint
  | commit cc => exact run_commit cc h
  | feature f => exact run_feature f h
  | progress m =>
      obtain ⟨st2, h3⟩ := run_progress m (by simpa [WFcmd] using h)
      exact ⟨bs "progress " ++ m, st2, rfl, h3⟩
  | reset r => exact run_reset r h
  | tag t => exact run_tag t h

theorem serialize_parse_roundtrip_witness :
    WFcmd (.commit c1WitCommit) = true ∧
    ∃ sb st2, serializeCmd (.commit c1WitCommit) = some sb ∧
      parseStream (emitLF sb) = .done [setPos (.commit c1WitCommit) 1] st2 :=
  ⟨by decide, serialize_parse_roundtrip (.commit c1WitCommit) (by decide)⟩


end FastImport
